import Mathlib

/-!
Verification of the rental-room MCP client agent core.

This file shallowly embeds the orchestration core of the repository:
the session store (`src/agent/session-manager.js`), the tool catalog
filter (`src/agent/tool-filter.js`), the tool-call extractor of the
Ollama client (`ollama-client.js`), the invocation gateway
(`src/agent/tool-executor.js`) and the agent orchestrator
(`src/agent/agent.js`).  JavaScript strings are modelled as `List Char`
at the algorithmic level, JSON values by the inductive `Json` below,
machine time (`Date.now()`) by a `Nat` supplied in the environment, and
the HTTP backends (Ollama chat endpoint, MCP tool server) by oracle
functions returning `Except String _` — a `.error` models a rejected
promise / thrown exception of the transport layer.
-/

namespace RentalAgent

/-! ## JavaScript string primitives -/

/-- Whitespace as matched by JavaScript `trim` / `\s` (ASCII part). -/
def isJsWs (c : Char) : Bool :=
  c = ' ' || c = '\t' || c = '\n' || c = '\r' || c = '\x0b' || c = '\x0c'

/-- `String.prototype.trim` on a character list. -/
def jsTrim (l : List Char) : List Char :=
  ((l.dropWhile isJsWs).reverse.dropWhile isJsWs).reverse

/-- `String.prototype.indexOf(pat)`: position of the first occurrence of
`pat` as a contiguous substring, `none` when absent (JS `-1`). -/
def idxOfSubstr : List Char → List Char → Option Nat
  | [], pat => if pat.isEmpty then some 0 else none
  | c :: rest, pat =>
    if pat.isPrefixOf (c :: rest) then some 0
    else (idxOfSubstr rest pat).map (· + 1)

/-- `String.prototype.includes(pat)`. -/
def jsIncludes (l pat : List Char) : Bool :=
  (idxOfSubstr l pat).isSome

/-- ASCII case folding, the model of `toLowerCase` for the ASCII range
(the embedding maps non-ASCII case pairs through explicit tables where
the source depends on them). -/
def jsToLower (l : List Char) : List Char :=
  l.map Char.toLower

/-! ## JSON values

The model of the data JavaScript passes through `JSON.parse` /
`JSON.stringify`.  Numbers are modelled as integers (the repository
only ever round-trips integral identifiers; float formatting is out of
scope of the embedding), objects as association lists in insertion
order. -/

inductive Json where
  | null
  | bool (b : Bool)
  | num (n : Int)
  | str (s : String)
  | arr (xs : List Json)
  | obj (fs : List (String × Json))
  deriving Repr

section

variable {P : Json → Prop} (hnull : P .null) (hbool : ∀ b, P (.bool b))
  (hnum : ∀ n, P (.num n)) (hstr : ∀ s, P (.str s))
  (harr : ∀ xs, (∀ x ∈ xs, P x) → P (.arr xs))
  (hobj : ∀ fs, (∀ p ∈ fs, P p.2) → P (.obj fs))

mutual
/-- Induction over `Json` giving hypotheses on all array elements and
all object field values. -/
def Json.recMem : ∀ j : Json, P j
  | .null => hnull
  | .bool b => hbool b
  | .num n => hnum n
  | .str s => hstr s
  | .arr xs => harr xs (Json.recMemList xs)
  | .obj fs => hobj fs (Json.recMemFields fs)
/-- Member-wise induction hypothesis for array elements. -/
def Json.recMemList : ∀ xs : List Json, ∀ x ∈ xs, P x
  | [], x, hx => absurd hx (List.not_mem_nil x)
  | y :: ys, x, hx =>
    (List.mem_cons.mp hx).elim
      (fun h => (congrArg P h).mpr
        (Json.recMem y))
      (Json.recMemList ys x)
/-- Member-wise induction hypothesis for object field values. -/
def Json.recMemFields : ∀ fs : List (String × Json), ∀ p ∈ fs, P p.2
  | [], p, hp => absurd hp (List.not_mem_nil p)
  | q :: qs, p, hp =>
    (List.mem_cons.mp hp).elim
      (fun h => (congrArg (fun r => P r.2) h).mpr
        (Json.recMem q.2))
      (Json.recMemFields qs p)
end

end

mutual
/-- Structural equality test on `Json`. -/
def Json.beq : Json → Json → Bool
  | .null, .null => true
  | .bool a, .bool b => a == b
  | .num a, .num b => a == b
  | .str a, .str b => a == b
  | .arr a, .arr b => Json.beqList a b
  | .obj a, .obj b => Json.beqFields a b
  | _, _ => false
def Json.beqList : List Json → List Json → Bool
  | [], [] => true
  | x :: xs, y :: ys => Json.beq x y && Json.beqList xs ys
  | _, _ => false
def Json.beqFields : List (String × Json) → List (String × Json) → Bool
  | [], [] => true
  | (k, v) :: xs, (l, w) :: ys => k == l && Json.beq v w && Json.beqFields xs ys
  | _, _ => false
end

/-! ### Serialization (`JSON.stringify`, compact form) -/

/-- Escape one character of a string body: `JSON.stringify` escapes the
quote and the backslash (control characters do not occur in the data
the claims quantify over and are passed through verbatim, matching the
leniency of the parser below). -/
def escChar (c : Char) : List Char :=
  if c = '"' || c = '\\' then ['\\', c] else [c]

/-- Serialized body of a string literal. -/
def serStrBody : List Char → List Char
  | [] => []
  | c :: cs => escChar c ++ serStrBody cs

/-- Serialized string literal, quotes included. -/
def serStr (s : String) : List Char :=
  '"' :: serStrBody s.data ++ ['"']

/-- Decimal digits of a natural number (fuel-indexed so that the
definition reduces definitionally). -/
def natDigitsAux : Nat → Nat → List Char
  | 0, _ => []
  | f + 1, n =>
    if n < 10 then [Char.ofNat (48 + n)]
    else natDigitsAux f (n / 10) ++ [Char.ofNat (48 + n % 10)]

/-- Decimal representation of a natural number. -/
def natChars (n : Nat) : List Char := natDigitsAux (n + 1) n

/-- Decimal representation of an integer. -/
def intChars : Int → List Char
  | .ofNat n => natChars n
  | .negSucc n => '-' :: natChars (n + 1)

mutual
/-- `JSON.stringify` (compact, insertion order), as a character list. -/
def serChars : Json → List Char
  | .null => "null".data
  | .bool true => "true".data
  | .bool false => "false".data
  | .num n => intChars n
  | .str s => serStr s
  | .arr xs => '[' :: serElems xs ++ [']']
  | .obj fs => '{' :: serMembers fs ++ ['}']
/-- Comma-separated serialized array elements. -/
def serElems : List Json → List Char
  | [] => []
  | [x] => serChars x
  | x :: xs => serChars x ++ ',' :: serElems xs
/-- Comma-separated serialized object members. -/
def serMembers : List (String × Json) → List Char
  | [] => []
  | [(k, v)] => serStr k ++ ':' :: serChars v
  | (k, v) :: fs => serStr k ++ ':' :: serChars v ++ ',' :: serMembers fs
end

/-- `JSON.stringify` as a `String`. -/
def Json.stringify (j : Json) : String := String.mk (serChars j)

/-! ### Parsing (`JSON.parse`)

A lenient recursive-descent parser, fuel-indexed so that every
definition reduces definitionally.  `\uXXXX` escapes are outside the
model (they make the parser fail rather than decode). -/

/-- JSON insignificant whitespace. -/
def isJsonWs (c : Char) : Bool :=
  c = ' ' || c = '\t' || c = '\n' || c = '\r'

/-- Skip insignificant whitespace. -/
def skipWs (l : List Char) : List Char := l.dropWhile isJsonWs

/-- Decode a string escape character. -/
def unescChar (c : Char) : Option Char :=
  if c = '"' then some '"'
  else if c = '\\' then some '\\'
  else if c = '/' then some '/'
  else if c = 'b' then some '\x08'
  else if c = 'f' then some '\x0c'
  else if c = 'n' then some '\n'
  else if c = 'r' then some '\r'
  else if c = 't' then some '\t'
  else none

/-- Parse a string-literal body up to and over the closing quote,
returning the decoded characters and the remaining input. -/
def parseStrBody : List Char → Option (List Char × List Char)
  | [] => none
  | '"' :: rest => some ([], rest)
  | '\\' :: c :: rest =>
    match unescChar c with
    | some u => (parseStrBody rest).map (fun p => (u :: p.1, p.2))
    | none => none
  | ['\\'] => none
  | c :: rest => (parseStrBody rest).map (fun p => (c :: p.1, p.2))

/-- Value of a list of decimal digit characters. -/
def digitsVal (ds : List Char) : Nat :=
  ds.foldl (fun a c => a * 10 + (c.toNat - 48)) 0

/-- Parse a natural-number token (no leading zeros, JSON grammar). -/
def parseNatTok (l : List Char) : Option (Nat × List Char) :=
  let ds := l.takeWhile Char.isDigit
  if ds.isEmpty then none
  else if 1 < ds.length && ds.head? = some '0' then none
  else some (digitsVal ds, l.drop ds.length)

/-- Parse an integer token with optional leading minus sign. -/
def parseIntTok : List Char → Option (Int × List Char)
  | '-' :: rest => (parseNatTok rest).map (fun p => (-(p.1 : Int), p.2))
  | l => (parseNatTok l).map (fun p => ((p.1 : Int), p.2))

mutual
/-- Parse one JSON value, returning it with the unconsumed input. -/
def parseVal : Nat → List Char → Option (Json × List Char)
  | 0, _ => none
  | f + 1, l =>
    match skipWs l with
    | 'n' :: 'u' :: 'l' :: 'l' :: r => some (.null, r)
    | 't' :: 'r' :: 'u' :: 'e' :: r => some (.bool true, r)
    | 'f' :: 'a' :: 'l' :: 's' :: 'e' :: r => some (.bool false, r)
    | '"' :: r => (parseStrBody r).map (fun p => (.str (String.mk p.1), p.2))
    | '{' :: r =>
      (match skipWs r with
       | '}' :: r2 => some (.obj [], r2)
       | r2 => (parseMembers f r2).map (fun p => (.obj p.1, p.2)))
    | '[' :: r =>
      (match skipWs r with
       | ']' :: r2 => some (.arr [], r2)
       | r2 => (parseElems f r2).map (fun p => (.arr p.1, p.2)))
    | l2 => (parseIntTok l2).map (fun p => (.num p.1, p.2))
/-- Parse a nonempty member sequence up to and over the closing brace. -/
def parseMembers : Nat → List Char → Option (List (String × Json) × List Char)
  | 0, _ => none
  | f + 1, l =>
    match skipWs l with
    | '"' :: r =>
      (match parseStrBody r with
       | none => none
       | some (k, r2) =>
         match skipWs r2 with
         | ':' :: r3 =>
           (match parseVal f r3 with
            | none => none
            | some (v, r4) =>
              match skipWs r4 with
              | ',' :: r5 =>
                (parseMembers f r5).map
                  (fun p => ((String.mk k, v) :: p.1, p.2))
              | '}' :: r5 => some ([(String.mk k, v)], r5)
              | _ => none)
         | _ => none)
    | _ => none
/-- Parse a nonempty element sequence up to and over the closing bracket. -/
def parseElems : Nat → List Char → Option (List Json × List Char)
  | 0, _ => none
  | f + 1, l =>
    match parseVal f l with
    | none => none
    | some (v, r) =>
      match skipWs r with
      | ',' :: r2 => (parseElems f r2).map (fun p => (v :: p.1, p.2))
      | ']' :: r2 => some ([v], r2)
      | _ => none
end

/-- `JSON.parse` on a character list: one value and nothing but
whitespace after it. -/
def jsonParseChars (l : List Char) : Option Json :=
  match parseVal (l.length + 1) l with
  | some (j, rest) => if (skipWs rest).isEmpty then some j else none
  | none => none

/-- `JSON.parse` on a `String`. -/
def Json.parse? (s : String) : Option Json := jsonParseChars s.data

/-! ### Round trip: digits -/

theorem digitsVal_append (ds : List Char) (c : Char) :
    digitsVal (ds ++ [c]) = 10 * digitsVal ds + (c.toNat - 48) := by
  simp [digitsVal, List.foldl_append, Nat.mul_comm]

theorem char_ofNat_digit_toNat {k : Nat} (h : k < 10) :
    (Char.ofNat (48 + k)).toNat = 48 + k := by
  interval_cases k <;> decide

theorem char_ofNat_digit_isDigit {k : Nat} (h : k < 10) :
    (Char.ofNat (48 + k)).isDigit = true := by
  interval_cases k <;> decide

theorem char_ofNat_digit_eq_zero {k : Nat} (h : k < 10) :
    Char.ofNat (48 + k) = '0' ↔ k = 0 := by
  interval_cases k <;> simp_all

theorem natDigitsAux_spec :
    ∀ f n, n < 10 ^ (f + 1) →
      digitsVal (natDigitsAux (f + 1) n) = n ∧
      natDigitsAux (f + 1) n ≠ [] ∧
      (∀ c ∈ natDigitsAux (f + 1) n, c.isDigit) ∧
      ((natDigitsAux (f + 1) n).head? = some '0' → n = 0) := by
  intro f
  induction f with
  | zero =>
    intro n hn
    have hn : n < 10 := by simpa using hn
    simp only [natDigitsAux, if_pos hn]
    refine ⟨?_, by simp, ?_, ?_⟩
    · simp [digitsVal, char_ofNat_digit_toNat hn]
    · intro c hc
      simp only [List.mem_singleton] at hc
      subst hc; exact char_ofNat_digit_isDigit hn
    · intro h
      simp only [List.head?_cons, Option.some.injEq] at h
      exact (char_ofNat_digit_eq_zero hn).mp h
  | succ f ih =>
    intro n hn
    by_cases hlt : n < 10
    · simp only [natDigitsAux, if_pos hlt]
      refine ⟨?_, by simp, ?_, ?_⟩
      · simp [digitsVal, char_ofNat_digit_toNat hlt]
      · intro c hc
        simp only [List.mem_singleton] at hc
        subst hc; exact char_ofNat_digit_isDigit hlt
      · intro h
        simp only [List.head?_cons, Option.some.injEq] at h
        exact (char_ofNat_digit_eq_zero hlt).mp h
    · push_neg at hlt
      have hdiv : n / 10 < 10 ^ (f + 1) := by
        rw [Nat.div_lt_iff_lt_mul (by norm_num : (0:Nat) < 10)]
        calc n < 10 ^ (f + 1 + 1) := hn
        _ = 10 ^ (f + 1) * 10 := by ring
      obtain ⟨hval, hne, hdig, hhead⟩ := ih (n / 10) hdiv
      have hstep : natDigitsAux (f + 1 + 1) n =
          natDigitsAux (f + 1) (n / 10) ++ [Char.ofNat (48 + n % 10)] := by
        rw [natDigitsAux, if_neg (by omega)]
      have hmod : n % 10 < 10 := Nat.mod_lt _ (by norm_num)
      refine ⟨?_, ?_, ?_, ?_⟩
      · rw [hstep, digitsVal_append, hval, char_ofNat_digit_toNat hmod]
        omega
      · rw [hstep]; simp
      · intro c hc
        rw [hstep] at hc
        rcases List.mem_append.mp hc with h | h
        · exact hdig c h
        · simp only [List.mem_singleton] at h
          subst h; exact char_ofNat_digit_isDigit hmod
      · intro h
        obtain ⟨x, xs, hx⟩ := List.exists_cons_of_ne_nil hne
        rw [hstep, hx] at h
        simp only [List.cons_append, List.head?_cons, Option.some.injEq] at h
        have : n / 10 = 0 := by
          apply hhead; rw [hx, h]; rfl
        omega

theorem nat_lt_ten_pow (n : Nat) : n < 10 ^ (n + 1) := by
  have h1 : n < 2 ^ n := Nat.lt_two_pow n
  have h2 : (2:Nat) ^ n ≤ 10 ^ n := Nat.pow_le_pow_left (by norm_num) n
  have h3 : (10:Nat) ^ n ≤ 10 ^ (n + 1) := Nat.pow_le_pow_right (by norm_num) (by omega)
  omega

theorem natChars_spec (n : Nat) :
    digitsVal (natChars n) = n ∧ natChars n ≠ [] ∧
    (∀ c ∈ natChars n, c.isDigit) ∧
    ((natChars n).head? = some '0' → n = 0) := by
  have := natDigitsAux_spec n n (nat_lt_ten_pow n)
  simpa [natChars] using this

theorem takeWhile_append_eq (p : Char → Bool) (a b : List Char)
    (ha : ∀ c ∈ a, p c = true) (hb : ∀ c, b.head? = some c → p c = false) :
    (a ++ b).takeWhile p = a := by
  induction a with
  | nil =>
    cases b with
    | nil => simp
    | cons x xs =>
      have := hb x rfl
      simp [List.takeWhile, this]
  | cons c cs ih =>
    have hc := ha c (by simp)
    simp only [List.cons_append, List.takeWhile, hc, List.append_eq]
    rw [ih (fun d hd => ha d (by simp [hd]))]

theorem parseNatTok_natChars (n : Nat) (rest : List Char)
    (hrest : ∀ c, rest.head? = some c → c.isDigit = false) :
    parseNatTok (natChars n ++ rest) = some (n, rest) := by
  obtain ⟨hval, hne, hdig, hhead⟩ := natChars_spec n
  have htw : (natChars n ++ rest).takeWhile Char.isDigit = natChars n :=
    takeWhile_append_eq _ _ _ hdig hrest
  have hlen : (natChars n ++ rest).drop (natChars n).length = rest :=
    List.drop_left _ _
  simp only [parseNatTok, htw]
  rw [if_neg (by simp [List.isEmpty_iff, hne])]
  have hnolead : ¬(decide (1 < (natChars n).length) &&
      decide ((natChars n).head? = some '0')) = true := by
    intro h
    simp only [Bool.and_eq_true, decide_eq_true_eq] at h
    have h0 := hhead h.2
    subst h0
    have : natChars 0 = ['0'] := rfl
    rw [this] at h
    simp at h
  rw [if_neg hnolead, hval, hlen]

theorem parseIntTok_cons_not_neg (c : Char) (l : List Char) (hc : c ≠ '-') :
    parseIntTok (c :: l) =
      (parseNatTok (c :: l)).map (fun p => ((p.1 : Int), p.2)) := by
  rw [parseIntTok.eq_def]
  split
  · rename_i heq
    injection heq with h1 _
    exact absurd h1 hc
  · rfl

theorem intChars_head_digit (i : Int) :
    ∃ c l, intChars i = c :: l ∧ (c.isDigit = true ∨ c = '-') := by
  cases i with
  | ofNat n =>
    obtain ⟨_, hne, hdig, _⟩ := natChars_spec n
    obtain ⟨c, l, hc⟩ := List.exists_cons_of_ne_nil hne
    exact ⟨c, l, by simpa [intChars] using hc, Or.inl (hdig c (by simp [hc]))⟩
  | negSucc n =>
    exact ⟨'-', natChars (n + 1), rfl, Or.inr rfl⟩

theorem parseIntTok_intChars (i : Int) (rest : List Char)
    (hrest : ∀ c, rest.head? = some c → c.isDigit = false) :
    parseIntTok (intChars i ++ rest) = some (i, rest) := by
  cases i with
  | ofNat n =>
    obtain ⟨_, hne, hdig, _⟩ := natChars_spec n
    obtain ⟨c, l, hc⟩ := List.exists_cons_of_ne_nil hne
    have hcd : c.isDigit = true := hdig c (by simp [hc])
    have hcne : c ≠ '-' := by
      intro h; subst h; simp [Char.isDigit] at hcd
    have : intChars (Int.ofNat n) ++ rest = c :: (l ++ rest) := by
      simp [intChars, hc]
    rw [this, parseIntTok_cons_not_neg c _ hcne, ← List.cons_append, ← hc]
    rw [show (natChars n ++ rest : List Char) = natChars n ++ rest from rfl]
    rw [parseNatTok_natChars n rest hrest]
    rfl
  | negSucc n =>
    have : intChars (Int.negSucc n) ++ rest = '-' :: (natChars (n + 1) ++ rest) := by
      simp [intChars]
    rw [this]
    simp only [parseIntTok, parseNatTok_natChars (n + 1) rest hrest, Option.map_some]
    congr 1

/-! ### Round trip: strings -/

theorem parseStrBody_cons_plain (c : Char) (l : List Char)
    (h1 : c ≠ '"') (h2 : c ≠ '\\') :
    parseStrBody (c :: l) = (parseStrBody l).map (fun p => (c :: p.1, p.2)) := by
  rw [parseStrBody.eq_def]
  split
  · rename_i heq; exact absurd heq (by simp)
  · rename_i heq; injection heq with ha _; exact absurd ha h1
  · rename_i heq; injection heq with ha _; exact absurd ha h2
  · rename_i heq; injection heq with ha _; exact absurd ha h2
  · rename_i heq
    injection heq with ha hb
    subst ha; subst hb
    rfl

theorem parseStrBody_ser (l rest : List Char) :
    parseStrBody (serStrBody l ++ '"' :: rest) = some (l, rest) := by
  induction l with
  | nil => rfl
  | cons c cs ih =>
    by_cases hq : c = '"'
    · subst hq
      have hser : serStrBody ('"' :: cs) = '\\' :: '"' :: serStrBody cs := by
        simp [serStrBody, escChar]
      have hu : unescChar '"' = some '"' := by decide
      rw [hser]
      simp only [List.cons_append, parseStrBody, hu, List.append_eq, ih]
      rfl
    · by_cases hb : c = '\\'
      · subst hb
        have hser : serStrBody ('\\' :: cs) = '\\' :: '\\' :: serStrBody cs := by
          simp [serStrBody, escChar]
        have hu : unescChar '\\' = some '\\' := by decide
        rw [hser]
        simp only [List.cons_append, parseStrBody, hu, List.append_eq, ih]
        rfl
      · have hser : serStrBody (c :: cs) = c :: serStrBody cs := by
          simp [serStrBody, escChar, hq, hb]
        rw [hser, List.cons_append, parseStrBody_cons_plain c _ hq hb, ih]
        rfl

/-! ### Round trip: values -/

theorem ne_of_isDigit {c d : Char} (hc : c.isDigit = true)
    (hd : d.isDigit = false) : c ≠ d := by
  intro h; subst h; rw [hc] at hd; exact Bool.noConfusion hd

theorem isDigit_not_jsonWs {c : Char} (hc : c.isDigit = true) :
    isJsonWs c = false := by
  by_contra h
  have h2 : isJsonWs c = true := by
    cases hh : isJsonWs c
    · exact absurd hh h
    · rfl
  simp only [isJsonWs, Bool.or_eq_true, decide_eq_true_eq] at h2
  rcases h2 with ((h3 | h3) | h3) | h3 <;> subst h3 <;>
    exact absurd hc (by decide)

theorem skipWs_cons {c : Char} (l : List Char) (h : isJsonWs c = false) :
    skipWs (c :: l) = c :: l := by
  simp [skipWs, List.dropWhile_cons, h]

theorem parseVal_succ_default (f : Nat) (l : List Char) (c : Char) (r : List Char)
    (h : skipWs l = c :: r)
    (h1 : c ≠ 'n') (h2 : c ≠ 't') (h3 : c ≠ 'f') (h4 : c ≠ '"')
    (h5 : c ≠ '{') (h6 : c ≠ '[') :
    parseVal (f + 1) l =
      (parseIntTok (c :: r)).map (fun p => (Json.num p.1, p.2)) := by
  rw [parseVal]
  rw [h]
  split
  · rename_i heq; injection heq with ha _; exact absurd ha h1
  · rename_i heq; injection heq with ha _; exact absurd ha h2
  · rename_i heq; injection heq with ha _; exact absurd ha h3
  · rename_i heq; injection heq with ha _; exact absurd ha h4
  · rename_i heq; injection heq with ha _; exact absurd ha h5
  · rename_i heq; injection heq with ha _; exact absurd ha h6
  · rfl

theorem serChars_head (j : Json) :
    ∃ c l, serChars j = c :: l ∧
      (c = 'n' ∨ c = 't' ∨ c = 'f' ∨ c = '"' ∨ c = '{' ∨ c = '[' ∨
        c = '-' ∨ c.isDigit = true) := by
  cases j with
  | null => exact ⟨'n', _, rfl, by simp⟩
  | bool b =>
    cases b
    · exact ⟨'f', _, rfl, by simp⟩
    · exact ⟨'t', _, rfl, by simp⟩
  | num n =>
    obtain ⟨c, l, hc, hd⟩ := intChars_head_digit n
    exact ⟨c, l, by simpa [serChars] using hc, by tauto⟩
  | str s => exact ⟨'"', serStrBody s.data ++ ['"'], by simp [serChars, serStr], by simp⟩
  | arr xs => exact ⟨'[', _, rfl, by simp⟩
  | obj fs => exact ⟨'{', _, rfl, by simp⟩

theorem serChars_head_props (j : Json) :
    ∃ c l, serChars j = c :: l ∧ isJsonWs c = false ∧ c ≠ ']' ∧ c ≠ '}' := by
  obtain ⟨c, l, hc, hd⟩ := serChars_head j
  refine ⟨c, l, hc, ?_, ?_, ?_⟩
  · rcases hd with h | h | h | h | h | h | h | h
    all_goals first
      | (subst h; decide)
      | exact isDigit_not_jsonWs h
  · rcases hd with h | h | h | h | h | h | h | h
    all_goals first
      | (subst h; decide)
      | exact ne_of_isDigit h (by decide)
  · rcases hd with h | h | h | h | h | h | h | h
    all_goals first
      | (subst h; decide)
      | exact ne_of_isDigit h (by decide)

theorem match_rbracket_default (c : Char) (r : List Char) (hc : c ≠ ']')
    (A B : List Char → Option (List Json × List Char)) :
    (match c :: r with
     | ']' :: r2 => A r2
     | r2 => B r2) = B (c :: r) := by
  split
  · rename_i heq; injection heq with ha _; exact absurd ha hc
  · rfl

theorem match_rbrace_default (c : Char) (r : List Char) (hc : c ≠ '}')
    (A B : List Char → Option (List (String × Json) × List Char)) :
    (match c :: r with
     | '}' :: r2 => A r2
     | r2 => B r2) = B (c :: r) := by
  split
  · rename_i heq; injection heq with ha _; exact absurd ha hc
  · rfl

theorem parseMembers_succ_quote (f : Nat) (X : List Char) :
    parseMembers (f + 1) ('"' :: X) =
      (match parseStrBody X with
       | none => none
       | some (k, r2) =>
         match skipWs r2 with
         | ':' :: r3 =>
           (match parseVal f r3 with
            | none => none
            | some (v, r4) =>
              match skipWs r4 with
              | ',' :: r5 =>
                (parseMembers f r5).map
                  (fun p => ((String.mk k, v) :: p.1, p.2))
              | '}' :: r5 => some ([(String.mk k, v)], r5)
              | _ => none)
         | _ => none) := rfl

theorem parseElems_succ (f : Nat) (l : List Char) :
    parseElems (f + 1) l =
      (match parseVal f l with
       | none => none
       | some (v, r) =>
         match skipWs r with
         | ',' :: r2 => (parseElems f r2).map (fun p => (v :: p.1, p.2))
         | ']' :: r2 => some ([v], r2)
         | _ => none) := rfl

theorem parseVal_succ_quote (f : Nat) (X : List Char) :
    parseVal (f + 1) ('"' :: X) =
      (parseStrBody X).map (fun p => (Json.str (String.mk p.1), p.2)) := rfl

theorem parseVal_succ_lbrace (f : Nat) (X : List Char) :
    parseVal (f + 1) ('{' :: X) =
      (match skipWs X with
       | '}' :: r2 => some (.obj [], r2)
       | r2 => (parseMembers f r2).map (fun p => (.obj p.1, p.2))) := rfl

theorem parseVal_succ_lbracket (f : Nat) (X : List Char) :
    parseVal (f + 1) ('[' :: X) =
      (match skipWs X with
       | ']' :: r2 => some (.arr [], r2)
       | r2 => (parseElems f r2).map (fun p => (.arr p.1, p.2))) := rfl

theorem serElems_cons_decomp (x : Json) (xs2 : List Json) :
    ∃ t, serElems (x :: xs2) = serChars x ++ t ∧
      (xs2 = [] → t = []) ∧ (xs2 ≠ [] → t = ',' :: serElems xs2) := by
  cases xs2 with
  | nil => exact ⟨[], by simp [serElems], fun _ => rfl, fun h => absurd rfl h⟩
  | cons y ys =>
    refine ⟨',' :: serElems (y :: ys), by simp [serElems], ?_, fun _ => rfl⟩
    intro h; exact absurd h (by simp)

theorem serMembers_cons_decomp (k : String) (v : Json)
    (fs2 : List (String × Json)) :
    ∃ t, serMembers ((k, v) :: fs2) = serStr k ++ ':' :: serChars v ++ t ∧
      (fs2 = [] → t = []) ∧ (fs2 ≠ [] → t = ',' :: serMembers fs2) := by
  cases fs2 with
  | nil => exact ⟨[], by simp [serMembers], fun _ => rfl, fun h => absurd rfl h⟩
  | cons q qs =>
    refine ⟨',' :: serMembers (q :: qs), by simp [serMembers], ?_, fun _ => rfl⟩
    intro h; exact absurd h (by simp)

theorem headGuard_cons {d : Char} (hd2 : d.isDigit = false) (X : List Char) :
    ∀ c, (d :: X).head? = some c → c.isDigit = false := by
  intro c hc
  simp only [List.head?_cons, Option.some.injEq] at hc
  subst hc; exact hd2

theorem serChars_length_pos (j : Json) : 0 < (serChars j).length := by
  obtain ⟨c, l, hc, -⟩ := serChars_head j
  simp [hc]

theorem parseMembers_step (f : Nat) (kd : List Char) (Y : List Char) :
    parseMembers (f + 1) ('"' :: (serStrBody kd ++ '"' :: (':' :: Y))) =
      (match parseVal f Y with
       | none => none
       | some (v, r4) =>
         match skipWs r4 with
         | ',' :: r5 =>
           (parseMembers f r5).map
             (fun p => ((String.mk kd, v) :: p.1, p.2))
         | '}' :: r5 => some ([(String.mk kd, v)], r5)
         | _ => none) := by
  rw [parseMembers_succ_quote, parseStrBody_ser]
  rfl

theorem parse_ser_mut : ∀ f : Nat,
    (∀ (j : Json) (rest : List Char), (serChars j).length < f →
      (∀ c, rest.head? = some c → c.isDigit = false) →
      parseVal f (serChars j ++ rest) = some (j, rest)) ∧
    (∀ (fs : List (String × Json)) (rest : List Char), fs ≠ [] →
      (serMembers fs).length < f →
      parseMembers f (serMembers fs ++ '}' :: rest) = some (fs, rest)) ∧
    (∀ (xs : List Json) (rest : List Char), xs ≠ [] →
      (serElems xs).length + 1 < f →
      parseElems f (serElems xs ++ ']' :: rest) = some (xs, rest)) := by
  intro f
  induction f with
  | zero =>
    exact ⟨fun j rest h _ => absurd h (by omega),
      fun fs rest _ h => absurd h (by omega),
      fun xs rest _ h => absurd h (by omega)⟩
  | succ f ih =>
    obtain ⟨ihV, ihM, ihE⟩ := ih
    refine ⟨?_, ?_, ?_⟩
    · -- values
      intro j rest hlen hrest
      cases j with
      | null => rfl
      | bool b => cases b <;> rfl
      | num n =>
        obtain ⟨c, l2, hc, hd⟩ := intChars_head_digit n
        have hser : serChars (.num n) = intChars n := rfl
        have hx : serChars (.num n) ++ rest = c :: (l2 ++ rest) := by
          rw [hser, hc]; simp
        have htok : c :: (l2 ++ rest) = intChars n ++ rest := by
          rw [hc]; simp
        rcases hd with hdig | hminus
        · have hskip : skipWs (serChars (.num n) ++ rest) = c :: (l2 ++ rest) := by
            rw [hx]; exact skipWs_cons _ (isDigit_not_jsonWs hdig)
          rw [show serChars (Json.num n) ++ rest =
            serChars (Json.num n) ++ rest from rfl]
          rw [parseVal_succ_default f _ c (l2 ++ rest) hskip
            (ne_of_isDigit hdig (by decide)) (ne_of_isDigit hdig (by decide))
            (ne_of_isDigit hdig (by decide)) (ne_of_isDigit hdig (by decide))
            (ne_of_isDigit hdig (by decide)) (ne_of_isDigit hdig (by decide))]
          rw [htok, parseIntTok_intChars n rest hrest]
          rfl
        · subst hminus
          have hskip : skipWs (serChars (.num n) ++ rest) = '-' :: (l2 ++ rest) := by
            rw [hx]; exact skipWs_cons _ (by decide)
          rw [parseVal_succ_default f _ '-' (l2 ++ rest) hskip
            (by decide) (by decide) (by decide) (by decide) (by decide) (by decide)]
          rw [htok, parseIntTok_intChars n rest hrest]
          rfl
      | str s =>
        have hx : serChars (.str s) ++ rest =
            '"' :: (serStrBody s.data ++ '"' :: rest) := by
          simp [serChars, serStr]
        rw [hx, parseVal_succ_quote, parseStrBody_ser]
        rfl
      | arr xs =>
        cases xs with
        | nil => rfl
        | cons x xs2 =>
          obtain ⟨t, ht, ht0, ht1⟩ := serElems_cons_decomp x xs2
          have hx : serChars (.arr (x :: xs2)) ++ rest =
              '[' :: (serElems (x :: xs2) ++ ']' :: rest) := by
            simp [serChars]
          rw [hx, parseVal_succ_lbracket]
          obtain ⟨c, l2, hc, hws, hbrk, hbrc⟩ := serChars_head_props x
          have hcons : serElems (x :: xs2) ++ ']' :: rest =
              c :: (l2 ++ t ++ ']' :: rest) := by
            rw [ht, hc]; simp
          rw [hcons, skipWs_cons _ hws]
          split
          · rename_i heq
            injection heq with ha _
            exact absurd ha hbrk
          · rw [← hcons]
            have hel := ihE (x :: xs2) rest (by simp) (by
              have h2 : (serChars (.arr (x :: xs2))).length =
                  (serElems (x :: xs2)).length + 2 := by
                simp [serChars]
              omega)
            rw [hel]
            rfl
      | obj fs =>
        cases fs with
        | nil => rfl
        | cons p fs2 =>
          obtain ⟨k, v⟩ := p
          obtain ⟨t, ht, ht0, ht1⟩ := serMembers_cons_decomp k v fs2
          have hx : serChars (.obj ((k, v) :: fs2)) ++ rest =
              '{' :: (serMembers ((k, v) :: fs2) ++ '}' :: rest) := by
            simp [serChars]
          rw [hx, parseVal_succ_lbrace]
          have hcons : serMembers ((k, v) :: fs2) ++ '}' :: rest =
              '"' :: (serStrBody k.data ++ '"' ::
                (':' :: (serChars v ++ t ++ '}' :: rest))) := by
            rw [ht]; simp [serStr]
          rw [hcons, skipWs_cons _ (by decide)]
          split
          · rename_i heq
            injection heq with ha _
            exact absurd ha (by decide)
          · rw [← hcons]
            have hm := ihM ((k, v) :: fs2) rest (by simp) (by
              have h2 : (serChars (.obj ((k, v) :: fs2))).length =
                  (serMembers ((k, v) :: fs2)).length + 2 := by
                simp [serChars]
              omega)
            rw [hm]
            rfl
    · -- members
      intro fs rest hne hlen
      obtain ⟨⟨k, v⟩, fs2, rfl⟩ : ∃ p fs2, fs = p :: fs2 := by
        cases fs with
        | nil => exact absurd rfl hne
        | cons p fs2 => exact ⟨p, fs2, rfl⟩
      obtain ⟨t, ht, ht0, ht1⟩ := serMembers_cons_decomp k v fs2
      have hlen2 : (serMembers ((k, v) :: fs2)).length =
          (serStr k).length + 1 + (serChars v).length + t.length := by
        rw [ht]; simp; omega
      have hks2 : 2 ≤ (serStr k).length := by simp [serStr]
      have hvpos := serChars_length_pos v
      cases fs2 with
      | nil =>
        have ht2 : t = [] := ht0 rfl
        subst ht2
        have hcons : serMembers [(k, v)] ++ '}' :: rest =
            '"' :: (serStrBody k.data ++ '"' ::
              (':' :: (serChars v ++ '}' :: rest))) := by
          rw [ht]; simp [serStr]
        rw [hcons, parseMembers_step]
        have hv := ihV v ('}' :: rest) (by omega) (headGuard_cons (by decide) _)
        rw [hv]
        rfl
      | cons q qs =>
        have ht2 : t = ',' :: serMembers (q :: qs) := ht1 (by simp)
        have hcons : serMembers ((k, v) :: q :: qs) ++ '}' :: rest =
            '"' :: (serStrBody k.data ++ '"' ::
              (':' :: (serChars v ++
                (',' :: (serMembers (q :: qs) ++ '}' :: rest))))) := by
          rw [ht, ht2]; simp [serStr]
        rw [hcons, parseMembers_step]
        have hv := ihV v (',' :: (serMembers (q :: qs) ++ '}' :: rest))
          (by rw [ht2] at hlen2; simp at hlen2; omega)
          (headGuard_cons (by decide) _)
        rw [hv]
        show (parseMembers f (serMembers (q :: qs) ++ '}' :: rest)).map
            (fun p => ((String.mk k.data, v) :: p.1, p.2)) =
          some ((k, v) :: q :: qs, rest)
        have hm := ihM (q :: qs) rest (by simp)
          (by rw [ht2] at hlen2; simp at hlen2; omega)
        rw [hm]
        rfl
    · -- elements
      intro xs rest hne hlen
      obtain ⟨x, xs2, rfl⟩ : ∃ x xs2, xs = x :: xs2 := by
        cases xs with
        | nil => exact absurd rfl hne
        | cons x xs2 => exact ⟨x, xs2, rfl⟩
      obtain ⟨t, ht, ht0, ht1⟩ := serElems_cons_decomp x xs2
      have hlen2 : (serElems (x :: xs2)).length =
          (serChars x).length + t.length := by
        rw [ht]; simp
      have hxpos := serChars_length_pos x
      rw [parseElems_succ]
      cases xs2 with
      | nil =>
        have ht2 : t = [] := ht0 rfl
        subst ht2
        have hin : serElems [x] ++ ']' :: rest = serChars x ++ ']' :: rest := by
          rw [ht]; simp
        rw [hin]
        have hv := ihV x (']' :: rest) (by omega) (headGuard_cons (by decide) _)
        rw [hv]
        rfl
      | cons y ys =>
        have ht2 : t = ',' :: serElems (y :: ys) := ht1 (by simp)
        have hin : serElems (x :: y :: ys) ++ ']' :: rest =
            serChars x ++ (',' :: (serElems (y :: ys) ++ ']' :: rest)) := by
          rw [ht, ht2]; simp
        rw [hin]
        have hv := ihV x (',' :: (serElems (y :: ys) ++ ']' :: rest))
          (by rw [ht2] at hlen2; simp at hlen2; omega)
          (headGuard_cons (by decide) _)
        rw [hv]
        show (parseElems f (serElems (y :: ys) ++ ']' :: rest)).map
            (fun p => (x :: p.1, p.2)) = some (x :: y :: ys, rest)
        have hel := ihE (y :: ys) rest (by simp)
          (by rw [ht2] at hlen2; simp at hlen2; omega)
        rw [hel]
        rfl

/-- Head guard holds vacuously for the empty remainder. -/
theorem headGuard_nil : ∀ c : Char, ([] : List Char).head? = some c → c.isDigit = false := by
  intro c hc
  simp at hc

theorem jsonParseChars_ser (j : Json) : jsonParseChars (serChars j) = some j := by
  have h := (parse_ser_mut ((serChars j).length + 1)).1 j [] (by omega) headGuard_nil
  rw [List.append_nil] at h
  simp [jsonParseChars, h, skipWs]

theorem jsonParse_stringify (j : Json) : Json.parse? (Json.stringify j) = some j := by
  simpa [Json.parse?, Json.stringify] using jsonParseChars_ser j

/-! ## The tool-call extractor (`ollama-client.js`)

Model of `parseToolCallFromContent` and its helpers: the three ordered
extraction strategies applied to the model reply. -/

/-- A structured tool invocation extracted from a model turn. -/
structure ToolCall where
  name : String
  arguments : Json
  deriving Repr

/-- The backtick character (code-fence marker). -/
def backtick : Char := Char.ofNat 96

/-- Model of `replace(/^```(?:json)?\s*/i, '')`. -/
def stripFenceFront (l : List Char) : List Char :=
  if l.take 3 = [backtick, backtick, backtick] then
    let r := l.drop 3
    let r2 :=
      if (r.take 4).map Char.toLower = ['j', 's', 'o', 'n'] then r.drop 4 else r
    r2.dropWhile isJsWs
  else l

/-- Model of `replace(/\s*```\s*$/i, '')`. -/
def stripFenceBack (l : List Char) : List Char :=
  let r := l.reverse.dropWhile isJsWs
  if r.take 3 = [backtick, backtick, backtick] then
    ((r.drop 3).dropWhile isJsWs).reverse
  else l

/-- `content.trim()` followed by the two fence strips and the final
`.trim()` of `parseToolCallFromContent`. -/
def cleanContent (l : List Char) : List Char :=
  jsTrim (stripFenceBack (stripFenceFront (jsTrim l)))

/-- JavaScript truthiness on JSON values. -/
def jsTruthy : Json → Bool
  | .null => false
  | .bool b => b
  | .num n => n != 0
  | .str s => s != ""
  | .arr _ => true
  | .obj _ => true

/-- Property access `parsed.k`: on an object, the value `JSON.parse`
would have kept for key `k` (the last occurrence); `undefined`
(= `none`) otherwise. -/
def Json.getField : Json → String → Option Json
  | .obj fs, k => (fs.reverse.find? (fun p => p.1 == k)).map (·.2)
  | _, _ => none

/-- `parsed.k1 || parsed.k2 || ...`: the first field in `keys` that is
present and truthy. -/
def firstTruthyField (j : Json) : List String → Option Json
  | [] => none
  | k :: ks =>
    match j.getField k with
    | some v => if jsTruthy v then some v else firstTruthyField j ks
    | none => firstTruthyField j ks

/-- The tool-name / argument extraction shared by strategies 1 and 2:
read `tool`/`name`/`function`, require a known tool name, take
`args`/`arguments`/`parameters` (default `{}`), re-parsing a string
argument value as nested JSON (a failing nested parse aborts the
strategy, as the thrown exception is caught by the strategy's
`try`/`catch`). -/
def extractFromJson (parsed : Json) (known : List String) : Option ToolCall :=
  match firstTruthyField parsed ["tool", "name", "function"] with
  | some (.str toolName) =>
    if toolName ∈ known then
      match (firstTruthyField parsed ["args", "arguments", "parameters"]).getD (.obj []) with
      | .str s => (Json.parse? s).map (fun a => ⟨toolName, a⟩)
      | a => some ⟨toolName, a⟩
    else none
  | _ => none

/-- Strategy 1: the entire cleaned content is one JSON object naming a
known tool. -/
def strat1 (cleaned : List Char) (known : List String) : Option ToolCall :=
  match jsonParseChars cleaned with
  | some parsed => extractFromJson parsed known
  | none => none

/-- The scanner of `extractBalancedJsonObjects`: `text` is the full
input (for slicing), the remaining input is walked with position `i`,
brace-nesting `depth` (a JavaScript number, hence an `Int` that may go
negative) and the position `start` of the pending top-level `{`. -/
def ebjGo (text : List Char) : List Char → Nat → Int → Option Nat → List (List Char)
  | [], _, _, _ => []
  | c :: rest, i, depth, start =>
    if c = '{' then
      ebjGo text rest (i + 1) (depth + 1) (if depth = 0 then some i else start)
    else if c = '}' then
      if depth - 1 = 0 then
        match start with
        | some s => ((text.drop s).take (i + 1 - s)) :: ebjGo text rest (i + 1) (depth - 1) none
        | none => ebjGo text rest (i + 1) (depth - 1) none
      else ebjGo text rest (i + 1) (depth - 1) start
    else ebjGo text rest (i + 1) depth start

/-- All balanced brace-delimited substrings of `text`, in order of
appearance. -/
def extractBalancedJsonObjects (text : List Char) : List (List Char) :=
  ebjGo text text 0 0 none

/-- Strategy 2 inner loop: first candidate that parses and names a
known tool (a candidate whose parse or extraction throws is skipped). -/
def firstExtract : List (List Char) → List String → Option ToolCall
  | [], _ => none
  | cand :: rest, known =>
    match jsonParseChars cand with
    | some parsed =>
      match extractFromJson parsed known with
      | some tc => some tc
      | none => firstExtract rest known
    | none => firstExtract rest known

/-- Strategy 2: try every balanced JSON candidate in order. -/
def strat2 (cleaned : List Char) (known : List String) : Option ToolCall :=
  firstExtract (extractBalancedJsonObjects cleaned) known

/-- First index of a character. -/
def firstIdxOf (l : List Char) (c : Char) : Option Nat :=
  idxOfSubstr l [c]

/-- Last index of a character. -/
def lastIdxOf (l : List Char) (c : Char) : Option Nat :=
  (idxOfSubstr l.reverse [c]).map (fun r => l.length - 1 - r)

/-- `after.match(/\{[\s\S]*\}/)`: the greedy match runs from the first
`{` to the last `}` when that `}` lies beyond the `{`. -/
def greedyBraceSlice (after : List Char) : Option (List Char) :=
  match firstIdxOf after '{', lastIdxOf after '}' with
  | some i, some j => if i < j then some ((after.drop i).take (j + 1 - i)) else none
  | _, _ => none

/-- `args.k === toolName` (strict string comparison with a field). -/
def fieldIsStr (j : Json) (k : String) (s : String) : Bool :=
  match j.getField k with
  | some (.str v) => v == s
  | _ => false

/-- Strategy 3: first known tool name (in the supplied order) occurring
literally in the cleaned text; arguments from the greedy JSON slice
after it, unwrapped if that slice itself names the tool, `{}` when no
parseable slice follows. -/
def strat3 (cleaned : List Char) : List String → Option ToolCall
  | [] => none
  | n :: ns =>
    match idxOfSubstr cleaned n.data with
    | some idx =>
      let after := cleaned.drop idx
      match greedyBraceSlice after with
      | some js =>
        (match jsonParseChars js with
         | some args =>
           if fieldIsStr args "tool" n || fieldIsStr args "name" n then
             some ⟨n, (firstTruthyField args ["args", "arguments"]).getD (.obj [])⟩
           else some ⟨n, args⟩
         | none => some ⟨n, .obj []⟩)
      | none => some ⟨n, .obj []⟩
    | none => strat3 cleaned ns

/-- `parseToolCallFromContent` of `ollama-client.js`: empty content or
an empty known-tool list yield no call; otherwise the cleaned content
goes through strategies 1, 2 and 3 in order. -/
def parseToolCallFromContent (content : String) (knownToolNames : List String) :
    Option ToolCall :=
  if content = "" ∨ knownToolNames = [] then none
  else
    let cleaned := cleanContent content.data
    match strat1 cleaned knownToolNames with
    | some tc => some tc
    | none =>
      match strat2 cleaned knownToolNames with
      | some tc => some tc
      | none => strat3 cleaned knownToolNames

/-! ### Cleaning is the identity on fence-free, trimmed content -/

theorem jsTrim_eq_self {l : List Char}
    (h1 : ∀ c, l.head? = some c → isJsWs c = false)
    (h2 : ∀ c, l.getLast? = some c → isJsWs c = false) : jsTrim l = l := by
  unfold jsTrim
  have hfront : l.dropWhile isJsWs = l := by
    cases l with
    | nil => rfl
    | cons c t =>
      rw [List.dropWhile_cons, h1 c rfl]
      simp
  rw [hfront]
  have hback : l.reverse.dropWhile isJsWs = l.reverse := by
    cases hr : l.reverse with
    | nil => rfl
    | cons c t =>
      have hg : l.getLast? = some c := by
        rw [← List.head?_reverse, hr]
        rfl
      rw [List.dropWhile_cons, h2 c hg]
      simp
  rw [hback, List.reverse_reverse]

theorem stripFenceFront_eq_self {l : List Char} {c : Char}
    (hhead : l.head? = some c) (hc : c ≠ backtick) : stripFenceFront l = l := by
  unfold stripFenceFront
  rw [if_neg]
  intro h
  cases l with
  | nil => simp at hhead
  | cons a t =>
    simp only [List.head?_cons, Option.some.injEq] at hhead
    subst hhead
    simp only [List.take_succ_cons] at h
    injection h with h1 _
    exact hc h1

theorem stripFenceBack_eq_self {l : List Char} {c : Char}
    (hlast : l.getLast? = some c) (hws : isJsWs c = false)
    (hc : c ≠ backtick) : stripFenceBack l = l := by
  unfold stripFenceBack
  have hrev : l.reverse.dropWhile isJsWs = l.reverse := by
    cases hr : l.reverse with
    | nil => rfl
    | cons a t =>
      have hg : l.getLast? = some a := by
        rw [← List.head?_reverse, hr]
        rfl
      rw [hlast] at hg
      injection hg with hg
      subst hg
      rw [List.dropWhile_cons, hws]
      simp
  rw [hrev]
  rw [if_neg]
  · intro h
    cases hr : l.reverse with
    | nil => rw [hr] at h; simp at h
    | cons a t =>
      have hg : l.getLast? = some a := by
        rw [← List.head?_reverse, hr]
        rfl
      rw [hlast] at hg
      injection hg with hg
      subst hg
      rw [hr] at h
      simp only [List.take_succ_cons] at h
      have : c = backtick := by injection h
      exact hc this

theorem cleanContent_eq_self {l : List Char} {c d : Char}
    (hhead : l.head? = some c) (hcws : isJsWs c = false) (hcb : c ≠ backtick)
    (hlast : l.getLast? = some d) (hdws : isJsWs d = false)
    (hdb : d ≠ backtick) : cleanContent l = l := by
  have htrim : jsTrim l = l :=
    jsTrim_eq_self
      (fun e he => by rw [hhead] at he; injection he with he; subst he; exact hcws)
      (fun e he => by rw [hlast] at he; injection he with he; subst he; exact hdws)
  unfold cleanContent
  rw [htrim, stripFenceFront_eq_self hhead hcb,
    stripFenceBack_eq_self hlast hdws hdb, htrim]

theorem serChars_obj_head (fs : List (String × Json)) :
    (serChars (.obj fs)).head? = some '{' := by
  simp [serChars]

theorem serChars_obj_last (fs : List (String × Json)) :
    (serChars (.obj fs)).getLast? = some '}' := by
  show ('{' :: (serMembers fs ++ ['}'])).getLast? = some '}'
  rw [← List.cons_append]
  exact List.getLast?_concat _

theorem cleanContent_ser_obj (fs : List (String × Json)) :
    cleanContent (serChars (.obj fs)) = serChars (.obj fs) :=
  cleanContent_eq_self (serChars_obj_head fs) (by decide) (by decide)
    (serChars_obj_last fs) (by decide) (by decide)

/-! ### Strategy 1 on a serialized wrapper object -/

theorem extractFromJson_wrapper (name : String) (fsArgs : List (String × Json))
    (known : List String) (hname : name ≠ "") (hmem : name ∈ known) :
    extractFromJson (.obj [("tool", .str name), ("args", .obj fsArgs)]) known =
      some ⟨name, .obj fsArgs⟩ := by
  have ht : jsTruthy (Json.str name) = true := by
    simp [jsTruthy, hname]
  have h1 : firstTruthyField (.obj [("tool", .str name), ("args", .obj fsArgs)])
      ["tool", "name", "function"] = some (.str name) := by
    show (if jsTruthy (Json.str name) = true then some (Json.str name)
      else firstTruthyField (.obj [("tool", .str name), ("args", .obj fsArgs)])
        ["name", "function"]) = some (Json.str name)
    rw [ht]
    simp
  have h2 : (firstTruthyField (.obj [("tool", .str name), ("args", .obj fsArgs)])
      ["args", "arguments", "parameters"]).getD (.obj []) = .obj fsArgs := by
    rfl
  rw [extractFromJson.eq_def, h1]
  show (if name ∈ known then
      match (firstTruthyField (.obj [("tool", .str name), ("args", .obj fsArgs)])
          ["args", "arguments", "parameters"]).getD (.obj []) with
      | Json.str s => Option.map (fun a => ({ name := name, arguments := a } : ToolCall)) (Json.parse? s)
      | a => some { name := name, arguments := a }
    else none) = some { name := name, arguments := Json.obj fsArgs }
  rw [if_pos hmem, h2]

/-! ## Claim C7: extractor round trip -/

/-- C7 (amended): for every NON-EMPTY known tool name and every
argument object, serializing `{"tool": name, "args": args}` and feeding
the text through the extractor returns exactly that name with exactly
those arguments.  (For the empty tool name the round trip fails, see
the counterexample.) -/
theorem extractor_roundtrip (name : String) (fsArgs : List (String × Json))
    (known : List String) (hname : name ≠ "") (hmem : name ∈ known) :
    parseToolCallFromContent
      (Json.stringify (Json.obj [("tool", Json.str name), ("args", Json.obj fsArgs)]))
      known = some ⟨name, Json.obj fsArgs⟩ := by
  have hknown : known ≠ [] := List.ne_nil_of_mem hmem
  have hcne : Json.stringify
      (Json.obj [("tool", Json.str name), ("args", Json.obj fsArgs)]) ≠ "" := by
    intro h
    have h2 := congrArg String.data h
    have h3 := serChars_obj_head [("tool", Json.str name), ("args", Json.obj fsArgs)]
    rw [show (Json.stringify (Json.obj [("tool", Json.str name),
      ("args", Json.obj fsArgs)])).data =
      serChars (Json.obj [("tool", Json.str name), ("args", Json.obj fsArgs)]) from rfl]
      at h2
    rw [h2] at h3
    simp at h3
  unfold parseToolCallFromContent
  rw [if_neg (by push_neg; exact ⟨hcne, hknown⟩)]
  have hdata : (Json.stringify (Json.obj [("tool", Json.str name),
      ("args", Json.obj fsArgs)])).data =
      serChars (Json.obj [("tool", Json.str name), ("args", Json.obj fsArgs)]) := rfl
  simp only [hdata, cleanContent_ser_obj, strat1, jsonParseChars_ser,
    extractFromJson_wrapper name fsArgs known hname hmem]

/-- Witness for C7 at a concrete tool call. -/
theorem extractor_roundtrip_witness :
    ("count_rooms" : String) ≠ "" ∧ "count_rooms" ∈ ["count_rooms"] ∧
    parseToolCallFromContent
      (Json.stringify (Json.obj [("tool", Json.str "count_rooms"),
        ("args", Json.obj [("houseId", Json.num 1)])]))
      ["count_rooms"] = some ⟨"count_rooms", Json.obj [("houseId", Json.num 1)]⟩ :=
  ⟨by decide, by decide, extractor_roundtrip "count_rooms" [("houseId", Json.num 1)]
    ["count_rooms"] (by decide) (by decide)⟩

/-- C7 counterexample: the claim as stated quantifies over EVERY known
tool name; for the empty tool name (and a known-name list also
containing "t") the extractor returns the tool "t" with empty
arguments instead of the serialized call. -/
theorem extractor_roundtrip_cx :
    "" ∈ ["t", ""] ∧
    parseToolCallFromContent
      (Json.stringify (Json.obj [("tool", Json.str ""), ("args", Json.obj [])]))
      ["t", ""] = some ⟨"t", Json.obj []⟩ ∧ ("t" : String) ≠ "" := by
  refine ⟨by decide, ?_, by decide⟩
  rfl

/-! ## Claim C10: the substring fallback -/

/-- Does a text parse as a JSON object? -/
def isObjParse (l : List Char) : Bool :=
  match jsonParseChars l with
  | some (.obj _) => true
  | _ => false

theorem idxOfSubstr_char_spec {c : Char} :
    ∀ {l : List Char} {i : Nat}, idxOfSubstr l [c] = some i →
      i < l.length ∧ l[i]? = some c := by
  intro l
  induction l with
  | nil => intro i h; simp [idxOfSubstr] at h
  | cons x xs ih =>
    intro i h
    unfold idxOfSubstr at h
    by_cases hp : [c].isPrefixOf (x :: xs)
    · rw [if_pos hp] at h
      injection h with h
      subst h
      have hx : c = x := by
        simpa [List.isPrefixOf] using hp
      subst hx
      exact ⟨by simp, by simp⟩
    · rw [if_neg hp] at h
      rw [Option.map_eq_some'] at h
      obtain ⟨j, hj, rfl⟩ := h
      obtain ⟨hlt, hc⟩ := ih hj
      exact ⟨by simp; omega, by simpa using hc⟩

theorem head?_take {l : List Char} {k : Nat} (hk : 0 < k) :
    (l.take k).head? = l.head? := by
  cases l with
  | nil => simp
  | cons x xs =>
    cases k with
    | zero => omega
    | succ k => simp

theorem greedyBraceSlice_spec {after js : List Char}
    (h : greedyBraceSlice after = some js) :
    ∃ i k, js = (after.drop i).take k ∧ i < after.length ∧
      k ≤ after.length ∧ js.head? = some '{' := by
  unfold greedyBraceSlice at h
  cases hf : firstIdxOf after '{' with
  | none => rw [hf] at h; simp at h
  | some i =>
    cases hl : lastIdxOf after '}' with
    | none => rw [hf, hl] at h; simp at h
    | some j =>
      rw [hf, hl] at h
      have h2 : (if i < j then some (List.take (j + 1 - i) (List.drop i after))
          else none) = some js := h
      by_cases hij : i < j
      · rw [if_pos hij] at h2
        injection h2 with h3
        obtain ⟨hlt, hc⟩ := idxOfSubstr_char_spec hf
        have hjlt : j < after.length := by
          unfold lastIdxOf at hl
          cases hr : idxOfSubstr after.reverse ['}'] with
          | none => rw [hr] at hl; simp at hl
          | some r =>
            rw [hr] at hl
            obtain ⟨hrlt, -⟩ := idxOfSubstr_char_spec hr
            simp only [List.length_reverse] at hrlt
            injection hl with hl
            have hl2 : after.length - 1 - r = j := hl
            omega
        refine ⟨i, j + 1 - i, h3.symm, hlt, by omega, ?_⟩
        rw [← h3]
        rw [head?_take (by omega)]
        rw [List.head?_drop]
        exact hc
      · rw [if_neg hij] at h2; simp at h2

theorem jsonParseChars_lbrace {l : List Char} {v : Json}
    (hv : jsonParseChars l = some v) (hh : l.head? = some '{') :
    ∃ fs, v = Json.obj fs := by
  obtain ⟨X, rfl⟩ : ∃ X, l = '{' :: X := by
    cases l with
    | nil => simp at hh
    | cons a t =>
      simp only [List.head?_cons, Option.some.injEq] at hh
      subst hh
      exact ⟨t, rfl⟩
  unfold jsonParseChars at hv
  cases hp : parseVal (('{' :: X).length + 1) ('{' :: X) with
  | none => rw [hp] at hv; simp at hv
  | some pr =>
    obtain ⟨j, rest⟩ := pr
    rw [hp] at hv
    have hv2 : (if (skipWs rest).isEmpty = true then some j else none) = some v := hv
    have hvj : v = j := by
      by_cases he : (skipWs rest).isEmpty
      · rw [if_pos he] at hv2; injection hv2 with hv2; exact hv2.symm
      · rw [if_neg he] at hv2; cases hv2
    subst hvj
    rw [show ('{' :: X).length + 1 = X.length + 1 + 1 by simp] at hp
    rw [parseVal_succ_lbrace] at hp
    revert hp
    split
    · intro hp
      injection hp with hp
      exact ⟨[], (congrArg Prod.fst hp).symm⟩
    · intro hp
      cases hq : parseMembers (X.length + 1) (skipWs X) with
      | none => rw [hq] at hp; exact absurd hp (by simp)
      | some pr2 =>
        rw [hq] at hp
        simp only [Option.map_some'] at hp
        injection hp with hp
        exact ⟨pr2.1, (congrArg Prod.fst hp).symm⟩

theorem strat3_cons_found (cleaned : List Char) (n : String) (ns : List String)
    (idx : Nat) (hidx : idxOfSubstr cleaned n.data = some idx) :
    strat3 cleaned (n :: ns) =
      (match greedyBraceSlice (cleaned.drop idx) with
       | some js =>
         (match jsonParseChars js with
          | some args =>
            if fieldIsStr args "tool" n || fieldIsStr args "name" n then
              some ⟨n, (firstTruthyField args ["args", "arguments"]).getD (.obj [])⟩
            else some ⟨n, args⟩
          | none => some ⟨n, .obj []⟩)
       | none => some ⟨n, .obj []⟩) := by
  rw [strat3, hidx]

theorem strat3_find (cleaned : List Char) :
    ∀ (known : List String) (n : String),
      known.find? (fun m => jsIncludes cleaned m.data) = some n →
      ∃ args, strat3 cleaned known = some ⟨n, args⟩ ∧
        ((∀ i < (cleaned.drop ((idxOfSubstr cleaned n.data).getD 0)).length + 1,
          ∀ k < (cleaned.drop ((idxOfSubstr cleaned n.data).getD 0)).length + 1,
            isObjParse
              (((cleaned.drop ((idxOfSubstr cleaned n.data).getD 0)).drop i).take k)
              = false) →
          args = Json.obj []) := by
  intro known
  induction known with
  | nil => intro n h; simp at h
  | cons m ms ih =>
    intro n h
    by_cases hp : jsIncludes cleaned m.data
    · have hfc : List.find? (fun m => jsIncludes cleaned m.data) (m :: ms) = some m :=
        List.find?_cons_of_pos _ hp
      rw [hfc] at h
      injection h with h
      subst h
      obtain ⟨idx, hidx⟩ : ∃ idx, idxOfSubstr cleaned m.data = some idx :=
        Option.isSome_iff_exists.mp hp
      rw [strat3_cons_found cleaned m ms idx hidx]
      have hgetd : (idxOfSubstr cleaned m.data).getD 0 = idx := by
        rw [hidx]; rfl
      rw [hgetd]
      cases hg : greedyBraceSlice (cleaned.drop idx) with
      | none => exact ⟨.obj [], rfl, fun _ => rfl⟩
      | some js =>
        show ∃ args,
          (match jsonParseChars js with
           | some args2 =>
             if fieldIsStr args2 "tool" m || fieldIsStr args2 "name" m then
               some ({ name := m, arguments :=
                 (firstTruthyField args2 ["args", "arguments"]).getD (Json.obj []) } : ToolCall)
             else some { name := m, arguments := args2 }
           | none => some { name := m, arguments := Json.obj [] }) =
            some { name := m, arguments := args } ∧
          ((∀ i < (cleaned.drop idx).length + 1,
            ∀ k < (cleaned.drop idx).length + 1,
              isObjParse (((cleaned.drop idx).drop i).take k) = false) →
            args = Json.obj [])
        cases hj : jsonParseChars js with
        | none => exact ⟨.obj [], rfl, fun _ => rfl⟩
        | some v =>
          obtain ⟨i, k, hjs, hi, hk, hhead⟩ := greedyBraceSlice_spec hg
          obtain ⟨fs, rfl⟩ := jsonParseChars_lbrace hj hhead
          have hcontr :
              (∀ i < (cleaned.drop idx).length + 1,
                ∀ k < (cleaned.drop idx).length + 1,
                  isObjParse (((cleaned.drop idx).drop i).take k) = false) →
              False := by
            intro H
            have hH := H i (by omega) k (by omega)
            rw [← hjs] at hH
            unfold isObjParse at hH
            rw [hj] at hH
            simp at hH
          show ∃ args,
            (if (fieldIsStr (Json.obj fs) "tool" m ||
                fieldIsStr (Json.obj fs) "name" m) = true then
              some (ToolCall.mk m
                ((firstTruthyField (Json.obj fs) ["args", "arguments"]).getD
                  (Json.obj [])))
            else some (ToolCall.mk m (Json.obj fs))) =
              some (ToolCall.mk m args) ∧
            ((∀ i < (cleaned.drop idx).length + 1,
              ∀ k < (cleaned.drop idx).length + 1,
                isObjParse (((cleaned.drop idx).drop i).take k) = false) →
              args = Json.obj [])
          by_cases hfld : (fieldIsStr (Json.obj fs) "tool" m ||
              fieldIsStr (Json.obj fs) "name" m) = true
          · rw [if_pos hfld]
            exact ⟨_, rfl, fun H => (hcontr H).elim⟩
          · rw [if_neg hfld]
            exact ⟨_, rfl, fun H => (hcontr H).elim⟩
    · have hfc : List.find? (fun m => jsIncludes cleaned m.data) (m :: ms) =
          List.find? (fun m => jsIncludes cleaned m.data) ms :=
        List.find?_cons_of_neg _ (by simpa using hp)
      rw [hfc] at h
      have hnone : idxOfSubstr cleaned m.data = none :=
        Option.not_isSome_iff_eq_none.mp hp
      rw [strat3, hnone]
      exact ih n h

/-- Cleaned-content unfolding of the extractor for nonempty input. -/
theorem parseToolCallFromContent_eq (content : String) (known : List String)
    (hc : content ≠ "") (hk : known ≠ []) :
    parseToolCallFromContent content known =
      (match strat1 (cleanContent content.data) known with
       | some tc => some tc
       | none =>
         match strat2 (cleanContent content.data) known with
         | some tc => some tc
         | none => strat3 (cleanContent content.data) known) := by
  unfold parseToolCallFromContent
  rw [if_neg (by push_neg; exact ⟨hc, hk⟩)]

/-- C10: in the extractor's substring fallback — strategies 1 and 2
yield nothing but some known tool name occurs literally in the cleaned
text — the returned tool is the FIRST matching name in iteration order
over the supplied known-name list (not the name occurring earliest in
the text), and when no slice of the text after that name parses as a
JSON object the returned arguments are exactly the empty mapping. -/
theorem extractor_substring_fallback (content : String) (known : List String)
    (n : String) (hc : content ≠ "")
    (h1 : strat1 (cleanContent content.data) known = none)
    (h2 : strat2 (cleanContent content.data) known = none)
    (hfind : known.find? (fun m => jsIncludes (cleanContent content.data) m.data)
      = some n) :
    (parseToolCallFromContent content known).map ToolCall.name = some n ∧
    ((∀ i < ((cleanContent content.data).drop
        ((idxOfSubstr (cleanContent content.data) n.data).getD 0)).length + 1,
      ∀ k < ((cleanContent content.data).drop
        ((idxOfSubstr (cleanContent content.data) n.data).getD 0)).length + 1,
        isObjParse ((((cleanContent content.data).drop
          ((idxOfSubstr (cleanContent content.data) n.data).getD 0)).drop i).take k)
          = false) →
      parseToolCallFromContent content known = some ⟨n, Json.obj []⟩) := by
  have hk : known ≠ [] := by
    intro h
    subst h
    simp at hfind
  obtain ⟨args, hs3, himp⟩ := strat3_find (cleanContent content.data) known n hfind
  have hmain : parseToolCallFromContent content known = some ⟨n, args⟩ := by
    rw [parseToolCallFromContent_eq content known hc hk, h1, h2]
    exact hs3
  refine ⟨by rw [hmain]; rfl, fun H => by rw [hmain, himp H]⟩

/-- Witness for C10: with known names `["beta", "alpha"]` and the text
"alpha then beta" (where "alpha" occurs first in the text), the
extractor returns "beta" — the first name in list order — with empty
arguments. -/
theorem extractor_substring_fallback_witness :
    parseToolCallFromContent "alpha then beta" ["beta", "alpha"] =
      some ⟨"beta", Json.obj []⟩ := by
  have h := extractor_substring_fallback "alpha then beta" ["beta", "alpha"] "beta"
    (by decide) (by rfl) (by rfl) (by rfl)
  exact h.2 (by decide)

/-! ## Tool catalog filter (`tool-filter.js`) -/

/-- One parameter of a tool schema. -/
structure ParamSpec where
  type : String
  description : Option String
  deriving Repr, DecidableEq

/-- The `inputSchema` of a tool descriptor. -/
structure ToolSchema where
  properties : List (String × ParamSpec)
  required : List String
  deriving Repr, DecidableEq

/-- A tool descriptor from the MCP listing. -/
structure McpTool where
  name : String
  description : String
  inputSchema : Option ToolSchema
  deriving Repr, DecidableEq

/-- Uppercase → lowercase for the Vietnamese repertoire the domain
uses (the model of full-Unicode `toLowerCase` on those letters). -/
def vnLowerPairs : List (Char × Char) := [
  ('À', 'à'), ('Á', 'á'), ('Ạ', 'ạ'), ('Ả', 'ả'), ('Ã', 'ã'), ('Â', 'â'), ('Ầ', 'ầ'), ('Ấ', 'ấ'),
  ('Ậ', 'ậ'), ('Ẩ', 'ẩ'), ('Ẫ', 'ẫ'), ('Ă', 'ă'), ('Ằ', 'ằ'), ('Ắ', 'ắ'), ('Ặ', 'ặ'), ('Ẳ', 'ẳ'),
  ('Ẵ', 'ẵ'), ('È', 'è'), ('É', 'é'), ('Ẹ', 'ẹ'), ('Ẻ', 'ẻ'), ('Ẽ', 'ẽ'), ('Ê', 'ê'), ('Ề', 'ề'),
  ('Ế', 'ế'), ('Ệ', 'ệ'), ('Ể', 'ể'), ('Ễ', 'ễ'), ('Ì', 'ì'), ('Í', 'í'), ('Ị', 'ị'), ('Ỉ', 'ỉ'),
  ('Ĩ', 'ĩ'), ('Ò', 'ò'), ('Ó', 'ó'), ('Ọ', 'ọ'), ('Ỏ', 'ỏ'), ('Õ', 'õ'), ('Ô', 'ô'), ('Ồ', 'ồ'),
  ('Ố', 'ố'), ('Ộ', 'ộ'), ('Ổ', 'ổ'), ('Ỗ', 'ỗ'), ('Ơ', 'ơ'), ('Ờ', 'ờ'), ('Ớ', 'ớ'), ('Ợ', 'ợ'),
  ('Ở', 'ở'), ('Ỡ', 'ỡ'), ('Ù', 'ù'), ('Ú', 'ú'), ('Ụ', 'ụ'), ('Ủ', 'ủ'), ('Ũ', 'ũ'), ('Ư', 'ư'),
  ('Ừ', 'ừ'), ('Ứ', 'ứ'), ('Ự', 'ự'), ('Ử', 'ử'), ('Ữ', 'ữ'), ('Ỳ', 'ỳ'), ('Ý', 'ý'), ('Ỵ', 'ỵ'),
  ('Ỷ', 'ỷ'), ('Ỹ', 'ỹ'), ('Đ', 'đ')]

def vnStripPairs : List (Char × Char) := [
  ('à', 'a'), ('á', 'a'), ('ạ', 'a'), ('ả', 'a'), ('ã', 'a'), ('â', 'a'), ('ầ', 'a'), ('ấ', 'a'),
  ('ậ', 'a'), ('ẩ', 'a'), ('ẫ', 'a'), ('ă', 'a'), ('ằ', 'a'), ('ắ', 'a'), ('ặ', 'a'), ('ẳ', 'a'),
  ('ẵ', 'a'), ('è', 'e'), ('é', 'e'), ('ẹ', 'e'), ('ẻ', 'e'), ('ẽ', 'e'), ('ê', 'e'), ('ề', 'e'),
  ('ế', 'e'), ('ệ', 'e'), ('ể', 'e'), ('ễ', 'e'), ('ì', 'i'), ('í', 'i'), ('ị', 'i'), ('ỉ', 'i'),
  ('ĩ', 'i'), ('ò', 'o'), ('ó', 'o'), ('ọ', 'o'), ('ỏ', 'o'), ('õ', 'o'), ('ô', 'o'), ('ồ', 'o'),
  ('ố', 'o'), ('ộ', 'o'), ('ổ', 'o'), ('ỗ', 'o'), ('ơ', 'o'), ('ờ', 'o'), ('ớ', 'o'), ('ợ', 'o'),
  ('ở', 'o'), ('ỡ', 'o'), ('ù', 'u'), ('ú', 'u'), ('ụ', 'u'), ('ủ', 'u'), ('ũ', 'u'), ('ư', 'u'),
  ('ừ', 'u'), ('ứ', 'u'), ('ự', 'u'), ('ử', 'u'), ('ữ', 'u'), ('ỳ', 'y'), ('ý', 'y'), ('ỵ', 'y'),
  ('ỷ', 'y'), ('ỹ', 'y'), ('đ', 'd')]

/-- Full `toLowerCase` model: Vietnamese table first, ASCII fold
otherwise. -/
def lowerVN (c : Char) : Char :=
  ((vnLowerPairs.find? (fun p => p.1 == c)).map (·.2)).getD c.toLower

/-- `normalize('NFD')` followed by stripping combining marks and
`đ → d`, on a single precomposed character. -/
def stripVN (c : Char) : Char :=
  ((vnStripPairs.find? (fun p => p.1 == c)).map (·.2)).getD c

/-- `normalize` of `tool-filter.js`: case fold then strip diacritics. -/
def normalizeText (l : List Char) : List Char :=
  (l.map lowerVN).map stripVN

/-- `TOOL_KEYWORDS`, in object-literal insertion order. -/
def toolKeywords : List (String × List String) := [
  ("auth", ["login", "đăng nhập", "đăng ký", "register", "logout", "thoát",
    "current user", "người dùng hiện tại", "token"]),
  ("house", ["nhà", "house", "building", "tòa nhà", "dãy nhà"]),
  ("room", ["phòng", "room", "trống", "available", "vacant", "empty"]),
  ("tenant", ["khách", "tenant", "người thuê", "cư dân"]),
  ("contract", ["hợp đồng", "contract", "thuê"]),
  ("service", ["dịch vụ", "service", "tiện ích", "utility"]),
  ("invoice", ["hóa đơn", "invoice", "bill", "thanh toán", "payment"]),
  ("user", ["user", "người dùng", "tài khoản", "account"])]

/-- `getToolCategory`: name-based classification, first match wins. -/
def getToolCategory (toolName : String) : String :=
  let n := toolName.data
  if jsIncludes n "login".data || jsIncludes n "register".data ||
      jsIncludes n "auth".data || jsIncludes n "refresh_token".data then "auth"
  else if jsIncludes n "house".data then "house"
  else if jsIncludes n "room".data && !jsIncludes n "room_service".data then "room"
  else if jsIncludes n "tenant".data then "tenant"
  else if jsIncludes n "contract".data then "contract"
  else if jsIncludes n "service".data || jsIncludes n "room_service".data then "service"
  else if jsIncludes n "invoice".data || jsIncludes n "payment".data then "invoice"
  else if jsIncludes n "user".data || jsIncludes n "password".data then "user"
  else "other"

/-- The categories whose keyword lists match the normalized message, in
`TOOL_KEYWORDS` order (the `Set` of `detectRelevantCategories` before
the fallback). -/
def matchedCategories (userMessage : String) : List String :=
  let norm := normalizeText userMessage.data
  (toolKeywords.filter (fun p =>
    p.2.any (fun kw => jsIncludes norm (normalizeText kw.data)))).map (·.1)

/-- The fixed fallback category set. -/
def defaultCategories : List String := ["house", "room", "tenant", "invoice"]

/-- `detectRelevantCategories`. -/
def detectRelevantCategories (userMessage : String) : List String :=
  if matchedCategories userMessage = [] then defaultCategories
  else matchedCategories userMessage

/-- `Map.prototype.set` on an association list: replace in place when
the key exists, append otherwise. -/
def mapUpsert (m : List (String × McpTool)) (k : String) (v : McpTool) :
    List (String × McpTool) :=
  if m.any (fun p => p.1 == k) then
    m.map (fun p => if p.1 == k then (p.1, v) else p)
  else m ++ [(k, v)]

/-- `new Map(list.map(t => [t.name, t]))`: keys in first-occurrence
order, each holding the LAST descriptor set for that key. -/
def jsMapOfTools (l : List McpTool) : List (String × McpTool) :=
  l.foldl (fun m t => mapUpsert m t.name t) []

/-- `filterRelevantTools`. -/
def filterRelevantTools (allTools : List McpTool) (userMessage : String)
    (maxTools : Nat) : List McpTool :=
  let relevantCategories := detectRelevantCategories userMessage
  let relevantTools := allTools.filter
    (fun t => relevantCategories.contains (getToolCategory t.name))
  let uniqueTools := (jsMapOfTools relevantTools).map (·.2)
  uniqueTools.take maxTools

/-! ## Claim C5: category classification of names with "room" and "service" -/

/-- C5 (amended): the classifier is a deterministic function of the
name, and the specific branch order makes the service category win
over room exactly when the CONTIGUOUS substring "room_service" occurs
(and no earlier branch fires); a name containing "room" and "service"
only as separate substrings classifies as room, not service. -/
theorem getToolCategory_room_service (name : String)
    (hrs : jsIncludes name.data "room_service".data = true)
    (h1 : jsIncludes name.data "login".data = false)
    (h2 : jsIncludes name.data "register".data = false)
    (h3 : jsIncludes name.data "auth".data = false)
    (h4 : jsIncludes name.data "refresh_token".data = false)
    (h5 : jsIncludes name.data "house".data = false)
    (h6 : jsIncludes name.data "tenant".data = false)
    (h7 : jsIncludes name.data "contract".data = false) :
    getToolCategory name = "service" := by
  unfold getToolCategory
  rw [if_neg (by simp [h1, h2, h3, h4])]
  rw [if_neg (by simp [h5])]
  rw [if_neg (by simp [hrs])]
  rw [if_neg (by simp [h6])]
  rw [if_neg (by simp [h7])]
  rw [if_pos (by simp [hrs])]

/-- Witness for C5 at a concrete tool name. -/
theorem getToolCategory_room_service_witness :
    jsIncludes "create_room_service".data "room_service".data = true ∧
    getToolCategory "create_room_service" = "service" :=
  ⟨by decide, getToolCategory_room_service "create_room_service" (by decide)
    (by decide) (by decide) (by decide) (by decide) (by decide) (by decide)
    (by decide)⟩

/-- C5 counterexample: "service_room" contains both "room" and
"service" as substrings yet classifies as room, not service. -/
theorem getToolCategory_cx :
    jsIncludes "service_room".data "room".data = true ∧
    jsIncludes "service_room".data "service".data = true ∧
    getToolCategory "service_room" = "room" := by
  exact ⟨by decide, by decide, by rfl⟩

/-! ## Claim C4: filter guarantees -/

theorem mapUpsert_mem {m : List (String × McpTool)} {k : String} {v : McpTool}
    {p : String × McpTool} (hp : p ∈ mapUpsert m k v) :
    p ∈ m ∨ (p.1 = k ∧ p.2 = v) := by
  unfold mapUpsert at hp
  by_cases hany : m.any (fun p => p.1 == k)
  · rw [if_pos hany] at hp
    obtain ⟨q, hq, hfq⟩ := List.mem_map.mp hp
    by_cases hqk : q.1 == k
    · rw [if_pos hqk] at hfq
      right
      rw [← hfq]
      exact ⟨by simpa using hqk, rfl⟩
    · rw [if_neg hqk] at hfq
      left
      rw [← hfq]
      exact hq
  · rw [if_neg hany] at hp
    rcases List.mem_append.mp hp with h | h
    · exact Or.inl h
    · right
      simp only [List.mem_singleton] at h
      rw [h]
      exact ⟨rfl, rfl⟩

theorem mapUpsert_keys (m : List (String × McpTool)) (k : String) (v : McpTool) :
    (mapUpsert m k v).map Prod.fst = m.map Prod.fst ∨
    (mapUpsert m k v).map Prod.fst = m.map Prod.fst ++ [k] := by
  unfold mapUpsert
  by_cases hany : m.any (fun p => p.1 == k)
  · rw [if_pos hany]
    left
    rw [List.map_map]
    apply List.map_congr_left
    intro p hp
    simp only [Function.comp_apply]
    split <;> rfl
  · rw [if_neg hany]
    right
    simp

theorem foldlUpsert_keys_sublist :
    ∀ (l : List McpTool) (m : List (String × McpTool)),
      ((l.foldl (fun m t => mapUpsert m t.name t) m).map Prod.fst).Sublist
        (m.map Prod.fst ++ l.map McpTool.name) := by
  intro l
  induction l with
  | nil => intro m; simp
  | cons x xs ih =>
    intro m
    rw [List.foldl_cons, List.map_cons]
    have h := ih (mapUpsert m x.name x)
    rcases mapUpsert_keys m x.name x with hk | hk
    · rw [hk] at h
      exact h.trans ((List.sublist_cons_self _ _).append_left _)
    · rw [hk, List.append_assoc, List.singleton_append] at h
      exact h

theorem foldlUpsert_mem :
    ∀ (l : List McpTool) (m : List (String × McpTool))
      (p : String × McpTool),
      p ∈ l.foldl (fun m t => mapUpsert m t.name t) m →
      p ∈ m ∨ (p.2 ∈ l ∧ p.1 = p.2.name) := by
  intro l
  induction l with
  | nil => intro m p hp; exact Or.inl hp
  | cons x xs ih =>
    intro m p hp
    rw [List.foldl_cons] at hp
    rcases ih (mapUpsert m x.name x) p hp with h | h
    · rcases mapUpsert_mem h with h2 | h2
      · exact Or.inl h2
      · right
        refine ⟨?_, by rw [h2.1, h2.2]⟩
        rw [h2.2]
        simp
    · right
      exact ⟨List.mem_cons_of_mem _ h.1, h.2⟩

/-- C4: the Tool Catalog Filter returns at most the cap, only tools of
the input catalog, with the relative order of first appearance
preserved (the output names form a sublist of the input names); and a
message matching no keyword category makes exactly the fixed default
category set (house, room, tenant, invoice) eligible. -/
theorem filterRelevantTools_spec (tools : List McpTool) (msg : String) (cap : Nat) :
    (filterRelevantTools tools msg cap).length ≤ cap ∧
    (∀ t ∈ filterRelevantTools tools msg cap, t ∈ tools) ∧
    ((filterRelevantTools tools msg cap).map McpTool.name).Sublist
      (tools.map McpTool.name) ∧
    (matchedCategories msg = [] →
      detectRelevantCategories msg = ["house", "room", "tenant", "invoice"] ∧
      ∀ t ∈ filterRelevantTools tools msg cap,
        getToolCategory t.name ∈ defaultCategories) := by
  have hsub : ∀ t ∈ filterRelevantTools tools msg cap,
      t ∈ tools.filter
        (fun t => (detectRelevantCategories msg).contains (getToolCategory t.name)) := by
    intro t ht
    unfold filterRelevantTools at ht
    have ht2 := List.take_subset _ _ ht
    obtain ⟨p, hp, hpt⟩ := List.mem_map.mp ht2
    rcases foldlUpsert_mem _ [] p hp with h | h
    · simp at h
    · rw [← hpt]
      exact h.1
  refine ⟨?_, ?_, ?_, ?_⟩
  · exact List.length_take_le _ _
  · intro t ht
    exact List.mem_of_mem_filter (hsub t ht)
  · unfold filterRelevantTools
    rw [← List.map_take, List.map_map]
    refine ((List.take_sublist cap _).map _).trans ?_
    have hmapeq :
        (jsMapOfTools (tools.filter (fun t =>
          (detectRelevantCategories msg).contains (getToolCategory t.name)))).map
            (McpTool.name ∘ (·.2)) =
        (jsMapOfTools (tools.filter (fun t =>
          (detectRelevantCategories msg).contains (getToolCategory t.name)))).map
            Prod.fst := by
      apply List.map_congr_left
      intro p hp
      rcases foldlUpsert_mem _ [] p hp with h | h
      · simp at h
      · simp [Function.comp_apply, h.2]
    rw [hmapeq]
    refine (foldlUpsert_keys_sublist _ []).trans ?_
    simp only [List.map_nil, List.nil_append]
    exact (List.filter_sublist _).map _
  · intro hm
    have hdet : detectRelevantCategories msg = ["house", "room", "tenant", "invoice"] := by
      unfold detectRelevantCategories
      rw [if_pos hm]
      rfl
    refine ⟨hdet, ?_⟩
    intro t ht
    have h2 := hsub t ht
    have h3 := List.of_mem_filter h2
    rw [hdet] at h3
    simpa [defaultCategories] using h3

/-- Witness for C4 at a concrete catalog and a message matching no
keyword category. -/
theorem filterRelevantTools_spec_witness :
    matchedCategories "qqq" = [] ∧
    (filterRelevantTools [⟨"room_a", "d1", none⟩, ⟨"login_x", "d2", none⟩] "qqq" 1).length ≤ 1 ∧
    (∀ t ∈ filterRelevantTools [⟨"room_a", "d1", none⟩, ⟨"login_x", "d2", none⟩] "qqq" 1,
      getToolCategory t.name ∈ defaultCategories) :=
  ⟨by decide,
    (filterRelevantTools_spec [⟨"room_a", "d1", none⟩, ⟨"login_x", "d2", none⟩] "qqq" 1).1,
    ((filterRelevantTools_spec [⟨"room_a", "d1", none⟩, ⟨"login_x", "d2", none⟩] "qqq" 1).2.2.2
      (by decide)).2⟩

/-! ## Claim C6: de-duplication keeps the LAST descriptor -/

theorem jsMapOfTools_append_single (l : List McpTool) (x : McpTool) :
    jsMapOfTools (l ++ [x]) = mapUpsert (jsMapOfTools l) x.name x := by
  unfold jsMapOfTools
  rw [List.foldl_append]
  rfl

theorem jsMap_entry_last (l : List McpTool) :
    ∀ p ∈ jsMapOfTools l,
      (l.filter (fun u => u.name == p.1)).getLast? = some p.2 := by
  induction l using List.reverseRecOn with
  | nil => intro p hp; simp [jsMapOfTools] at hp
  | append_singleton l x ih =>
    intro p hp
    rw [jsMapOfTools_append_single] at hp
    rw [List.filter_append]
    unfold mapUpsert at hp
    by_cases hany : (jsMapOfTools l).any (fun q => q.1 == x.name)
    · rw [if_pos hany] at hp
      obtain ⟨q, hq, hfq⟩ := List.mem_map.mp hp
      by_cases hqx : q.1 == x.name
      · rw [if_pos hqx] at hfq
        have h1 : p.1 = q.1 := by rw [← hfq]
        have h2 : p.2 = x := by rw [← hfq]
        have hqx2 : q.1 = x.name := by simpa using hqx
        rw [h1, hqx2]
        have : List.filter (fun u => u.name == x.name) [x] = [x] := by simp
        rw [this, List.getLast?_concat, h2]
      · rw [if_neg hqx] at hfq
        subst hfq
        have hfxe : List.filter (fun u => u.name == q.1) [x] = [] := by
          have hne : (x.name == q.1) = false := by
            by_contra hcon
            have hx : (x.name == q.1) = true := by
              cases h : (x.name == q.1)
              · exact absurd h hcon
              · rfl
            have hx2 : x.name = q.1 := by simpa using hx
            exact hqx (by simpa using hx2.symm)
          simp only [List.filter, List.filter_nil, hne]
        rw [hfxe, List.append_nil]
        exact ih q hq
    · rw [if_neg hany] at hp
      rcases List.mem_append.mp hp with hmem | hmem
      · have hne : (x.name == p.1) = false := by
          by_contra hcon
          have hx : (x.name == p.1) = true := by
            cases h : (x.name == p.1)
            · exact absurd h hcon
            · rfl
          have hx2 : p.1 = x.name := by
            have := (beq_iff_eq.mp hx).symm
            exact this
          apply hany
          rw [List.any_eq_true]
          exact ⟨p, hmem, by simpa using hx2⟩
        have hfx : List.filter (fun u => u.name == p.1) [x] = [] := by
          simp only [List.filter, List.filter_nil, hne]
        rw [hfx, List.append_nil]
        exact ih p hmem
      · simp only [List.mem_singleton] at hmem
        subst hmem
        have hfx : List.filter (fun u => u.name == x.name) [x] = [x] := by simp
        rw [hfx, List.getLast?_concat]

/-- C6 (amended): when the filter de-duplicates the category-relevant
tools by name, the LAST occurrence of each name wins for the kept
descriptor (JavaScript `Map` semantics: repeated `set` overwrites the
value), while the claim's "first occurrence" governs only the position
in the output order.  Every tool in the output is the last
category-relevant descriptor of its name in the input. -/
theorem filterRelevantTools_dedup_last (tools : List McpTool) (msg : String)
    (cap : Nat) (t : McpTool) (ht : t ∈ filterRelevantTools tools msg cap) :
    ((tools.filter (fun u =>
        (detectRelevantCategories msg).contains (getToolCategory u.name))).filter
      (fun u => u.name == t.name)).getLast? = some t := by
  unfold filterRelevantTools at ht
  have ht2 := List.take_subset _ _ ht
  obtain ⟨p, hp, hpt⟩ := List.mem_map.mp ht2
  have hinv := foldlUpsert_mem _ [] p hp
  rcases hinv with h | h
  · simp at h
  · have hname : p.1 = t.name := by rw [h.2, hpt]
    have := jsMap_entry_last _ p hp
    rw [hname, hpt] at this
    exact this

/-- Witness for C6 (amended) at a concrete input. -/
theorem filterRelevantTools_dedup_last_witness :
    (⟨"room_a", "two", none⟩ : McpTool) ∈
      filterRelevantTools [⟨"room_a", "one", none⟩, ⟨"room_a", "two", none⟩] "room" 15 ∧
    ((([⟨"room_a", "one", none⟩, ⟨"room_a", "two", none⟩] : List McpTool).filter (fun u =>
        (detectRelevantCategories "room").contains (getToolCategory u.name))).filter
      (fun u => u.name == "room_a")).getLast? = some ⟨"room_a", "two", none⟩ :=
  ⟨by decide,
    filterRelevantTools_dedup_last [⟨"room_a", "one", none⟩, ⟨"room_a", "two", none⟩]
      "room" 15 ⟨"room_a", "two", none⟩ (by decide)⟩

/-- C6 counterexample: with two distinct descriptors of the same name,
the output keeps the LATER descriptor, not the earlier one as the
claim states. -/
theorem filterRelevantTools_dedup_cx :
    filterRelevantTools [⟨"room_a", "one", none⟩, ⟨"room_a", "two", none⟩] "room" 15 =
      [⟨"room_a", "two", none⟩] ∧
    (⟨"room_a", "two", none⟩ : McpTool) ≠ ⟨"room_a", "one", none⟩ :=
  ⟨by rfl, by decide⟩

/-! ## Session store (`session-manager.js`)

`Date.now()` is the `now : Nat` argument (milliseconds).  The store is
the `sessions` map; operations that mutate it return the new store. -/

/-- One session entry (all fields are set together by `setToken`). -/
structure Session where
  token : String
  userId : String
  expiresAt : Nat
  refreshToken : Option String
  loginTime : Nat
  deriving Repr, DecidableEq

/-- The `sessions` map of the session manager. -/
abbrev SessionStore := List (String × Session)

/-- `sessionId || this.defaultSessionId` (the empty string is falsy). -/
def sidOf (sessionId : Option String) : String :=
  match sessionId with
  | some s => if s = "" then "default" else s
  | none => "default"

/-- `Map.prototype.get`. -/
def sessGet (store : SessionStore) (sid : String) : Option Session :=
  (store.find? (fun p => p.1 == sid)).map (·.2)

/-- `Map.prototype.set` (replace in place or append). -/
def sessSet (store : SessionStore) (sid : String) (s : Session) : SessionStore :=
  if store.any (fun p => p.1 == sid) then
    store.map (fun p => if p.1 == sid then (p.1, s) else p)
  else store ++ [(sid, s)]

/-- `Map.prototype.delete`. -/
def sessDelete (store : SessionStore) (sid : String) : SessionStore :=
  store.filter (fun p => !(p.1 == sid))

/-- `setToken(token, userId, sessionId, additionalData)`:
`expiresIn || 3600` defaults a missing or zero expiry to one hour;
absolute expiry is `now + expiresIn * 1000`. -/
def setToken (store : SessionStore) (now : Nat) (token userId : String)
    (sessionId : Option String) (expiresIn : Option Nat)
    (refreshToken : Option String) : SessionStore :=
  let sid := sidOf sessionId
  let exp := match expiresIn with
    | some e => if e = 0 then 3600 else e
    | none => 3600
  sessSet store sid
    ⟨token, userId, now + exp * 1000, refreshToken, now⟩

/-- `clearSession(sessionId)`. -/
def clearSession (store : SessionStore) (sessionId : Option String) : SessionStore :=
  sessDelete store (sidOf sessionId)

/-- `clearAllSessions()`. -/
def clearAllSessions (_store : SessionStore) : SessionStore := []

/-- `getToken(sessionId)`: the token while unexpired; an expired
session is cleared as a side effect (lazy eviction). -/
def getToken (store : SessionStore) (now : Nat) (sessionId : Option String) :
    Option String × SessionStore :=
  match sessGet store (sidOf sessionId) with
  | none => (none, store)
  | some s =>
    if s.token = "" then (none, store)
    else if s.expiresAt ≠ 0 ∧ s.expiresAt < now then
      (none, clearSession store (some (sidOf sessionId)))
    else (some s.token, store)

/-- The context returned by `getSessionContext`. -/
structure SessionContext where
  sessionId : String
  isAuthenticated : Bool
  token : Option String
  userId : Option String
  expiresAt : Option Nat
  refreshToken : Option String
  deriving Repr, DecidableEq

/-- `getSessionContext(sessionId)`: never throws; an absent session
yields an explicit unauthenticated context.  It reads the session
first and then calls `getToken` (whose lazy eviction may update the
store). -/
def getSessionContext (store : SessionStore) (now : Nat)
    (sessionId : Option String) : SessionContext × SessionStore :=
  match sessGet store (sidOf sessionId) with
  | none => (⟨sidOf sessionId, false, none, none, none, none⟩, store)
  | some s =>
    (⟨sidOf sessionId,
      (s.token ≠ "" && (s.expiresAt == 0 || now ≤ s.expiresAt)),
      (getToken store now (some (sidOf sessionId))).1,
      some s.userId, some s.expiresAt, s.refreshToken⟩,
      (getToken store now (some (sidOf sessionId))).2)

/-! ## Claim C2: token expiry and lazy eviction -/

theorem sessGet_delete_self (store : SessionStore) (sid : String) :
    sessGet (sessDelete store sid) sid = none := by
  unfold sessGet sessDelete
  rw [List.find?_eq_none.mpr]
  · rfl
  · intro p hp
    have := List.of_mem_filter hp
    simpa using this

/-- C2: while `now ≤ expiresAt` the stored token is returned and the
store is untouched; once the expiry is exceeded the same call returns
`none`, the session entry is removed (lazy eviction), and a subsequent
`getSessionContext` on the updated store reports
`isAuthenticated = false`.  (The hypotheses say the session exists with
a nonempty token and a nonzero expiry, as `setToken` always
produces.) -/
theorem getToken_expiry (store : SessionStore) (now : Nat)
    (sessionId : Option String) (s : Session)
    (hs : sessGet store (sidOf sessionId) = some s)
    (htok : s.token ≠ "") (hexp : s.expiresAt ≠ 0) :
    (now ≤ s.expiresAt →
      (getToken store now sessionId).1 = some s.token ∧
      (getToken store now sessionId).2 = store) ∧
    (s.expiresAt < now →
      (getToken store now sessionId).1 = none ∧
      sessGet (getToken store now sessionId).2 (sidOf sessionId) = none ∧
      ((getSessionContext (getToken store now sessionId).2 now sessionId).1).isAuthenticated
        = false) := by
  constructor
  · intro hle
    have hgt : getToken store now sessionId = (some s.token, store) := by
      unfold getToken
      rw [hs]
      show (if s.token = "" then ((none : Option String), store)
        else if s.expiresAt ≠ 0 ∧ s.expiresAt < now then
          (none, clearSession store (some (sidOf sessionId)))
        else (some s.token, store)) = (some s.token, store)
      rw [if_neg htok, if_neg (by omega)]
    rw [hgt]
    exact ⟨rfl, rfl⟩
  · intro hlt
    have hget : getToken store now sessionId =
        (none, clearSession store (some (sidOf sessionId))) := by
      unfold getToken
      rw [hs]
      show (if s.token = "" then ((none : Option String), store)
        else if s.expiresAt ≠ 0 ∧ s.expiresAt < now then
          (none, clearSession store (some (sidOf sessionId)))
        else (some s.token, store)) =
        (none, clearSession store (some (sidOf sessionId)))
      rw [if_neg htok, if_pos ⟨hexp, hlt⟩]
    rw [hget]
    refine ⟨rfl, ?_, ?_⟩
    · show sessGet (sessDelete store (sidOf (some (sidOf sessionId))))
        (sidOf sessionId) = none
      rw [show sidOf (some (sidOf sessionId)) = sidOf sessionId by
        unfold sidOf
        cases sessionId with
        | none => rfl
        | some t =>
          by_cases ht : t = ""
          · simp [ht]
          · simp [ht]]
      exact sessGet_delete_self store (sidOf sessionId)
    · have hnone : sessGet (clearSession store (some (sidOf sessionId)))
          (sidOf sessionId) = none := by
        show sessGet (sessDelete store (sidOf (some (sidOf sessionId))))
          (sidOf sessionId) = none
        rw [show sidOf (some (sidOf sessionId)) = sidOf sessionId by
          unfold sidOf
          cases sessionId with
          | none => rfl
          | some t =>
            by_cases ht : t = ""
            · simp [ht]
            · simp [ht]]
        exact sessGet_delete_self store (sidOf sessionId)
      unfold getSessionContext
      rw [hnone]

/-- Witness for C2 at a concrete store and clock. -/
theorem getToken_expiry_witness :
    sessGet [("default", ⟨"tok", "u1", 1000, none, 0⟩)] (sidOf none) =
      some ⟨"tok", "u1", 1000, none, 0⟩ ∧
    (getToken [("default", ⟨"tok", "u1", 1000, none, 0⟩)] 500 none).1 = some "tok" ∧
    (getToken [("default", ⟨"tok", "u1", 1000, none, 0⟩)] 2000 none).1 = none ∧
    ((getSessionContext
      (getToken [("default", ⟨"tok", "u1", 1000, none, 0⟩)] 2000 none).2
      2000 none).1).isAuthenticated = false := by
  refine ⟨by decide, ?_, ?_, ?_⟩
  · exact ((getToken_expiry [("default", ⟨"tok", "u1", 1000, none, 0⟩)] 500 none
      ⟨"tok", "u1", 1000, none, 0⟩ (by decide) (by decide) (by decide)).1
      (by decide)).1
  · exact ((getToken_expiry [("default", ⟨"tok", "u1", 1000, none, 0⟩)] 2000 none
      ⟨"tok", "u1", 1000, none, 0⟩ (by decide) (by decide) (by decide)).2
      (by decide)).1
  · exact ((getToken_expiry [("default", ⟨"tok", "u1", 1000, none, 0⟩)] 2000 none
      ⟨"tok", "u1", 1000, none, 0⟩ (by decide) (by decide) (by decide)).2
      (by decide)).2.2

/-! ## The agent orchestrator

The embedding of `src/unnamed/part_004` (`callOllamaWithTools`),
`src/src/agent/tool-executor.js` (`getAvailableTools`, `executeMcpTool`)
and `src/src/agent/agent.js` (`HostelAIAgent.processMessage`).  The
network is an oracle environment `AgentEnv`; every call to an external
service is recorded in an `Effect` trace so that temporal claims
("never fetches the catalog", "at most five invocations") are
statements about the trace. -/

/-- A chat message sent to the model. -/
structure ChatMsg where
  role : String
  content : String
  deriving Repr, DecidableEq

/-- A `function` payload of a native tool call: same shape as the
extractor's `ToolCall` (`name`, `arguments`), with `arguments` any JSON
value (a `Json.str` models the string case of
`typeof arguments === 'string'`). -/
structure NativeToolCall where
  id : Option String
  function : Option ToolCall

/-- The `response.data.message` of the Ollama `/chat` endpoint. -/
structure RawChatMessage where
  content : String
  tool_calls : List NativeToolCall

/-- An entry of the `toolCalls` list `callOllamaWithTools` returns. -/
structure ToolCallOut where
  id : Option String
  function : ToolCall

/-- One observable external action of the orchestrator. -/
inductive Effect where
  | callModel
  | fetchCatalog
  | invokeTool (name : String)
  deriving Repr, DecidableEq

/-- The oracle environment: the model, the MCP catalog endpoint, the
MCP invocation endpoint, and the clock.  `Except.error` models a
thrown/rejected request. -/
structure AgentEnv where
  chat : List ChatMsg → Except String RawChatMessage
  mcpTools : Except String (List McpTool)
  mcpInvoke : String → Json → Option (String × String) → Except String Json
  nowMs : Nat

/-- One line of the parameter list of `buildToolCallingPrompt`. -/
def paramLine (required : List String) (kv : String × ParamSpec) : String :=
  "      " ++ kv.1 ++ ": " ++ kv.2.type ++
    (if required.contains kv.1 then " (required)" else " (optional)") ++
    " - " ++ kv.2.description.getD ""

/-- One `  - name: description` entry of `buildToolCallingPrompt`. -/
def toolPromptEntry (t : McpTool) : String :=
  let params := match t.inputSchema with | some s => s.properties | none => []
  let required := match t.inputSchema with | some s => s.required | none => []
  let paramList := String.intercalate "\n" (params.map (paramLine required))
  "  - " ++ t.name ++ ": " ++ t.description ++
    (if paramList = "" then "" else "\n    Parameters:\n" ++ paramList)

/-- The tool-calling prompt `buildToolCallingPrompt` of `part_004`. -/
def buildToolCallingPrompt (tools : List McpTool) : String :=
  "You have access to these tools:\n" ++
    String.intercalate "\n" (tools.map toolPromptEntry) ++
    "\n\nINSTRUCTIONS:\n- To call a tool, respond ONLY with a JSON object in this exact format:\n  \x7b\"tool\": \"tool_name\", \"args\": \x7b\"param1\": \"value1\", \"param2\": \"value2\"\x7d\x7d\n- Do NOT add any text before or after the JSON.\n- Do NOT wrap the JSON in markdown code blocks.\n- If you need to call a tool, respond with ONLY the JSON object.\n- If the user is just chatting (greeting, thanks, etc.) and no tool is needed, respond normally with text."

/-- Message preparation of `callOllamaWithTools`: with a non-empty tool
list the tool prompt is merged into a leading system message or
prepended as a new one. -/
def withToolPrompt (messages : List ChatMsg) (availableTools : List McpTool) :
    List ChatMsg :=
  if availableTools.isEmpty then messages
  else
    match messages with
    | [] => [⟨"system", buildToolCallingPrompt availableTools⟩]
    | m :: rest =>
      if m.role = "system" then
        ⟨"system", m.content ++ "\n\n" ++ buildToolCallingPrompt availableTools⟩ :: rest
      else ⟨"system", buildToolCallingPrompt availableTools⟩ :: m :: rest

/-- The native fallback `message.tool_calls.filter(tc => tc.function?.name)`:
entries whose function is present with a truthy (non-empty) name. -/
def validNatives (l : List NativeToolCall) : List ToolCallOut :=
  l.filterMap (fun tc => match tc.function with
    | some f => if f.name = "" then none else some ⟨tc.id, f⟩
    | none => none)

/-- The part of `callOllamaWithTools` after the `/chat` request: try
the content extractor, fall back to native `tool_calls`, and wrap a
thrown error as `LLM Error: ...` (the `throw new Error` of the catch). -/
def ollamaAfterChat (env : AgentEnv) (availableTools : List McpTool) :
    Except String RawChatMessage →
      Except String (RawChatMessage × List ToolCallOut) × List Effect
  | Except.error e => (Except.error ("LLM Error: " ++ e), [Effect.callModel])
  | Except.ok message =>
    if message.content ≠ "" ∧ availableTools.map McpTool.name ≠ [] then
      match parseToolCallFromContent message.content (availableTools.map McpTool.name) with
      | some p =>
        (Except.ok (⟨"", message.tool_calls⟩,
          [⟨some ("call_" ++ toString env.nowMs), p⟩]), [Effect.callModel])
      | none => (Except.ok (message, validNatives message.tool_calls), [Effect.callModel])
    else (Except.ok (message, validNatives message.tool_calls), [Effect.callModel])

/-- The `callOllamaWithTools` of `part_004`: builds the messages, calls
the model (one `Effect.callModel`), and post-processes the reply. -/
def callOllamaWithTools (env : AgentEnv) (messages : List ChatMsg)
    (availableTools : List McpTool) :
    Except String (RawChatMessage × List ToolCallOut) × List Effect :=
  ollamaAfterChat env availableTools (env.chat (withToolPrompt messages availableTools))

/-- The `getAvailableTools` of `tool-executor.js`: one catalog fetch,
an error yields the empty list. -/
def getAvailableTools (env : AgentEnv) : List McpTool × List Effect :=
  (match env.mcpTools with
   | Except.ok ts => ts
   | Except.error _ => [], [Effect.fetchCatalog])

/-- The request headers of `executeMcpTool`: auth headers only when
the session context carries a truthy token (the user id defaulting to
`anonymous`). -/
def authHeaders (ctx : SessionContext) : Option (String × String) :=
  match ctx.token with
  | some t =>
    if t = "" then none
    else some (t, match ctx.userId with
      | some u => if u = "" then "anonymous" else u
      | none => "anonymous")
  | none => none

/-- The result shaping of `executeMcpTool`: a failed request becomes
the `\x7bsuccess:false, error\x7d` object, never a thrown error. -/
def mcpAfterInvoke (toolName : String) :
    Except String Json → Json × List Effect
  | Except.ok d => (d, [Effect.invokeTool toolName])
  | Except.error e =>
    (Json.obj [("success", Json.bool false), ("error", Json.str e)],
      [Effect.invokeTool toolName])

/-- The `executeMcpTool` of `tool-executor.js`: one invocation effect
per call. -/
def executeMcpTool (env : AgentEnv) (toolName : String) (args : Json)
    (ctx : SessionContext) : Json × List Effect :=
  mcpAfterInvoke toolName (env.mcpInvoke toolName args (authHeaders ctx))

/-- The diacritic character class of `isNonEnglish` (the lowercase
Vietnamese letters; the `i` flag is modelled by case-folding the
examined character first). -/
def vnDiacritics : List Char := vnStripPairs.map (·.1)

/-- The `isNonEnglish` of `agent.js`. -/
def isNonEnglish (text : String) : Bool :=
  text.data.any (fun c => vnDiacritics.contains (lowerVN c))

/-- The `conversational` keyword list of `isConversationalMessage`. -/
def conversationalKeywords : List String :=
  ["xin chào", "chào bạn", "hello", "hi ", "hey",
   "bạn là ai", "who are you", "bạn tên gì",
   "cảm ơn", "thank", "thanks",
   "tạm biệt", "goodbye", "bye"]

/-- The `isConversationalMessage` of `agent.js`: lower-case, trim, and
require length below 40 together with a keyword occurrence. -/
def isConversationalMessage (text : String) : Bool :=
  decide ((jsTrim (text.data.map lowerVN)).length < 40) &&
    conversationalKeywords.any (fun kw => jsIncludes (jsTrim (text.data.map lowerVN)) kw.data)

/-- One entry of `this.conversationHistory`.  The `userId` and
`toolsCalled` keys are only present when truthy / non-empty; `none`
and `[]` model absence. -/
structure Turn where
  role : String
  content : String
  userId : Option String
  toolsCalled : List String
  sessionId : String
  timestamp : Nat
  deriving Repr, DecidableEq

/-- The mutable fields of a `HostelAIAgent` instance together with the
session manager singleton's map. -/
structure AgentState where
  conversationHistory : List Turn
  sessions : SessionStore
  maxToolCalls : Nat
  deriving Repr, DecidableEq

/-- One entry of `toolResults`: the success shape `\x7bid, name, args,
result\x7d` or the catch shape `\x7bid, name, error\x7d`. -/
structure ToolResult where
  id : String
  name : String
  args : Option Json
  result : Option Json
  error : Option String

/-- The object `_buildResponse` returns. -/
structure AgentResponse where
  success : Bool
  response : String
  toolsCalled : List String
  toolResults : List ToolResult
  userId : Option String
  sessionId : String
  isAuthenticated : Bool
  timestamp : Nat

/-- JavaScript `a || b` on nullable strings (empty string is falsy). -/
def jsOrStr (a b : Option String) : Option String :=
  match a with
  | some s => if s = "" then b else some s
  | none => b

/-- The `...(userId && \x7b userId \x7d)` spread of `_addHistory`: the key
is only kept for a truthy user id. -/
def histUserId : Option String → Option String
  | some u => if u = "" then none else some u
  | none => none

/-- The history entry `_addHistory` pushes. -/
def mkTurn (role content : String) (sessionId : Option String)
    (userId : Option String) (toolsCalled : List String) (now : Nat) : Turn :=
  ⟨role, content, histUserId userId, toolsCalled, sidOf sessionId, now⟩

/-- The `_buildResponse` of `agent.js`. -/
def buildResponse (now : Nat) (success : Bool) (response : String)
    (toolsCalled : List String) (toolResults : List ToolResult)
    (userId : Option String) (sessionId : Option String)
    (sessionContext : Option SessionContext) : AgentResponse :=
  ⟨success, response, toolsCalled, toolResults, userId, sidOf sessionId,
    (sessionContext.map SessionContext.isAuthenticated).getD false, now⟩

/-- The `systemPrompt` of `src/unnamed/part_001` (`utils/prompt.js`). -/
def systemPrompt : String :=
  "You are an intelligent assistant for a hostel management system. You have access to a set of tools that allow you to perform various operations like:\n\n- Manage users (create, read, update, delete)\n- Manage houses and rooms\n- Manage tenants and rental contracts\n- Manage services and invoices\n- View statistics and reports\n\nWhen a user asks you to perform an action:\n1. Understand what they want to accomplish\n2. Identify which tools you need to call\n3. Call the appropriate tools with correct parameters\n4. Analyze the results\n5. Provide a clear, helpful response in the user\x27s language (Vietnamese or English)\n\nAlways be professional, helpful, and provide accurate information. If you\x27re unsure about parameters, ask the user for clarification.\n\nAvailable tool categories:\n- Authentication: login, register, get_current_user\n- Users: create_user, get_user, search_users, update_user, delete_user\n- Houses: create_house, get_house, search_houses_by_name/address\n- Rooms: create_room, get_room, get_rooms_by_house, update_room_status\n- Tenants: create_tenant, get_tenant, get_all_tenants, update_tenant\n- Contracts: create_rental_contract, get_rental_contract, add_tenant_to_contract\n- Services: create_service, get_service, add_service_to_room, get_services_by_room\n- Invoices: create_invoice, get_invoice, record_invoice_payment, get_unpaid_invoices\n\nFormat your responses clearly and provide relevant information from the tools."

/-- The two messages of the conversational branch. -/
def convMessages (userMessage : String) : List ChatMsg :=
  [⟨"system", "You are a friendly hostel management assistant. Respond in the same language as the user."⟩,
   ⟨"user", userMessage⟩]

/-- The `slice(-6)` history window mapped to chat messages. -/
def historyWindow (history : List Turn) : List ChatMsg :=
  (history.drop (history.length - 6)).map (fun t => ⟨t.role, t.content⟩)

/-- The stage-3 message list: system prompt, history window, user turn. -/
def mainMessages (history : List Turn) (userMessage : String) : List ChatMsg :=
  ⟨"system", systemPrompt⟩ :: (historyWindow history ++ [⟨"user", userMessage⟩])

/-- The stage-4 retry messages. -/
def retryMessages (availableTools : List McpTool) (userMessage : String) :
    List ChatMsg :=
  [⟨"system", "You MUST call one of these tools: [" ++
      String.intercalate ", " (availableTools.map McpTool.name) ++
      "]. Do NOT respond with text. Call the tool now."⟩,
   ⟨"user", userMessage⟩]

/-- The `\x7b tool, result \x7d` projection of a tool result sent to the
summarizer; `JSON.stringify` drops an absent `result`. -/
def toolResultSummaryJson (r : ToolResult) : Json :=
  Json.obj (("tool", Json.str r.name) ::
    (match r.result with
     | some v => [("result", v)]
     | none => []))

/-- The stage-6 summary messages.  The source pretty-prints the results
with indent 2; the embedding serializes compactly, which no claim
inspects. -/
def summaryMessages (isVietnamese : Bool) (userMessage : String)
    (toolResults : List ToolResult) : List ChatMsg :=
  [⟨"system",
    if isVietnamese then "Tóm tắt kết quả dưới đây bằng tiếng Việt, ngắn gọn và rõ ràng."
    else "Summarize the following results clearly and concisely."⟩,
   ⟨"user", "User asked: \"" ++ userMessage ++ "\"\n\nTool results:\n" ++
      Json.stringify (Json.arr (toolResults.map toolResultSummaryJson))⟩]

/-- The argument normalization of stage 5: a string is `JSON.parse`d
(empty string falsy, replaced by `\x7b\x7d` first), any other value is
defaulted to `\x7b\x7d` when falsy; `none` models a thrown parse error. -/
def resolveToolArgs : Json → Option Json
  | Json.str s => if s = "" then some (Json.obj []) else Json.parse? s
  | j => some (if jsTruthy j then j else Json.obj [])

/-- The stage-5 execution loop of `processMessage`: stops once
`maxCalls` executions are counted; a parse failure is caught, recorded
as an error result (the embedding uses a fixed representative exception
message) and still counts; every reached invocation emits one
`Effect.invokeTool`. -/
def execToolsLoop (env : AgentEnv) (ctx : SessionContext) (maxCalls : Nat) :
    List ToolCallOut → Nat → List ToolResult × List Effect
  | [], _ => ([], [])
  | tc :: rest, executed =>
    if maxCalls ≤ executed then ([], [])
    else
      match resolveToolArgs tc.function.arguments with
      | some args =>
        (ToolResult.mk
            (match tc.id with
             | some i => if i = "" then "call_" ++ toString executed else i
             | none => "call_" ++ toString executed)
            tc.function.name (some args)
            (some (executeMcpTool env tc.function.name args ctx).1) none ::
          (execToolsLoop env ctx maxCalls rest (executed + 1)).1,
         (executeMcpTool env tc.function.name args ctx).2 ++
          (execToolsLoop env ctx maxCalls rest (executed + 1)).2)
      | none =>
        (ToolResult.mk
            (match tc.id with
             | some i => if i = "" then "call_" ++ toString executed else i
             | none => "call_" ++ toString executed)
            (if tc.function.name = "" then "unknown" else tc.function.name)
            none none (some "Unexpected token in JSON") ::
          (execToolsLoop env ctx maxCalls rest (executed + 1)).1,
         (execToolsLoop env ctx maxCalls rest (executed + 1)).2)

/-- The session context read at the top of `processMessage` (which may
lazily evict an expired session). -/
def ctxOf (env : AgentEnv) (st : AgentState) (sessionId : Option String) :
    SessionContext :=
  (getSessionContext st.sessions env.nowMs sessionId).1

/-- The agent state after the `getSessionContext` read. -/
def stAfterSession (env : AgentEnv) (st : AgentState) (sessionId : Option String) :
    AgentState :=
  ⟨st.conversationHistory, (getSessionContext st.sessions env.nowMs sessionId).2,
    st.maxToolCalls⟩

/-- The success exit shared by stages 6 and 7: push the user and
assistant turns and build the success response.  `toolsCalled` is
`toolResults.map(t => t.name)` in both places. -/
def successExit (env : AgentEnv) (st1 : AgentState) (ctx : SessionContext)
    (userMessage : String) (userId sessionId : Option String)
    (finalText : String) (toolResults : List ToolResult) :
    Except String AgentResponse × AgentState :=
  (Except.ok (buildResponse env.nowMs true finalText
      (toolResults.map ToolResult.name) toolResults
      (jsOrStr userId ctx.userId) sessionId (some ctx)),
   ⟨st1.conversationHistory
      ++ [mkTurn "user" userMessage sessionId (jsOrStr userId ctx.userId) [] env.nowMs,
          mkTurn "assistant" finalText sessionId none
            (toolResults.map ToolResult.name) env.nowMs],
     st1.sessions, st1.maxToolCalls⟩)

/-- Stage 6 continuation on the summary model call's outcome. -/
def summaryAfterModel (env : AgentEnv) (st1 : AgentState) (ctx : SessionContext)
    (userMessage : String) (userId sessionId : Option String)
    (toolResults : List ToolResult) (effAcc : List Effect) :
    Except String (RawChatMessage × List ToolCallOut) × List Effect →
      Except String AgentResponse × AgentState × List Effect
  | (Except.error e, eff) => (Except.error e, st1, effAcc ++ eff)
  | (Except.ok mr2, eff) =>
    ((successExit env st1 ctx userMessage userId sessionId
        (if mr2.1.content = "" then "Đã xử lý xong." else mr2.1.content) toolResults).1,
     (successExit env st1 ctx userMessage userId sessionId
        (if mr2.1.content = "" then "Đã xử lý xong." else mr2.1.content) toolResults).2,
     effAcc ++ eff)

/-- Stage 6 and 7 of `processMessage`: with tool results, one summary
model call (whose failure propagates to the top-level catch); without,
the direct text with the localized fallback. -/
def summaryStage (env : AgentEnv) (st1 : AgentState) (ctx : SessionContext)
    (isVietnamese : Bool) (userMessage : String) (userId sessionId : Option String)
    (message : RawChatMessage) (toolResults : List ToolResult)
    (effAcc : List Effect) :
    Except String AgentResponse × AgentState × List Effect :=
  if toolResults.isEmpty then
    ((successExit env st1 ctx userMessage userId sessionId
        (if message.content = "" then
           (if isVietnamese then "Xin lỗi, tôi không thể xử lý yêu cầu này."
            else "Sorry, I could not process this request.")
         else message.content) toolResults).1,
     (successExit env st1 ctx userMessage userId sessionId
        (if message.content = "" then
           (if isVietnamese then "Xin lỗi, tôi không thể xử lý yêu cầu này."
            else "Sorry, I could not process this request.")
         else message.content) toolResults).2,
     effAcc)
  else
    summaryAfterModel env st1 ctx userMessage userId sessionId toolResults effAcc
      (callOllamaWithTools env (summaryMessages isVietnamese userMessage toolResults) [])

/-- Stage 5 of `processMessage`: run the loop and continue. -/
def execStage (env : AgentEnv) (st1 : AgentState) (ctx : SessionContext)
    (isVietnamese : Bool) (userMessage : String) (userId sessionId : Option String)
    (mr : RawChatMessage × List ToolCallOut) (effAcc : List Effect) :
    Except String AgentResponse × AgentState × List Effect :=
  summaryStage env st1 ctx isVietnamese userMessage userId sessionId mr.1
    (execToolsLoop env ctx st1.maxToolCalls mr.2 0).1
    (effAcc ++ (execToolsLoop env ctx st1.maxToolCalls mr.2 0).2)

/-- Stage 4 continuation on the retry model call's outcome. -/
def retryAfterModel (env : AgentEnv) (st1 : AgentState) (ctx : SessionContext)
    (isVietnamese : Bool) (userMessage : String) (userId sessionId : Option String)
    (mr : RawChatMessage × List ToolCallOut) (effAcc : List Effect) :
    Except String (RawChatMessage × List ToolCallOut) × List Effect →
      Except String AgentResponse × AgentState × List Effect
  | (Except.error e, eff) => (Except.error e, st1, effAcc ++ eff)
  | (Except.ok mr2, eff) =>
    execStage env st1 ctx isVietnamese userMessage userId sessionId
      (if mr2.2.isEmpty then mr else mr2) (effAcc ++ eff)

/-- Stage 4 of `processMessage`: with no tool calls but a non-empty
tool list, one retry model call; its tool calls replace the first
answer only when non-empty. -/
def retryStage (env : AgentEnv) (st1 : AgentState) (ctx : SessionContext)
    (isVietnamese : Bool) (userMessage : String) (userId sessionId : Option String)
    (availableTools : List McpTool) (mr : RawChatMessage × List ToolCallOut)
    (effAcc : List Effect) :
    Except String AgentResponse × AgentState × List Effect :=
  if mr.2.isEmpty && !availableTools.isEmpty then
    retryAfterModel env st1 ctx isVietnamese userMessage userId sessionId mr effAcc
      (callOllamaWithTools env (retryMessages availableTools userMessage) availableTools)
  else
    execStage env st1 ctx isVietnamese userMessage userId sessionId mr effAcc

/-- Stage 3 continuation: branch on the first model call's outcome. -/
def mainAfterModel (env : AgentEnv) (st1 : AgentState) (ctx : SessionContext)
    (isVietnamese : Bool) (userMessage : String) (userId sessionId : Option String)
    (availableTools : List McpTool)
    (r : Except String (RawChatMessage × List ToolCallOut) × List Effect)
    (effAcc : List Effect) :
    Except String AgentResponse × AgentState × List Effect :=
  match r.1 with
  | Except.error e => (Except.error e, st1, effAcc ++ r.2)
  | Except.ok mr =>
    retryStage env st1 ctx isVietnamese userMessage userId sessionId
      availableTools mr (effAcc ++ r.2)

/-- Stages 2 to 7 of `processMessage` (the non-conversational path). -/
def mainBranch (env : AgentEnv) (st1 : AgentState) (ctx : SessionContext)
    (isVietnamese : Bool) (userMessage : String) (userId sessionId : Option String) :
    Except String AgentResponse × AgentState × List Effect :=
  mainAfterModel env st1 ctx isVietnamese userMessage userId sessionId
    (filterRelevantTools (getAvailableTools env).1 userMessage 15)
    (callOllamaWithTools env (mainMessages st1.conversationHistory userMessage)
      (filterRelevantTools (getAvailableTools env).1 userMessage 15))
    (getAvailableTools env).2

/-- Stage 1 continuation: branch on the conversational model call. -/
def convAfterModel (env : AgentEnv) (st1 : AgentState) (ctx : SessionContext)
    (userMessage : String) (userId sessionId : Option String)
    (r : Except String (RawChatMessage × List ToolCallOut) × List Effect) :
    Except String AgentResponse × AgentState × List Effect :=
  match r.1 with
  | Except.error e => (Except.error e, st1, r.2)
  | Except.ok mr =>
    (Except.ok (buildResponse env.nowMs true
        (if mr.1.content = "" then "Xin chào! Tôi là trợ lý quản lý nhà trọ."
         else mr.1.content)
        [] [] userId sessionId (some ctx)),
     ⟨st1.conversationHistory
        ++ [mkTurn "user" userMessage sessionId none [] env.nowMs,
            mkTurn "assistant"
              (if mr.1.content = "" then "Xin chào! Tôi là trợ lý quản lý nhà trọ."
               else mr.1.content) sessionId none [] env.nowMs],
       st1.sessions, st1.maxToolCalls⟩,
     r.2)

/-- The body of `processMessage` (everything inside the `try`): an
`Except.error` is a thrown exception reaching the top-level catch. -/
def processMessageBody (env : AgentEnv) (st : AgentState) (userMessage : String)
    (userId sessionId : Option String) :
    Except String AgentResponse × AgentState × List Effect :=
  if isConversationalMessage userMessage then
    convAfterModel env (stAfterSession env st sessionId) (ctxOf env st sessionId)
      userMessage userId sessionId
      (callOllamaWithTools env (convMessages userMessage) [])
  else
    mainBranch env (stAfterSession env st sessionId) (ctxOf env st sessionId)
      (isNonEnglish userMessage) userMessage userId sessionId

/-- The `processMessage` of `agent.js` with its top-level catch: an
exception becomes the failure response `Error: ...` built from the
exception message, with no session context. -/
def processMessage (env : AgentEnv) (st : AgentState) (userMessage : String)
    (userId sessionId : Option String) :
    AgentResponse × AgentState × List Effect :=
  match (processMessageBody env st userMessage userId sessionId).1 with
  | Except.ok r =>
    (r, (processMessageBody env st userMessage userId sessionId).2.1,
      (processMessageBody env st userMessage userId sessionId).2.2)
  | Except.error e =>
    (buildResponse env.nowMs false ("Error: " ++ e) [] [] userId sessionId none,
      (processMessageBody env st userMessage userId sessionId).2.1,
      (processMessageBody env st userMessage userId sessionId).2.2)

/-- Recognizer of tool-invocation effects in a trace. -/
def isInvokeEffect : Effect → Bool
  | Effect.invokeTool _ => true
  | _ => false

/-- Every run of the post-chat processing reports exactly one model
call in its trace. -/
theorem ollamaAfterChat_effects (env : AgentEnv) (tools : List McpTool)
    (r : Except String RawChatMessage) :
    (ollamaAfterChat env tools r).2 = [Effect.callModel] := by
  cases r with
  | error e => rfl
  | ok message =>
    simp only [ollamaAfterChat]
    split
    · split <;> rfl
    · rfl

/-- Every `callOllamaWithTools` call emits exactly one model-call
effect, whatever the outcome. -/
theorem callOllama_effects (env : AgentEnv) (messages : List ChatMsg)
    (availableTools : List McpTool) :
    (callOllamaWithTools env messages availableTools).2 = [Effect.callModel] := by
  unfold callOllamaWithTools
  exact ollamaAfterChat_effects env availableTools _

/-- Under a model that always answers with empty content and a fixed
native tool-call list, `callOllamaWithTools` returns the filtered
native calls. -/
theorem callOllama_const (env : AgentEnv) (messages : List ChatMsg)
    (availableTools : List McpTool) (natives : List NativeToolCall)
    (hchat : env.chat = fun _ => Except.ok ⟨"", natives⟩) :
    callOllamaWithTools env messages availableTools =
      (Except.ok (⟨"", natives⟩, validNatives natives), [Effect.callModel]) := by
  unfold callOllamaWithTools
  rw [hchat]
  rfl

/-- With an empty tool list, a successful chat reply passes through
unchanged (with the native fallback filter applied). -/
theorem callOllama_ok_empty (env : AgentEnv) (messages : List ChatMsg)
    (m : RawChatMessage) (h : env.chat messages = Except.ok m) :
    callOllamaWithTools env messages [] =
      (Except.ok (m, validNatives m.tool_calls), [Effect.callModel]) := by
  unfold callOllamaWithTools
  have hw : withToolPrompt messages [] = messages := rfl
  rw [hw, h]
  simp only [ollamaAfterChat]
  rw [if_neg (fun hc => hc.2 rfl)]

/-- Every reached MCP invocation emits exactly one invoke effect. -/
theorem executeMcpTool_effects (env : AgentEnv) (toolName : String)
    (args : Json) (ctx : SessionContext) :
    (executeMcpTool env toolName args ctx).2 = [Effect.invokeTool toolName] := by
  unfold executeMcpTool
  cases env.mcpInvoke toolName args (authHeaders ctx) <;> rfl

/-- The execution loop produces exactly `min` (number of proposed
calls) (remaining budget) results: the cap truncates, and a
parse-failed call still occupies a slot. -/
theorem execToolsLoop_length (env : AgentEnv) (ctx : SessionContext)
    (maxCalls : Nat) (l : List ToolCallOut) :
    ∀ executed : Nat,
      (execToolsLoop env ctx maxCalls l executed).1.length =
        min l.length (maxCalls - executed) := by
  induction l with
  | nil => intro executed; simp [execToolsLoop]
  | cons tc rest ih =>
    intro executed
    unfold execToolsLoop
    by_cases hle : maxCalls ≤ executed
    · rw [if_pos hle]
      simp [Nat.sub_eq_zero_of_le hle]
    · rw [if_neg hle]
      cases hr : resolveToolArgs tc.function.arguments with
      | some args =>
        show ((ToolResult.mk _ _ _ _ _) ::
          (execToolsLoop env ctx maxCalls rest (executed + 1)).1).length = _
        simp only [List.length_cons]
        rw [ih (executed + 1)]
        omega
      | none =>
        show ((ToolResult.mk _ _ _ _ _) ::
          (execToolsLoop env ctx maxCalls rest (executed + 1)).1).length = _
        simp only [List.length_cons]
        rw [ih (executed + 1)]
        omega

/-- The number of invoke effects the loop emits never exceeds the
number of results it records. -/
theorem execToolsLoop_invoke_le (env : AgentEnv) (ctx : SessionContext)
    (maxCalls : Nat) (l : List ToolCallOut) :
    ∀ executed : Nat,
      (execToolsLoop env ctx maxCalls l executed).2.countP isInvokeEffect ≤
        (execToolsLoop env ctx maxCalls l executed).1.length := by
  induction l with
  | nil => intro executed; simp [execToolsLoop]
  | cons tc rest ih =>
    intro executed
    unfold execToolsLoop
    by_cases hle : maxCalls ≤ executed
    · rw [if_pos hle]
      simp
    · rw [if_neg hle]
      cases hr : resolveToolArgs tc.function.arguments with
      | some args =>
        show (((executeMcpTool env tc.function.name args ctx).2 ++
            (execToolsLoop env ctx maxCalls rest (executed + 1)).2).countP isInvokeEffect) ≤
          ((ToolResult.mk _ _ _ _ _) ::
            (execToolsLoop env ctx maxCalls rest (executed + 1)).1).length
        rw [List.countP_append, executeMcpTool_effects, List.length_cons]
        have h1 : ([Effect.invokeTool tc.function.name].countP isInvokeEffect) = 1 := rfl
        rw [h1]
        have h2 := ih (executed + 1)
        omega
      | none =>
        show ((execToolsLoop env ctx maxCalls rest (executed + 1)).2.countP isInvokeEffect) ≤
          ((ToolResult.mk _ _ _ _ _) ::
            (execToolsLoop env ctx maxCalls rest (executed + 1)).1).length
        rw [List.length_cons]
        exact Nat.le_succ_of_le (ih (executed + 1))

/-- Computation rule: the conversational continuation on a successful
model reply. -/
theorem convAfterModel_ok (env : AgentEnv) (st1 : AgentState) (ctx : SessionContext)
    (userMessage : String) (userId sessionId : Option String)
    (mr : RawChatMessage × List ToolCallOut) (eff : List Effect) :
    convAfterModel env st1 ctx userMessage userId sessionId (Except.ok mr, eff) =
      (Except.ok (buildResponse env.nowMs true
          (if mr.1.content = "" then "Xin chào! Tôi là trợ lý quản lý nhà trọ."
           else mr.1.content) [] [] userId sessionId (some ctx)),
       ⟨st1.conversationHistory
          ++ [mkTurn "user" userMessage sessionId none [] env.nowMs,
              mkTurn "assistant"
                (if mr.1.content = "" then "Xin chào! Tôi là trợ lý quản lý nhà trọ."
                 else mr.1.content) sessionId none [] env.nowMs],
         st1.sessions, st1.maxToolCalls⟩,
       eff) := rfl

/-- Computation rule: the conversational continuation on a thrown
model call. -/
theorem convAfterModel_err (env : AgentEnv) (st1 : AgentState) (ctx : SessionContext)
    (userMessage : String) (userId sessionId : Option String)
    (e : String) (eff : List Effect) :
    convAfterModel env st1 ctx userMessage userId sessionId (Except.error e, eff) =
      (Except.error e, st1, eff) := rfl

/-- Computation rule: the stage-3 continuation on a successful model
reply. -/
theorem mainAfterModel_ok (env : AgentEnv) (st1 : AgentState) (ctx : SessionContext)
    (isVietnamese : Bool) (userMessage : String) (userId sessionId : Option String)
    (availableTools : List McpTool) (mr : RawChatMessage × List ToolCallOut)
    (eff effAcc : List Effect) :
    mainAfterModel env st1 ctx isVietnamese userMessage userId sessionId
        availableTools (Except.ok mr, eff) effAcc =
      retryStage env st1 ctx isVietnamese userMessage userId sessionId
        availableTools mr (effAcc ++ eff) := rfl

/-- Computation rule: the stage-3 continuation on a thrown model call. -/
theorem mainAfterModel_err (env : AgentEnv) (st1 : AgentState) (ctx : SessionContext)
    (isVietnamese : Bool) (userMessage : String) (userId sessionId : Option String)
    (availableTools : List McpTool) (e : String) (eff effAcc : List Effect) :
    mainAfterModel env st1 ctx isVietnamese userMessage userId sessionId
        availableTools (Except.error e, eff) effAcc =
      (Except.error e, st1, effAcc ++ eff) := rfl

/-- Computation rule: the retry continuation on a successful model
reply. -/
theorem retryAfterModel_ok (env : AgentEnv) (st1 : AgentState) (ctx : SessionContext)
    (isVietnamese : Bool) (userMessage : String) (userId sessionId : Option String)
    (mr mr2 : RawChatMessage × List ToolCallOut) (eff effAcc : List Effect) :
    retryAfterModel env st1 ctx isVietnamese userMessage userId sessionId
        mr effAcc (Except.ok mr2, eff) =
      execStage env st1 ctx isVietnamese userMessage userId sessionId
        (if mr2.2.isEmpty then mr else mr2) (effAcc ++ eff) := rfl

/-- Computation rule: the retry continuation on a thrown model call. -/
theorem retryAfterModel_err (env : AgentEnv) (st1 : AgentState) (ctx : SessionContext)
    (isVietnamese : Bool) (userMessage : String) (userId sessionId : Option String)
    (mr : RawChatMessage × List ToolCallOut) (e : String) (eff effAcc : List Effect) :
    retryAfterModel env st1 ctx isVietnamese userMessage userId sessionId
        mr effAcc (Except.error e, eff) = (Except.error e, st1, effAcc ++ eff) := rfl

/-- Computation rule: the summary continuation on a successful model
reply. -/
theorem summaryAfterModel_ok (env : AgentEnv) (st1 : AgentState) (ctx : SessionContext)
    (userMessage : String) (userId sessionId : Option String)
    (toolResults : List ToolResult) (effAcc : List Effect)
    (mr2 : RawChatMessage × List ToolCallOut) (eff : List Effect) :
    summaryAfterModel env st1 ctx userMessage userId sessionId toolResults effAcc
        (Except.ok mr2, eff) =
      ((successExit env st1 ctx userMessage userId sessionId
          (if mr2.1.content = "" then "Đã xử lý xong." else mr2.1.content) toolResults).1,
       (successExit env st1 ctx userMessage userId sessionId
          (if mr2.1.content = "" then "Đã xử lý xong." else mr2.1.content) toolResults).2,
       effAcc ++ eff) := rfl

/-- Computation rule: the summary continuation on a thrown model call. -/
theorem summaryAfterModel_err (env : AgentEnv) (st1 : AgentState) (ctx : SessionContext)
    (userMessage : String) (userId sessionId : Option String)
    (toolResults : List ToolResult) (effAcc : List Effect)
    (e : String) (eff : List Effect) :
    summaryAfterModel env st1 ctx userMessage userId sessionId toolResults effAcc
        (Except.error e, eff) = (Except.error e, st1, effAcc ++ eff) := rfl

/-- The effect trace of `processMessage` is the body's trace (the
catch adds no effect). -/
theorem processMessage_effects (env : AgentEnv) (st : AgentState)
    (userMessage : String) (userId sessionId : Option String) :
    (processMessage env st userMessage userId sessionId).2.2 =
      (processMessageBody env st userMessage userId sessionId).2.2 := by
  unfold processMessage
  cases h : (processMessageBody env st userMessage userId sessionId).1 <;> rfl

/-- The state of `processMessage` is the body's state (the catch rolls
nothing back). -/
theorem processMessage_state (env : AgentEnv) (st : AgentState)
    (userMessage : String) (userId sessionId : Option String) :
    (processMessage env st userMessage userId sessionId).2.1 =
      (processMessageBody env st userMessage userId sessionId).2.1 := by
  unfold processMessage
  cases h : (processMessageBody env st userMessage userId sessionId).1 <;> rfl

/-- A thrown stage 5-7 leaves the history of the state it was entered
with untouched. -/
theorem execStage_error_history (env : AgentEnv) (st1 : AgentState)
    (ctx : SessionContext) (isVietnamese : Bool) (userMessage : String)
    (userId sessionId : Option String) (mr : RawChatMessage × List ToolCallOut)
    (effAcc : List Effect) (e : String)
    (h : (execStage env st1 ctx isVietnamese userMessage userId sessionId mr effAcc).1
      = Except.error e) :
    (execStage env st1 ctx isVietnamese userMessage userId sessionId mr effAcc).2.1
      = st1 := by
  unfold execStage summaryStage at h ⊢
  by_cases hie : ((execToolsLoop env ctx st1.maxToolCalls mr.2 0).1).isEmpty = true
  · rw [if_pos hie] at h
    exact Except.noConfusion h
  · rw [if_neg hie] at h ⊢
    rcases hc3 : callOllamaWithTools env
        (summaryMessages isVietnamese userMessage
          (execToolsLoop env ctx st1.maxToolCalls mr.2 0).1) [] with ⟨res3, eff3⟩
    rw [hc3] at h
    cases res3 with
    | error e3 => rw [summaryAfterModel_err]
    | ok mr3 =>
      rw [summaryAfterModel_ok] at h
      exact Except.noConfusion h

/-- A thrown error anywhere in the body leaves the conversation
history unchanged: the failing turn is never appended. -/
theorem body_error_history (env : AgentEnv) (st : AgentState)
    (userMessage : String) (userId sessionId : Option String) (e : String)
    (h : (processMessageBody env st userMessage userId sessionId).1 = Except.error e) :
    (processMessageBody env st userMessage userId sessionId).2.1.conversationHistory
      = st.conversationHistory := by
  unfold processMessageBody at h ⊢
  by_cases hconv : isConversationalMessage userMessage = true
  · rw [if_pos hconv] at h ⊢
    rcases hc : callOllamaWithTools env (convMessages userMessage) [] with ⟨res, eff⟩
    rw [hc] at h
    cases res with
    | error e2 => rw [convAfterModel_err]; rfl
    | ok mr =>
      rw [convAfterModel_ok] at h
      exact Except.noConfusion h
  · rw [if_neg hconv] at h ⊢
    unfold mainBranch at h ⊢
    rcases hc1 : callOllamaWithTools env
        (mainMessages (stAfterSession env st sessionId).conversationHistory userMessage)
        (filterRelevantTools (getAvailableTools env).1 userMessage 15) with ⟨res1, eff1⟩
    rw [hc1] at h
    cases res1 with
    | error e1 => rw [mainAfterModel_err]; rfl
    | ok mr =>
      rw [mainAfterModel_ok] at h ⊢
      unfold retryStage at h ⊢
      by_cases hretry : (mr.2.isEmpty &&
          !(filterRelevantTools (getAvailableTools env).1 userMessage 15).isEmpty) = true
      · rw [if_pos hretry] at h ⊢
        rcases hc2 : callOllamaWithTools env
            (retryMessages (filterRelevantTools (getAvailableTools env).1 userMessage 15)
              userMessage)
            (filterRelevantTools (getAvailableTools env).1 userMessage 15) with ⟨res2, eff2⟩
        rw [hc2] at h
        cases res2 with
        | error e2 => rw [retryAfterModel_err]; rfl
        | ok mr2 =>
          rw [retryAfterModel_ok] at h ⊢
          have h2 := execStage_error_history env (stAfterSession env st sessionId)
            (ctxOf env st sessionId) (isNonEnglish userMessage) userMessage userId sessionId
            (if mr2.2.isEmpty then mr else mr2)
            (((getAvailableTools env).2 ++ eff1) ++ eff2) e h
          rw [h2]
          rfl
      · rw [if_neg hretry] at h ⊢
        have h2 := execStage_error_history env (stAfterSession env st sessionId)
          (ctxOf env st sessionId) (isNonEnglish userMessage) userMessage userId sessionId
          mr ((getAvailableTools env).2 ++ eff1) e h
        rw [h2]
        rfl

/-- A thrown `/chat` request surfaces as the wrapped `LLM Error`. -/
theorem callOllama_err (env : AgentEnv) (messages : List ChatMsg)
    (availableTools : List McpTool) (e : String)
    (h : env.chat (withToolPrompt messages availableTools) = Except.error e) :
    callOllamaWithTools env messages availableTools =
      (Except.error ("LLM Error: " ++ e), [Effect.callModel]) := by
  unfold callOllamaWithTools
  rw [h]
  rfl

/-- An environment whose model call always throws `boom`. -/
def envErr : AgentEnv :=
  ⟨fun _ => Except.error "boom", Except.ok [], fun _ _ _ => Except.ok Json.null, 0⟩

/-- C3 counterexample: with a model call that throws `boom`, the
caught failure response carries the raw exception text prefixed with
`Error: ` — not the localized apology string — so the caller does see
the raw exception message. -/
theorem processMessage_error_cx :
    (processMessage envErr ⟨[], [], 5⟩ "hello" none none).1.success = false ∧
    (processMessage envErr ⟨[], [], 5⟩ "hello" none none).1.response
        = "Error: LLM Error: boom" ∧
    (processMessage envErr ⟨[], [], 5⟩ "hello" none none).1.response ≠
      "Xin lỗi, tôi gặp lỗi khi xử lý yêu cầu của bạn. Vui lòng thử lại sau." := by
  refine ⟨rfl, rfl, ?_⟩
  decide

/-- C3 (amended): every exception thrown in the body is caught at the
top level and becomes a structured failure response: `success` is
false, `response` is `Error: ` followed by the raw exception message
(not a fixed localized apology), `toolsCalled` is empty, and the
conversation history is unchanged — the failing turn is not appended. -/
theorem processMessage_error_shape (env : AgentEnv) (st : AgentState)
    (userMessage : String) (userId sessionId : Option String) (e : String)
    (h : (processMessageBody env st userMessage userId sessionId).1 = Except.error e) :
    (processMessage env st userMessage userId sessionId).1.success = false ∧
    (processMessage env st userMessage userId sessionId).1.response = "Error: " ++ e ∧
    (processMessage env st userMessage userId sessionId).1.toolsCalled = [] ∧
    (processMessage env st userMessage userId sessionId).2.1.conversationHistory
      = st.conversationHistory := by
  unfold processMessage
  rw [h]
  exact ⟨rfl, rfl, rfl, body_error_history env st userMessage userId sessionId e h⟩

/-- C3 witness: the amended failure shape at the concrete throwing
model. -/
theorem processMessage_error_shape_witness :
    (processMessageBody envErr ⟨[], [], 5⟩ "hi there" none none).1
        = Except.error "LLM Error: boom" ∧
    (processMessage envErr ⟨[], [], 5⟩ "hi there" none none).1.response
        = "Error: LLM Error: boom" ∧
    (processMessage envErr ⟨[], [], 5⟩ "hi there" none none).2.1.conversationHistory
        = [] := by
  have h := processMessage_error_shape envErr ⟨[], [], 5⟩ "hi there" none none
    "LLM Error: boom" rfl
  exact ⟨rfl, h.2.1, h.2.2.2⟩

/-- An environment whose model always replies `Hi there!` with no
native tool calls. -/
def envC9 : AgentEnv :=
  ⟨fun _ => Except.ok ⟨"Hi there!", []⟩, Except.ok [],
   fun _ _ _ => Except.ok Json.null, 0⟩

/-- C9: a conversational message performs exactly one model call (the
whole effect trace is `[callModel]` — no catalog fetch, no tool
invocation), returns an empty `toolsCalled`, and on a successful model
reply returns its text (with the greeting fallback for empty content). -/
theorem processMessage_conversational (env : AgentEnv) (st : AgentState)
    (userMessage : String) (userId sessionId : Option String)
    (hconv : isConversationalMessage userMessage = true) :
    (processMessage env st userMessage userId sessionId).2.2 = [Effect.callModel] ∧
    (processMessage env st userMessage userId sessionId).1.toolsCalled = [] ∧
    ∀ m, env.chat (convMessages userMessage) = Except.ok m →
      (processMessage env st userMessage userId sessionId).1.success = true ∧
      (processMessage env st userMessage userId sessionId).1.response =
        (if m.content = "" then "Xin chào! Tôi là trợ lý quản lý nhà trọ."
         else m.content) := by
  have hbodyIf : processMessageBody env st userMessage userId sessionId =
      convAfterModel env (stAfterSession env st sessionId) (ctxOf env st sessionId)
        userMessage userId sessionId
        (callOllamaWithTools env (convMessages userMessage) []) := by
    unfold processMessageBody
    rw [if_pos hconv]
  cases hc : env.chat (convMessages userMessage) with
  | error e =>
    have hcall := callOllama_err env (convMessages userMessage) [] e hc
    have hbody : processMessageBody env st userMessage userId sessionId =
        (Except.error ("LLM Error: " ++ e), stAfterSession env st sessionId,
          [Effect.callModel]) := by
      rw [hbodyIf, hcall, convAfterModel_err]
    refine ⟨?_, ?_, ?_⟩
    · rw [processMessage_effects, hbody]
    · unfold processMessage
      rw [hbody]
      rfl
    · intro m hm
      exact Except.noConfusion hm
  | ok m0 =>
    have hcall := callOllama_ok_empty env (convMessages userMessage) m0 hc
    have hbody : processMessageBody env st userMessage userId sessionId =
        (Except.ok (buildResponse env.nowMs true
            (if m0.content = "" then "Xin chào! Tôi là trợ lý quản lý nhà trọ."
             else m0.content) [] [] userId sessionId (some (ctxOf env st sessionId))),
         ⟨(stAfterSession env st sessionId).conversationHistory
            ++ [mkTurn "user" userMessage sessionId none [] env.nowMs,
                mkTurn "assistant"
                  (if m0.content = "" then "Xin chào! Tôi là trợ lý quản lý nhà trọ."
                   else m0.content) sessionId none [] env.nowMs],
           (stAfterSession env st sessionId).sessions,
           (stAfterSession env st sessionId).maxToolCalls⟩,
         [Effect.callModel]) := by
      rw [hbodyIf, hcall, convAfterModel_ok]
    refine ⟨?_, ?_, ?_⟩
    · rw [processMessage_effects, hbody]
    · unfold processMessage
      rw [hbody]
      rfl
    · intro m hm
      injection hm with hm0
      subst hm0
      refine ⟨?_, ?_⟩
      · unfold processMessage
        rw [hbody]
        rfl
      · unfold processMessage
        rw [hbody]
        rfl

/-- C9 witness: the conversational guarantee at the greeting `hello`
against the concrete `Hi there!` model. -/
theorem processMessage_conversational_witness :
    isConversationalMessage "hello" = true ∧
    (processMessage envC9 ⟨[], [], 5⟩ "hello" none none).2.2 = [Effect.callModel] ∧
    (processMessage envC9 ⟨[], [], 5⟩ "hello" none none).1.toolsCalled = [] ∧
    (processMessage envC9 ⟨[], [], 5⟩ "hello" none none).1.response = "Hi there!" := by
  have h := processMessage_conversational envC9 ⟨[], [], 5⟩ "hello" none none (by decide)
  refine ⟨by decide, h.1, h.2.1, ?_⟩
  have h3 := h.2.2 ⟨"Hi there!", []⟩ rfl
  exact h3.2.trans (by rfl)

/-- Under a model that always replies with empty content and fixed
native calls, stage 6/7 always reaches a success exit whose response
carries `toolResults` and their names, adding no invoke effect. -/
theorem summaryStage_shape (env : AgentEnv) (st1 : AgentState) (ctx : SessionContext)
    (iv : Bool) (m : String) (u s : Option String) (message : RawChatMessage)
    (L : List ToolResult) (effAcc : List Effect) (natives : List NativeToolCall)
    (hchat : env.chat = fun _ => Except.ok ⟨"", natives⟩) :
    ∃ (text : String) (eff2 : List Effect),
      summaryStage env st1 ctx iv m u s message L effAcc =
        ((successExit env st1 ctx m u s text L).1,
         (successExit env st1 ctx m u s text L).2, effAcc ++ eff2) ∧
      eff2.countP isInvokeEffect = 0 := by
  unfold summaryStage
  by_cases hie : L.isEmpty = true
  · rw [if_pos hie]
    refine ⟨(if message.content = "" then
        (if iv = true then "Xin lỗi, tôi không thể xử lý yêu cầu này."
         else "Sorry, I could not process this request.")
      else message.content), [], ?_, rfl⟩
    rw [List.append_nil]
  · rw [if_neg hie]
    rw [callOllama_const env (summaryMessages iv m L) [] natives hchat,
      summaryAfterModel_ok]
    exact ⟨"Đã xử lý xong.", [Effect.callModel], rfl, rfl⟩

/-- C1: when the model proposes a fixed non-empty list of native tool
calls for a non-conversational message, the orchestrator records
exactly `min proposed cap` tool results (a failing parse still counts),
reports exactly their names in `toolsCalled`, succeeds, and performs at
most `cap` tool invocations. -/
theorem processMessage_toolCap (env : AgentEnv) (st : AgentState)
    (userMessage : String) (userId sessionId : Option String)
    (natives : List NativeToolCall)
    (hconv : isConversationalMessage userMessage = false)
    (hchat : env.chat = fun _ => Except.ok ⟨"", natives⟩)
    (hnn : 0 < (validNatives natives).length) :
    (processMessage env st userMessage userId sessionId).1.success = true ∧
    (processMessage env st userMessage userId sessionId).1.toolsCalled.length =
      min (validNatives natives).length st.maxToolCalls ∧
    (processMessage env st userMessage userId sessionId).1.toolResults.length =
      min (validNatives natives).length st.maxToolCalls ∧
    (processMessage env st userMessage userId sessionId).2.2.countP isInvokeEffect
      ≤ st.maxToolCalls := by
  have hbodyIf : processMessageBody env st userMessage userId sessionId =
      mainBranch env (stAfterSession env st sessionId) (ctxOf env st sessionId)
        (isNonEnglish userMessage) userMessage userId sessionId := by
    unfold processMessageBody
    rw [if_neg (fun hcontra => Bool.noConfusion (hconv ▸ hcontra))]
  have hcall := callOllama_const env
    (mainMessages (stAfterSession env st sessionId).conversationHistory userMessage)
    (filterRelevantTools (getAvailableTools env).1 userMessage 15) natives hchat
  have hne : (validNatives natives).isEmpty = false := by
    cases hv : validNatives natives with
    | nil => rw [hv] at hnn; exact absurd hnn (by simp)
    | cons a t => rfl
  have hbody1 : processMessageBody env st userMessage userId sessionId =
      execStage env (stAfterSession env st sessionId) (ctxOf env st sessionId)
        (isNonEnglish userMessage) userMessage userId sessionId
        (⟨"", natives⟩, validNatives natives)
        ((getAvailableTools env).2 ++ [Effect.callModel]) := by
    rw [hbodyIf]
    unfold mainBranch
    rw [hcall, mainAfterModel_ok]
    unfold retryStage
    rw [if_neg (fun hcontra => by
      have hcontra2 : ((validNatives natives).isEmpty &&
          !(filterRelevantTools (getAvailableTools env).1 userMessage 15).isEmpty)
            = true := hcontra
      rw [hne] at hcontra2
      simp at hcontra2)]
  obtain ⟨text, eff2, hsum, heff2⟩ := summaryStage_shape env
    (stAfterSession env st sessionId) (ctxOf env st sessionId)
    (isNonEnglish userMessage) userMessage userId sessionId
    (⟨"", natives⟩ : RawChatMessage)
    (execToolsLoop env (ctxOf env st sessionId) st.maxToolCalls (validNatives natives) 0).1
    (((getAvailableTools env).2 ++ [Effect.callModel]) ++
      (execToolsLoop env (ctxOf env st sessionId) st.maxToolCalls (validNatives natives) 0).2)
    natives hchat
  have hbody2 : processMessageBody env st userMessage userId sessionId =
      ((successExit env (stAfterSession env st sessionId) (ctxOf env st sessionId)
          userMessage userId sessionId text
          (execToolsLoop env (ctxOf env st sessionId) st.maxToolCalls
            (validNatives natives) 0).1).1,
       (successExit env (stAfterSession env st sessionId) (ctxOf env st sessionId)
          userMessage userId sessionId text
          (execToolsLoop env (ctxOf env st sessionId) st.maxToolCalls
            (validNatives natives) 0).1).2,
       (((getAvailableTools env).2 ++ [Effect.callModel]) ++
          (execToolsLoop env (ctxOf env st sessionId) st.maxToolCalls
            (validNatives natives) 0).2) ++ eff2) := by
    rw [hbody1]
    unfold execStage
    exact hsum
  have hlen : ((execToolsLoop env (ctxOf env st sessionId) st.maxToolCalls
      (validNatives natives) 0).1).length =
        min (validNatives natives).length st.maxToolCalls := by
    have h0 := execToolsLoop_length env (ctxOf env st sessionId) st.maxToolCalls
      (validNatives natives) 0
    rw [Nat.sub_zero] at h0
    exact h0
  refine ⟨?_, ?_, ?_, ?_⟩
  · unfold processMessage
    rw [hbody2]
    rfl
  · unfold processMessage
    rw [hbody2]
    show (((execToolsLoop env (ctxOf env st sessionId) st.maxToolCalls
        (validNatives natives) 0).1).map ToolResult.name).length = _
    rw [List.length_map]
    exact hlen
  · unfold processMessage
    rw [hbody2]
    show ((execToolsLoop env (ctxOf env st sessionId) st.maxToolCalls
        (validNatives natives) 0).1).length = _
    exact hlen
  · rw [processMessage_effects, hbody2]
    show ((((getAvailableTools env).2 ++ [Effect.callModel]) ++
        (execToolsLoop env (ctxOf env st sessionId) st.maxToolCalls
          (validNatives natives) 0).2) ++ eff2).countP isInvokeEffect ≤ st.maxToolCalls
    rw [List.countP_append, List.countP_append, List.countP_append]
    have hA : ((getAvailableTools env).2).countP isInvokeEffect = 0 := rfl
    have hB : ([Effect.callModel]).countP isInvokeEffect = 0 := rfl
    have hC := execToolsLoop_invoke_le env (ctxOf env st sessionId) st.maxToolCalls
      (validNatives natives) 0
    rw [hlen] at hC
    rw [hA, hB, heff2]
    omega

/-- Eight native tool calls proposed in one reply. -/
def natives8 : List NativeToolCall :=
  [⟨none, some ⟨"t1", Json.obj []⟩⟩, ⟨some "id2", some ⟨"t2", Json.obj []⟩⟩,
   ⟨none, some ⟨"t3", Json.obj []⟩⟩, ⟨none, some ⟨"t4", Json.str "\x7b\"a\":1\x7d"⟩⟩,
   ⟨none, some ⟨"t5", Json.obj []⟩⟩, ⟨none, some ⟨"t6", Json.obj []⟩⟩,
   ⟨none, some ⟨"t7", Json.obj []⟩⟩, ⟨none, some ⟨"t8", Json.obj []⟩⟩]

/-- An environment whose model always proposes the eight calls. -/
def envC1 : AgentEnv :=
  ⟨fun _ => Except.ok ⟨"", natives8⟩, Except.ok [],
   fun _ _ _ => Except.ok Json.null, 0⟩

/-- C1 witness: eight proposed calls against a cap of five give exactly
five results — the remaining three are dropped. -/
theorem processMessage_toolCap_witness :
    isConversationalMessage "list all rooms" = false ∧
    0 < (validNatives natives8).length ∧
    (processMessage envC1 ⟨[], [], 5⟩ "list all rooms" none none).1.toolsCalled.length
      = 5 ∧
    (processMessage envC1 ⟨[], [], 5⟩ "list all rooms" none none).2.2.countP
      isInvokeEffect ≤ 5 := by
  have h := processMessage_toolCap envC1 ⟨[], [], 5⟩ "list all rooms" none none
    natives8 (by decide) rfl (by decide)
  exact ⟨by decide, by decide, h.2.1.trans (by decide), h.2.2.2⟩

/-! ## Claim C8: brace balance of serialized JSON and the object scanner -/

/-- Contribution of one character to the brace nesting depth the
scanner of `extractBalancedJsonObjects` tracks. -/
def braceDelta (c : Char) : Int :=
  if c = '{' then 1 else if c = '}' then -1 else 0

/-- Net brace nesting over a character list. -/
def bnet (l : List Char) : Int := (l.map braceDelta).sum

/-- Every prefix has nonnegative net nesting. -/
def pfxOk (l : List Char) : Prop := ∀ k : Nat, 0 ≤ bnet (l.take k)

theorem bnet_nil : bnet [] = 0 := rfl

theorem bnet_cons (c : Char) (l : List Char) :
    bnet (c :: l) = braceDelta c + bnet l := by
  simp [bnet]

theorem bnet_append (a b : List Char) : bnet (a ++ b) = bnet a + bnet b := by
  simp [bnet]

theorem bnet_take_append (a b : List Char) (k : Nat) :
    bnet ((a ++ b).take k) = bnet (a.take k) + bnet (b.take (k - a.length)) := by
  rw [List.take_append_eq_append_take, bnet_append]

theorem pfxOk_append {a b : List Char} (ha : pfxOk a) (hb : pfxOk b) :
    pfxOk (a ++ b) := by
  intro k
  rw [bnet_take_append]
  have h1 := ha k
  have h2 := hb (k - a.length)
  omega

theorem bnet_all_zero {l : List Char} (h : ∀ c ∈ l, braceDelta c = 0) :
    bnet l = 0 := by
  unfold bnet
  apply List.sum_eq_zero
  intro x hx
  rw [List.mem_map] at hx
  obtain ⟨c, hc, rfl⟩ := hx
  exact h c hc

theorem pfxOk_of_all_zero {l : List Char} (h : ∀ c ∈ l, braceDelta c = 0) :
    pfxOk l := by
  intro k
  rw [bnet_all_zero (fun c hc => h c (List.mem_of_mem_take hc))]

theorem braceDelta_eq_zero {c : Char} (h1 : c ≠ '{') (h2 : c ≠ '}') :
    braceDelta c = 0 := by
  simp [braceDelta, h1, h2]

mutual
/-- All string literals (values and member keys) of a JSON value are
free of brace characters. -/
def Json.strsBF : Json → Bool
  | .null => true
  | .bool _ => true
  | .num _ => true
  | .str s => s.data.all (fun c => decide (c ≠ '{') && decide (c ≠ '}'))
  | .arr xs => Json.strsBFList xs
  | .obj fs => Json.strsBFFields fs
def Json.strsBFList : List Json → Bool
  | [] => true
  | x :: xs => Json.strsBF x && Json.strsBFList xs
def Json.strsBFFields : List (String × Json) → Bool
  | [] => true
  | (k, v) :: fs =>
    k.data.all (fun c => decide (c ≠ '{') && decide (c ≠ '}')) &&
      Json.strsBF v && Json.strsBFFields fs
end

theorem serStrBody_delta {s : List Char}
    (h : ∀ c ∈ s, c ≠ '{' ∧ c ≠ '}') :
    ∀ c ∈ serStrBody s, braceDelta c = 0 := by
  induction s with
  | nil => intro c hc; simp [serStrBody] at hc
  | cons a t ih =>
    intro c hc
    have ha := h a (List.mem_cons_self a t)
    rw [show serStrBody (a :: t) = escChar a ++ serStrBody t from rfl,
      List.mem_append] at hc
    rcases hc with hc | hc
    · unfold escChar at hc
      by_cases hq : (a = '"' || a = '\\') = true
      · rw [if_pos hq] at hc
        simp only [List.mem_cons, List.not_mem_nil, or_false] at hc
        rcases hc with rfl | rfl
        · decide
        · exact braceDelta_eq_zero ha.1 ha.2
      · rw [if_neg hq] at hc
        simp only [List.mem_cons, List.not_mem_nil, or_false] at hc
        subst hc
        exact braceDelta_eq_zero ha.1 ha.2
    · exact ih (fun d hd => h d (List.mem_cons_of_mem a hd)) c hc

theorem serStr_delta {s : String}
    (h : ∀ c ∈ s.data, c ≠ '{' ∧ c ≠ '}') :
    ∀ c ∈ serStr s, braceDelta c = 0 := by
  intro c hc
  rw [show serStr s = '"' :: (serStrBody s.data ++ ['"']) from rfl] at hc
  simp only [List.mem_cons] at hc
  rcases hc with rfl | hc
  · decide
  · rw [List.mem_append] at hc
    rcases hc with hc | hc
    · exact serStrBody_delta h c hc
    · simp only [List.mem_cons, List.not_mem_nil, or_false] at hc
      subst hc
      decide

theorem intChars_delta (n : Int) : ∀ c ∈ intChars n, braceDelta c = 0 := by
  intro c hc
  have hdig : c.isDigit = true → braceDelta c = 0 := by
    intro hd
    exact braceDelta_eq_zero (ne_of_isDigit hd (by decide))
      (ne_of_isDigit hd (by decide))
  cases n with
  | ofNat m =>
    rw [show intChars (Int.ofNat m) = natChars m from rfl] at hc
    exact hdig ((natChars_spec m).2.2.1 c hc)
  | negSucc m =>
    rw [show intChars (Int.negSucc m) = '-' :: natChars (m + 1) from rfl] at hc
    simp only [List.mem_cons] at hc
    rcases hc with rfl | hc
    · decide
    · exact hdig ((natChars_spec (m + 1)).2.2.1 c hc)

theorem pfxOk_cons {c : Char} {l : List Char} (hc : braceDelta c = 0)
    (hl : pfxOk l) : pfxOk (c :: l) := by
  intro k
  cases k with
  | zero => simp [bnet]
  | succ k2 =>
    rw [List.take_succ_cons, bnet_cons, hc]
    have := hl k2
    omega

theorem serElems_balance : ∀ xs : List Json,
    (∀ x ∈ xs, Json.strsBF x = true → bnet (serChars x) = 0 ∧ pfxOk (serChars x)) →
    Json.strsBFList xs = true → bnet (serElems xs) = 0 ∧ pfxOk (serElems xs) := by
  intro xs
  induction xs with
  | nil => intro _ _; exact ⟨rfl, fun k => by simp [bnet, serElems]⟩
  | cons x xs ih =>
    intro hmem hbf
    have hx : Json.strsBF x = true ∧ Json.strsBFList xs = true := by
      rw [show Json.strsBFList (x :: xs) =
        (Json.strsBF x && Json.strsBFList xs) from rfl, Bool.and_eq_true] at hbf
      exact hbf
    obtain ⟨t, ht, htnil, htcons⟩ := serElems_cons_decomp x xs
    have hxb := hmem x (List.mem_cons_self x xs) hx.1
    by_cases hxe : xs = []
    · rw [ht, htnil hxe, List.append_nil]
      exact hxb
    · rw [ht, htcons hxe]
      have hrest := ih (fun y hy => hmem y (List.mem_cons_of_mem x hy)) hx.2
      constructor
      · rw [bnet_append, hxb.1, bnet_cons, hrest.1]
        decide
      · exact pfxOk_append hxb.2 (pfxOk_cons (by decide) hrest.2)

theorem serMembers_balance : ∀ fs : List (String × Json),
    (∀ p ∈ fs, Json.strsBF p.2 = true →
      bnet (serChars p.2) = 0 ∧ pfxOk (serChars p.2)) →
    Json.strsBFFields fs = true →
    bnet (serMembers fs) = 0 ∧ pfxOk (serMembers fs) := by
  intro fs
  induction fs with
  | nil => intro _ _; exact ⟨rfl, fun k => by simp [bnet, serMembers]⟩
  | cons p fs ih =>
    obtain ⟨k, v⟩ := p
    intro hmem hbf
    have hsplit : (k.data.all (fun c => decide (c ≠ '{') && decide (c ≠ '}'))) = true ∧
        Json.strsBF v = true ∧ Json.strsBFFields fs = true := by
      rw [show Json.strsBFFields ((k, v) :: fs) =
        (k.data.all (fun c => decide (c ≠ '{') && decide (c ≠ '}')) &&
          Json.strsBF v && Json.strsBFFields fs) from rfl] at hbf
      simp only [Bool.and_eq_true] at hbf
      exact ⟨hbf.1.1, hbf.1.2, hbf.2⟩
    have hkey : ∀ c ∈ k.data, c ≠ '{' ∧ c ≠ '}' := by
      have hk1 := hsplit.1
      rw [List.all_eq_true] at hk1
      intro c hc
      have h2 := hk1 c hc
      simp at h2
      exact h2
    have hkd := serStr_delta hkey
    have hv := hmem (k, v) (List.mem_cons_self _ _) hsplit.2.1
    obtain ⟨t, ht, htnil, htcons⟩ := serMembers_cons_decomp k v fs
    have htprop : bnet t = 0 ∧ pfxOk t := by
      by_cases hfe : fs = []
      · rw [htnil hfe]
        exact ⟨rfl, fun k2 => by simp [bnet]⟩
      · rw [htcons hfe]
        have hrest := ih (fun q hq => hmem q (List.mem_cons_of_mem _ hq)) hsplit.2.2
        refine ⟨?_, pfxOk_cons (by decide) hrest.2⟩
        rw [bnet_cons, hrest.1]
        decide
    rw [ht]
    constructor
    · rw [bnet_append, bnet_append, bnet_all_zero hkd, bnet_cons, hv.1, htprop.1]
      decide
    · exact pfxOk_append
        (pfxOk_append (pfxOk_of_all_zero hkd) (pfxOk_cons (by decide) hv.2))
        htprop.2

theorem serChars_balance : ∀ j : Json, Json.strsBF j = true →
    bnet (serChars j) = 0 ∧ pfxOk (serChars j) := by
  refine Json.recMem ?_ ?_ ?_ ?_ ?_ ?_
  · intro _
    exact ⟨bnet_all_zero (by decide), pfxOk_of_all_zero (by decide)⟩
  · intro b _
    cases b
    · exact ⟨bnet_all_zero (by decide), pfxOk_of_all_zero (by decide)⟩
    · exact ⟨bnet_all_zero (by decide), pfxOk_of_all_zero (by decide)⟩
  · intro n _
    exact ⟨bnet_all_zero (intChars_delta n), pfxOk_of_all_zero (intChars_delta n)⟩
  · intro s hs
    have h : ∀ c ∈ s.data, c ≠ '{' ∧ c ≠ '}' := by
      rw [show Json.strsBF (.str s) =
        s.data.all (fun c => decide (c ≠ '{') && decide (c ≠ '}')) from rfl,
        List.all_eq_true] at hs
      intro c hc
      have h2 := hs c hc
      simp at h2
      exact h2
    exact ⟨bnet_all_zero (serStr_delta h), pfxOk_of_all_zero (serStr_delta h)⟩
  · intro xs hmem hbf
    have he := serElems_balance xs hmem hbf
    constructor
    · rw [show serChars (Json.arr xs) = '[' :: (serElems xs ++ [']']) from rfl,
        bnet_cons, bnet_append, he.1]
      decide
    · rw [show serChars (Json.arr xs) = '[' :: (serElems xs ++ [']']) from rfl]
      exact pfxOk_cons (by decide)
        (pfxOk_append he.2 (pfxOk_of_all_zero (by decide)))
  · intro fs hmem hbf
    have hm := serMembers_balance fs hmem hbf
    constructor
    · rw [show serChars (Json.obj fs) = '{' :: (serMembers fs ++ ['}']) from rfl,
        bnet_cons, bnet_append, hm.1]
      decide
    · intro k
      cases k with
      | zero => simp [bnet]
      | succ k2 =>
        rw [show serChars (Json.obj fs) = '{' :: (serMembers fs ++ ['}']) from rfl,
          List.take_succ_cons, bnet_cons, bnet_take_append]
        have h1 := hm.2 k2
        have h2 : (-1 : Int) ≤ bnet ((['}'] : List Char).take (k2 - (serMembers fs).length)) := by
          cases hk3 : (k2 - (serMembers fs).length) with
          | zero => rw [List.take_zero]; decide
          | succ k4 =>
            rw [show (['}'] : List Char).take (k4 + 1) = ['}'] from by simp]
            decide
        have h3 : braceDelta '{' = 1 := by decide
        omega

theorem ebjGo_cons (text : List Char) (c : Char) (rest : List Char) (i : Nat)
    (depth : Int) (start : Option Nat) :
    ebjGo text (c :: rest) i depth start =
      (if c = '{' then
        ebjGo text rest (i + 1) (depth + 1) (if depth = 0 then some i else start)
      else if c = '}' then
        if depth - 1 = 0 then
          match start with
          | some s =>
            ((text.drop s).take (i + 1 - s)) :: ebjGo text rest (i + 1) (depth - 1) none
          | none => ebjGo text rest (i + 1) (depth - 1) none
        else ebjGo text rest (i + 1) (depth - 1) start
      else ebjGo text rest (i + 1) depth start) := rfl

theorem ebjGo_skip (text : List Char) : ∀ (seg rest : List Char) (i : Nat)
    (depth : Int) (start : Option Nat), (∀ c ∈ seg, braceDelta c = 0) →
    ebjGo text (seg ++ rest) i depth start =
      ebjGo text rest (i + seg.length) depth start := by
  intro seg
  induction seg with
  | nil => intro rest i depth start _; simp
  | cons c seg ih =>
    intro rest i depth start h
    have hc := h c (List.mem_cons_self c seg)
    have hc1 : c ≠ '{' := by intro hh; subst hh; simp [braceDelta] at hc
    have hc2 : c ≠ '}' := by intro hh; subst hh; simp [braceDelta] at hc
    rw [List.cons_append, ebjGo_cons, if_neg hc1, if_neg hc2]
    have hidx : i + (c :: seg).length = (i + 1) + seg.length := by
      simp only [List.length_cons]
      omega
    rw [hidx]
    exact ih rest (i + 1) depth start (fun d hd => h d (List.mem_cons_of_mem c hd))

theorem ebjGo_deep (text : List Char) : ∀ (seg rest : List Char) (i : Nat)
    (d : Int) (start : Option Nat), (∀ k : Nat, 1 ≤ d + bnet (seg.take k)) →
    ebjGo text (seg ++ rest) i d start =
      ebjGo text rest (i + seg.length) (d + bnet seg) start := by
  intro seg
  induction seg with
  | nil =>
    intro rest i d start _
    simp [bnet]
  | cons c seg ih =>
    intro rest i d start hk
    have hd1 : 1 ≤ d := by have := hk 0; simpa [bnet] using this
    have hdc : 1 ≤ d + braceDelta c := by
      have := hk 1
      simpa [bnet, List.take] using this
    have hidx : i + (c :: seg).length = (i + 1) + seg.length := by
      simp only [List.length_cons]
      omega
    rw [List.cons_append, ebjGo_cons]
    by_cases hc1 : c = '{'
    · subst hc1
      rw [if_pos rfl, if_neg (by omega : ¬ d = 0)]
      have hbd : braceDelta '{' = 1 := by decide
      have ihh := ih rest (i + 1) (d + 1) start (fun k => by
        have h2 := hk (k + 1)
        rw [List.take_succ_cons, bnet_cons, hbd] at h2
        omega)
      rw [ihh, hidx]
      have hdep : d + bnet ('{' :: seg) = (d + 1) + bnet seg := by
        rw [bnet_cons, hbd]
        omega
      rw [hdep]
    · rw [if_neg hc1]
      by_cases hc2 : c = '}'
      · subst hc2
        have hbd : braceDelta '}' = -1 := by decide
        rw [hbd] at hdc
        rw [if_pos rfl, if_neg (by omega : ¬ d - 1 = 0)]
        have ihh := ih rest (i + 1) (d - 1) start (fun k => by
          have h2 := hk (k + 1)
          rw [List.take_succ_cons, bnet_cons, hbd] at h2
          omega)
        rw [ihh, hidx]
        have hdep : d + bnet ('}' :: seg) = (d - 1) + bnet seg := by
          rw [bnet_cons, hbd]
          omega
        rw [hdep]
      · rw [if_neg hc2]
        have hc0 : braceDelta c = 0 := braceDelta_eq_zero hc1 hc2
        have ihh := ih rest (i + 1) d start (fun k => by
          have h2 := hk (k + 1)
          rw [List.take_succ_cons, bnet_cons, hc0] at h2
          omega)
        rw [ihh, hidx]
        have hdep : d + bnet (c :: seg) = d + bnet seg := by
          rw [bnet_cons, hc0]
          omega
        rw [hdep]

theorem ebjGo_object (text M rest : List Char) (i : Nat) (start0 : Option Nat)
    (hM0 : bnet M = 0) (hMp : pfxOk M) :
    ebjGo text (('{' :: (M ++ ['}'])) ++ rest) i 0 start0 =
      ((text.drop i).take (M.length + 2)) ::
        ebjGo text rest (i + (M.length + 2)) 0 none := by
  rw [List.cons_append, ebjGo_cons, if_pos rfl, if_pos rfl]
  rw [show ((0 : Int) + 1) = 1 from by decide]
  rw [List.append_assoc, show ((['}'] : List Char) ++ rest) = '}' :: rest from rfl]
  rw [ebjGo_deep text M ('}' :: rest) (i + 1) 1 (some i) (fun k => by
    have := hMp k
    omega), hM0]
  rw [show ((1 : Int) + 0) = 1 from by decide]
  rw [ebjGo_cons, if_neg (by decide : ¬ ('}' = '{')), if_pos rfl,
    if_pos (show (1 : Int) - 1 = 0 from by decide)]
  show ((text.drop i).take (i + 1 + M.length + 1 - i)) ::
    ebjGo text rest (i + 1 + M.length + 1) ((1 : Int) - 1) none = _
  have hidx1 : i + 1 + M.length + 1 - i = M.length + 2 := by omega
  have hidx2 : i + 1 + M.length + 1 = i + (M.length + 2) := by omega
  have hdep : ((1 : Int) - 1) = 0 := by decide
  rw [hidx1, hidx2, hdep]

theorem extractBalancedJsonObjects_decomp (preD M postD : List Char)
    (hpre : ∀ c ∈ preD, braceDelta c = 0) (hpost : ∀ c ∈ postD, braceDelta c = 0)
    (hM0 : bnet M = 0) (hMp : pfxOk M) :
    extractBalancedJsonObjects (preD ++ (('{' :: (M ++ ['}'])) ++ postD)) =
      [('{' :: (M ++ ['}']))] := by
  unfold extractBalancedJsonObjects
  rw [ebjGo_skip (preD ++ (('{' :: (M ++ ['}'])) ++ postD)) preD
    (('{' :: (M ++ ['}'])) ++ postD) 0 0 none hpre]
  rw [ebjGo_object (preD ++ (('{' :: (M ++ ['}'])) ++ postD)) M postD
    (0 + preD.length) none hM0 hMp]
  have htrail : ebjGo (preD ++ (('{' :: (M ++ ['}'])) ++ postD)) postD
      (0 + preD.length + (M.length + 2)) 0 none = [] := by
    have h2 := ebjGo_skip (preD ++ (('{' :: (M ++ ['}'])) ++ postD)) postD []
      (0 + preD.length + (M.length + 2)) 0 none hpost
    rw [List.append_nil] at h2
    exact h2.trans rfl
  rw [htrail]
  have hsl : (((preD ++ (('{' :: (M ++ ['}'])) ++ postD)).drop
      (0 + preD.length)).take (M.length + 2)) = '{' :: (M ++ ['}']) := by
    rw [Nat.zero_add, List.drop_left]
    exact List.take_left' (by simp)
  rw [hsl]

theorem dropWhile_append_head (p : Char → Bool) (a b : List Char)
    (hb : ∀ c, b.head? = some c → p c = false) :
    (a ++ b).dropWhile p = a.dropWhile p ++ b := by
  induction a with
  | nil =>
    show b.dropWhile p = ([] : List Char).dropWhile p ++ b
    cases b with
    | nil => rfl
    | cons c t =>
      rw [List.dropWhile_cons, hb c rfl]
      simp
  | cons c a ih =>
    rw [List.cons_append, List.dropWhile_cons, List.dropWhile_cons]
    by_cases hc : p c = true
    · rw [hc]
      simp only [if_true]
      exact ih
    · have hc2 : p c = false := by
        cases h2 : p c
        · rfl
        · exact absurd h2 hc
      rw [hc2]
      simp

theorem head?_dropWhile (p : Char → Bool) (l : List Char) :
    ∀ c, (l.dropWhile p).head? = some c → p c = false := by
  induction l with
  | nil => intro c hc; simp at hc
  | cons a t ih =>
    intro c hc
    rw [List.dropWhile_cons] at hc
    by_cases ha : p a = true
    · rw [ha] at hc
      simp only [if_true] at hc
      exact ih c hc
    · have ha2 : p a = false := by
        cases h2 : p a
        · rfl
        · exact absurd h2 ha
      rw [ha2] at hc
      simp only [Bool.false_eq_true, if_false, List.head?_cons,
        Option.some.injEq] at hc
      subst hc
      exact ha2

theorem mem_dropWhile {p : Char → Bool} {l : List Char} {c : Char}
    (h : c ∈ l.dropWhile p) : c ∈ l := by
  induction l with
  | nil => simp [List.dropWhile] at h
  | cons a t ih =>
    rw [List.dropWhile_cons] at h
    by_cases ha : p a = true
    · rw [ha] at h
      simp only [if_true] at h
      exact List.mem_cons_of_mem a (ih h)
    · have ha2 : p a = false := by
        cases h2 : p a
        · rfl
        · exact absurd h2 ha
      rw [ha2] at h
      simp only [Bool.false_eq_true, if_false] at h
      exact h

theorem head?_append_left {l1 l2 : List Char} {c : Char}
    (h : (l1 ++ l2).head? = some c) (hne : l1 ≠ []) : l1.head? = some c := by
  cases l1 with
  | nil => exact absurd rfl hne
  | cons a t =>
    rw [List.cons_append, List.head?_cons] at h
    rw [List.head?_cons]
    exact h

theorem jsTrim_around (pre S post : List Char) (hSne : S ≠ [])
    (hh : ∀ c, S.head? = some c → isJsWs c = false)
    (hl : ∀ c, S.getLast? = some c → isJsWs c = false) :
    jsTrim (pre ++ (S ++ post)) =
      (pre.dropWhile isJsWs) ++ (S ++ (post.reverse.dropWhile isJsWs).reverse) := by
  unfold jsTrim
  rw [dropWhile_append_head isJsWs pre (S ++ post) (fun c hc =>
    hh c (head?_append_left hc hSne))]
  rw [List.reverse_append, List.reverse_append, List.append_assoc]
  rw [dropWhile_append_head isJsWs post.reverse (S.reverse ++ (pre.dropWhile isJsWs).reverse)
    (fun c hc => by
      have hrev : S.reverse ≠ [] := by
        intro h2
        exact hSne (by simpa using congrArg List.reverse h2)
      have h3 := head?_append_left hc hrev
      rw [List.head?_reverse] at h3
      exact hl c h3)]
  simp [List.reverse_append, List.reverse_reverse, List.append_assoc]

theorem cleanContent_decomp (pre M post : List Char)
    (hpreB : ∀ c ∈ pre, c ≠ backtick) (hpostB : ∀ c ∈ post, c ≠ backtick) :
    cleanContent (pre ++ (('{' :: (M ++ ['}'])) ++ post)) =
      (pre.dropWhile isJsWs) ++ (('{' :: (M ++ ['}'])) ++
        ((post.reverse.dropWhile isJsWs).reverse)) := by
  have hSne : ('{' :: (M ++ ['}']) : List Char) ≠ [] := by simp
  have hShead : ∀ c, (('{' :: (M ++ ['}'])) : List Char).head? = some c →
      isJsWs c = false := by
    intro c hc
    rw [List.head?_cons] at hc
    injection hc with hc
    subst hc
    decide
  have hSlast : (('{' :: (M ++ ['}'])) : List Char).getLast? = some '}' := by
    rw [← List.cons_append]
    exact List.getLast?_concat _
  have hSlastP : ∀ c, (('{' :: (M ++ ['}'])) : List Char).getLast? = some c →
      isJsWs c = false := by
    intro c hc
    rw [hSlast] at hc
    injection hc with hc
    subst hc
    decide
  have hheadT : ∀ c, ((pre.dropWhile isJsWs) ++ (('{' :: (M ++ ['}'])) ++
      ((post.reverse.dropWhile isJsWs).reverse))).head? = some c →
      isJsWs c = false ∧ c ≠ backtick := by
    intro c hc
    by_cases hpd : pre.dropWhile isJsWs = []
    · rw [hpd, List.nil_append] at hc
      have hc2 : some '{' = some c := hc
      injection hc2 with hc2
      subst hc2
      exact ⟨by decide, by decide⟩
    · obtain ⟨a, t, hat⟩ := List.exists_cons_of_ne_nil hpd
      rw [hat] at hc
      have hc2 : some a = some c := hc
      injection hc2 with hc2
      subst hc2
      constructor
      · exact head?_dropWhile isJsWs pre a (by rw [hat]; rfl)
      · exact hpreB a (mem_dropWhile (p := isJsWs) (l := pre)
          (by rw [hat]; exact List.mem_cons_self a t))
  have hlastT : ∀ c, ((pre.dropWhile isJsWs) ++ (('{' :: (M ++ ['}'])) ++
      ((post.reverse.dropWhile isJsWs).reverse))).getLast? = some c →
      isJsWs c = false ∧ c ≠ backtick := by
    intro c hc
    rw [List.getLast?_append_of_ne_nil _ (by simp : (('{' :: (M ++ ['}'])) ++
      ((post.reverse.dropWhile isJsWs).reverse)) ≠ [])] at hc
    by_cases hpd : (post.reverse.dropWhile isJsWs).reverse = []
    · rw [hpd, List.append_nil, hSlast] at hc
      injection hc with hc
      subst hc
      exact ⟨by decide, by decide⟩
    · rw [List.getLast?_append_of_ne_nil _ hpd] at hc
      have hhead : (post.reverse.dropWhile isJsWs).head? = some c := by
        rw [← List.head?_reverse, List.reverse_reverse] at hc
        exact hc
      constructor
      · exact head?_dropWhile isJsWs post.reverse c hhead
      · apply hpostB
        have hmem : c ∈ post.reverse.dropWhile isJsWs := by
          cases hdw : post.reverse.dropWhile isJsWs with
          | nil => rw [hdw] at hhead; simp at hhead
          | cons x xs =>
            rw [hdw] at hhead
            rw [List.head?_cons] at hhead
            injection hhead with hh
            subst hh
            exact List.mem_cons_self x xs
        have h2 := mem_dropWhile hmem
        rw [List.mem_reverse] at h2
        exact h2
  have hTne : (pre.dropWhile isJsWs) ++ (('{' :: (M ++ ['}'])) ++
      ((post.reverse.dropWhile isJsWs).reverse)) ≠ [] := by simp
  unfold cleanContent
  rw [jsTrim_around pre _ post hSne hShead hSlastP]
  cases hH : ((pre.dropWhile isJsWs) ++ (('{' :: (M ++ ['}'])) ++
      ((post.reverse.dropWhile isJsWs).reverse))).head? with
  | none => exact absurd (List.head?_eq_none_iff.mp hH) hTne
  | some c =>
    cases hL : ((pre.dropWhile isJsWs) ++ (('{' :: (M ++ ['}'])) ++
        ((post.reverse.dropWhile isJsWs).reverse))).getLast? with
    | none =>
      have h2 : ((pre.dropWhile isJsWs) ++ (('{' :: (M ++ ['}'])) ++
          ((post.reverse.dropWhile isJsWs).reverse))).reverse = [] :=
        List.head?_eq_none_iff.mp (by rw [List.head?_reverse]; exact hL)
      exact absurd (by simpa using congrArg List.reverse h2) hTne
    | some d =>
      obtain ⟨hcw, hcb⟩ := hheadT c hH
      obtain ⟨hdw, hdb⟩ := hlastT d hL
      rw [stripFenceFront_eq_self hH hcb, stripFenceBack_eq_self hL hdw hdb,
        jsTrim_eq_self
          (fun e he => by rw [hH] at he; injection he with he; subst he; exact hcw)
          (fun e he => by rw [hL] at he; injection he with he; subst he; exact hdw)]

/-! ### Backslash-free parsing: every parsed string is a verbatim
substring of the input -/

/-- The text contains no backslash (so string unescaping is the
identity on what the parser consumes). -/
def noBS (l : List Char) : Prop := ∀ c ∈ l, c ≠ '\\'

/-- `y` is a suffix of `l`. -/
def sfx (y l : List Char) : Prop := ∃ a, l = a ++ y

/-- `x` occurs contiguously inside `l`. -/
def isSub (x l : List Char) : Prop := ∃ a b, l = a ++ (x ++ b)

theorem sfx_refl (l : List Char) : sfx l l := ⟨[], rfl⟩

theorem sfx_trans {x y z : List Char} (h1 : sfx x y) (h2 : sfx y z) :
    sfx x z := by
  obtain ⟨a, rfl⟩ := h1
  obtain ⟨b, rfl⟩ := h2
  exact ⟨b ++ a, by simp⟩

theorem sfx_skipWs (l : List Char) : sfx (skipWs l) l :=
  ⟨l.takeWhile isJsonWs, (List.takeWhile_append_dropWhile isJsonWs l).symm⟩

theorem sfx_tail {c : Char} {r l : List Char} (h : sfx (c :: r) l) :
    sfx r l := by
  obtain ⟨a, rfl⟩ := h
  exact ⟨a ++ [c], by simp⟩

theorem noBS_sfx {y l : List Char} (h : noBS l) (hs : sfx y l) : noBS y := by
  obtain ⟨a, rfl⟩ := hs
  intro c hc
  exact h c (List.mem_append_right a hc)

theorem isSub_of_sfx {x y l : List Char} (h : isSub x y) (hs : sfx y l) :
    isSub x l := by
  obtain ⟨a1, b1, rfl⟩ := h
  obtain ⟨a, rfl⟩ := hs
  exact ⟨a ++ a1, b1, by simp⟩

mutual
/-- All string values occurring anywhere in a JSON value. -/
def Json.strVals : Json → List String
  | .str s => [s]
  | .arr xs => Json.strValsList xs
  | .obj fs => Json.strValsFields fs
  | _ => []
def Json.strValsList : List Json → List String
  | [] => []
  | x :: xs => Json.strVals x ++ Json.strValsList xs
def Json.strValsFields : List (String × Json) → List String
  | [] => []
  | (_, v) :: fs => Json.strVals v ++ Json.strValsFields fs
end

theorem parseStrBody_noBS : ∀ {l : List Char}, noBS l →
    ∀ {b r : List Char}, parseStrBody l = some (b, r) → l = b ++ ('"' :: r) := by
  intro l
  induction l with
  | nil => intro _ b r h; exact absurd h (by simp [parseStrBody])
  | cons c t ih =>
    intro hBS b r h
    have hbs : c ≠ '\\' := hBS c (List.mem_cons_self c t)
    rw [parseStrBody.eq_def] at h
    split at h
    · rename_i heq; exact absurd heq (by simp)
    · rename_i rest heq
      injection heq with h1 h2
      subst h1
      subst h2
      injection h with h
      rw [Prod.mk.injEq] at h
      obtain ⟨hb, hr⟩ := h
      subst hb
      subst hr
      rfl
    · rename_i c2 rest heq
      injection heq with h1 _
      exact absurd h1 hbs
    · rename_i heq
      injection heq with h1 _
      exact absurd h1 hbs
    · rename_i c2 rest heq
      injection heq with h1 h2
      subst h1
      subst h2
      rw [Option.map_eq_some'] at h
      obtain ⟨p, hp, hpe⟩ := h
      rw [Prod.mk.injEq] at hpe
      obtain ⟨hb, hr⟩ := hpe
      subst hb
      subst hr
      have ht := ih (fun d hd => hBS d (List.mem_cons_of_mem c hd)) hp
      rw [List.cons_append, ← ht]

theorem parseNatTok_sfx {l : List Char} {n : Nat} {r : List Char}
    (h : parseNatTok l = some (n, r)) : sfx r l := by
  unfold parseNatTok at h
  by_cases h1 : (l.takeWhile Char.isDigit).isEmpty = true
  · rw [if_pos h1] at h
    exact Option.noConfusion h
  · rw [if_neg h1] at h
    by_cases h2 : (1 < (l.takeWhile Char.isDigit).length &&
        (l.takeWhile Char.isDigit).head? = some '0') = true
    · rw [if_pos h2] at h
      exact Option.noConfusion h
    · rw [if_neg h2] at h
      injection h with h
      rw [Prod.mk.injEq] at h
      obtain ⟨_, hr⟩ := h
      subst hr
      exact ⟨l.take (l.takeWhile Char.isDigit).length,
        (List.take_append_drop _ l).symm⟩

theorem parseIntTok_sfx : ∀ {l : List Char} {n : Int} {r : List Char},
    parseIntTok l = some (n, r) → sfx r l := by
  intro l n r h
  rw [parseIntTok.eq_def] at h
  split at h
  · rename_i rest
    rw [Option.map_eq_some'] at h
    obtain ⟨p, hp, hpe⟩ := h
    rw [Prod.mk.injEq] at hpe
    obtain ⟨_, hr⟩ := hpe
    subst hr
    exact sfx_trans (parseNatTok_sfx hp) ⟨['-'], rfl⟩
  · rw [Option.map_eq_some'] at h
    obtain ⟨p, hp, hpe⟩ := h
    rw [Prod.mk.injEq] at hpe
    obtain ⟨_, hr⟩ := hpe
    subst hr
    exact parseNatTok_sfx hp

theorem parse_noBS_mut : ∀ f : Nat,
    (∀ (l : List Char) (v : Json) (rest : List Char),
      parseVal f l = some (v, rest) → noBS l →
      sfx rest l ∧ ∀ s ∈ Json.strVals v, isSub s.data l) ∧
    (∀ (l : List Char) (fs : List (String × Json)) (rest : List Char),
      parseMembers f l = some (fs, rest) → noBS l →
      sfx rest l ∧ ∀ s ∈ Json.strValsFields fs, isSub s.data l) ∧
    (∀ (l : List Char) (xs : List Json) (rest : List Char),
      parseElems f l = some (xs, rest) → noBS l →
      sfx rest l ∧ ∀ s ∈ Json.strValsList xs, isSub s.data l) := by
  intro f
  induction f with
  | zero =>
    refine ⟨?_, ?_, ?_⟩
    · intro l v rest h _; exact absurd h (by simp [parseVal])
    · intro l fs rest h _; exact absurd h (by simp [parseMembers])
    · intro l xs rest h _; exact absurd h (by simp [parseElems])
  | succ f ih =>
    obtain ⟨ihV, ihM, ihE⟩ := ih
    refine ⟨?_, ?_, ?_⟩
    · intro l v rest h hBS
      rw [parseVal] at h
      split at h
      · rename_i r heq
        injection h with h
        rw [Prod.mk.injEq] at h
        obtain ⟨hv, hr⟩ := h
        subst hv
        subst hr
        refine ⟨sfx_trans ⟨['n','u','l','l'], by rw [heq]; rfl⟩ (sfx_skipWs l), ?_⟩
        intro s hs
        simp [Json.strVals] at hs
      · rename_i r heq
        injection h with h
        rw [Prod.mk.injEq] at h
        obtain ⟨hv, hr⟩ := h
        subst hv
        subst hr
        refine ⟨sfx_trans ⟨['t','r','u','e'], by rw [heq]; rfl⟩ (sfx_skipWs l), ?_⟩
        intro s hs
        simp [Json.strVals] at hs
      · rename_i r heq
        injection h with h
        rw [Prod.mk.injEq] at h
        obtain ⟨hv, hr⟩ := h
        subst hv
        subst hr
        refine ⟨sfx_trans ⟨['f','a','l','s','e'], by rw [heq]; rfl⟩ (sfx_skipWs l), ?_⟩
        intro s hs
        simp [Json.strVals] at hs
      · rename_i r heq
        have hsr : sfx ('"' :: r) l := heq ▸ sfx_skipWs l
        have hBSr : noBS r := noBS_sfx hBS (sfx_tail hsr)
        rw [Option.map_eq_some'] at h
        obtain ⟨p, hp, hpe⟩ := h
        rw [Prod.mk.injEq] at hpe
        obtain ⟨hv, hr⟩ := hpe
        subst hv
        subst hr
        have hsb := parseStrBody_noBS hBSr hp
        have hsrA := hsr
        obtain ⟨A, hA⟩ := hsrA
        refine ⟨?_, ?_⟩
        · refine sfx_trans ⟨p.1 ++ ['"'], ?_⟩ (sfx_tail hsr)
          rw [hsb]
          simp
        · intro s hs
          simp [Json.strVals] at hs
          subst hs
          exact ⟨A ++ ['"'], '"' :: p.2, by rw [hA, hsb]; simp⟩
      · rename_i r heq
        have hsr : sfx ('{' :: r) l := heq ▸ sfx_skipWs l
        have hBSr : noBS r := noBS_sfx hBS (sfx_tail hsr)
        split at h
        · rename_i r2 heq2
          injection h with h
          rw [Prod.mk.injEq] at h
          obtain ⟨hv, hr⟩ := h
          subst hv
          subst hr
          refine ⟨sfx_trans (sfx_tail (heq2 ▸ sfx_skipWs r)) (sfx_tail hsr), ?_⟩
          intro s hs
          simp [Json.strVals, Json.strValsFields] at hs
        · rw [Option.map_eq_some'] at h
          obtain ⟨p, hp, hpe⟩ := h
          rw [Prod.mk.injEq] at hpe
          obtain ⟨hv, hr⟩ := hpe
          subst hv
          subst hr
          have hch : sfx (skipWs r) l := sfx_trans (sfx_skipWs r) (sfx_tail hsr)
          obtain ⟨hsfx, hstr⟩ := ihM (skipWs r) p.1 p.2 hp (noBS_sfx hBS hch)
          refine ⟨sfx_trans hsfx hch, ?_⟩
          intro s hs
          simp [Json.strVals] at hs
          exact isSub_of_sfx (hstr s hs) hch
      · rename_i r heq
        have hsr : sfx ('[' :: r) l := heq ▸ sfx_skipWs l
        have hBSr : noBS r := noBS_sfx hBS (sfx_tail hsr)
        split at h
        · rename_i r2 heq2
          injection h with h
          rw [Prod.mk.injEq] at h
          obtain ⟨hv, hr⟩ := h
          subst hv
          subst hr
          refine ⟨sfx_trans (sfx_tail (heq2 ▸ sfx_skipWs r)) (sfx_tail hsr), ?_⟩
          intro s hs
          simp [Json.strVals, Json.strValsList] at hs
        · rw [Option.map_eq_some'] at h
          obtain ⟨p, hp, hpe⟩ := h
          rw [Prod.mk.injEq] at hpe
          obtain ⟨hv, hr⟩ := hpe
          subst hv
          subst hr
          have hch : sfx (skipWs r) l := sfx_trans (sfx_skipWs r) (sfx_tail hsr)
          obtain ⟨hsfx, hstr⟩ := ihE (skipWs r) p.1 p.2 hp (noBS_sfx hBS hch)
          refine ⟨sfx_trans hsfx hch, ?_⟩
          intro s hs
          simp [Json.strVals] at hs
          exact isSub_of_sfx (hstr s hs) hch
      · rw [Option.map_eq_some'] at h
        obtain ⟨p, hp, hpe⟩ := h
        rw [Prod.mk.injEq] at hpe
        obtain ⟨hv, hr⟩ := hpe
        subst hv
        subst hr
        refine ⟨sfx_trans (parseIntTok_sfx hp) (sfx_skipWs l), ?_⟩
        intro s hs
        simp [Json.strVals] at hs
    · intro l fs rest h hBS
      rw [parseMembers] at h
      split at h
      · rename_i r heq
        have hsr : sfx ('"' :: r) l := heq ▸ sfx_skipWs l
        have hBSr : noBS r := noBS_sfx hBS (sfx_tail hsr)
        split at h
        · exact absurd h (by simp)
        · rename_i k r2 heq2
          have hsb := parseStrBody_noBS hBSr heq2
          have hsr2 : sfx r2 l := by
            refine sfx_trans (sfx_trans ⟨k ++ ['"'], ?_⟩ (sfx_tail hsr)) (sfx_refl l)
            rw [hsb]
            simp
          split at h
          · rename_i r3 heq3
            have hsr3 : sfx r3 l :=
              sfx_trans (sfx_tail (heq3 ▸ sfx_skipWs r2)) hsr2
            split at h
            · exact absurd h (by simp)
            · rename_i v r4 heq4
              obtain ⟨hsfx4, hstrV⟩ := ihV r3 v r4 heq4 (noBS_sfx hBS hsr3)
              have hsr4 : sfx r4 l := sfx_trans hsfx4 hsr3
              split at h
              · rename_i r5 heq5
                have hsr5 : sfx r5 l :=
                  sfx_trans (sfx_tail (heq5 ▸ sfx_skipWs r4)) hsr4
                rw [Option.map_eq_some'] at h
                obtain ⟨p, hp, hpe⟩ := h
                rw [Prod.mk.injEq] at hpe
                obtain ⟨hv, hr⟩ := hpe
                subst hv
                subst hr
                obtain ⟨hsfx, hstrM⟩ := ihM r5 p.1 p.2 hp (noBS_sfx hBS hsr5)
                refine ⟨sfx_trans hsfx hsr5, ?_⟩
                intro s hs
                simp [Json.strValsFields] at hs
                rcases hs with hs | hs
                · exact isSub_of_sfx (hstrV s hs) hsr3
                · exact isSub_of_sfx (hstrM s hs) hsr5
              · rename_i r5 heq5
                injection h with h
                rw [Prod.mk.injEq] at h
                obtain ⟨hv, hr⟩ := h
                subst hv
                subst hr
                refine ⟨sfx_trans (sfx_tail (heq5 ▸ sfx_skipWs r4)) hsr4, ?_⟩
                intro s hs
                simp [Json.strValsFields] at hs
                exact isSub_of_sfx (hstrV s hs) hsr3
              · exact absurd h (by simp)
          · exact absurd h (by simp)
      · exact absurd h (by simp)
    · intro l xs rest h hBS
      rw [parseElems] at h
      split at h
      · exact absurd h (by simp)
      · rename_i v r heqV
        obtain ⟨hsfxr, hstrV⟩ := ihV l v r heqV hBS
        split at h
        · rename_i r2 heq2
          have hsr2 : sfx r2 l :=
            sfx_trans (sfx_tail (heq2 ▸ sfx_skipWs r)) hsfxr
          rw [Option.map_eq_some'] at h
          obtain ⟨p, hp, hpe⟩ := h
          rw [Prod.mk.injEq] at hpe
          obtain ⟨hv, hr⟩ := hpe
          subst hv
          subst hr
          obtain ⟨hsfx, hstrE⟩ := ihE r2 p.1 p.2 hp (noBS_sfx hBS hsr2)
          refine ⟨sfx_trans hsfx hsr2, ?_⟩
          intro s hs
          simp [Json.strValsList] at hs
          rcases hs with hs | hs
          · exact hstrV s hs
          · exact isSub_of_sfx (hstrE s hs) hsr2
        · rename_i r2 heq2
          injection h with h
          rw [Prod.mk.injEq] at h
          obtain ⟨hv, hr⟩ := h
          subst hv
          subst hr
          refine ⟨sfx_trans (sfx_tail (heq2 ▸ sfx_skipWs r)) hsfxr, ?_⟩
          intro s hs
          simp [Json.strValsList] at hs
          exact hstrV s hs
        · exact absurd h (by simp)

theorem isSub_of_sfx2 {x l : List Char} (h : sfx x l) : isSub x l := by
  obtain ⟨a, rfl⟩ := h
  exact ⟨a, [], by simp⟩

theorem isSub_trans {x y z : List Char} (h1 : isSub x y) (h2 : isSub y z) :
    isSub x z := by
  obtain ⟨a1, b1, rfl⟩ := h1
  obtain ⟨a2, b2, rfl⟩ := h2
  exact ⟨a2 ++ a1, b1 ++ b2, by simp⟩

theorem isSub_refl (l : List Char) : isSub l l := ⟨[], [], by simp⟩

theorem isSub_drop_take (l : List Char) (s n : Nat) :
    isSub ((l.drop s).take n) l :=
  ⟨l.take s, (l.drop s).drop n, by
    rw [List.take_append_drop, List.take_append_drop]⟩

theorem sfx_drop (l : List Char) (n : Nat) : sfx (l.drop n) l :=
  ⟨l.take n, (List.take_append_drop n l).symm⟩

theorem sfx_dropWhile (p : Char → Bool) (l : List Char) :
    sfx (l.dropWhile p) l :=
  ⟨l.takeWhile p, (List.takeWhile_append_dropWhile p l).symm⟩

theorem isSub_jsTrim (l : List Char) : isSub (jsTrim l) l := by
  unfold jsTrim
  obtain ⟨a, ha⟩ := sfx_dropWhile isJsWs l
  obtain ⟨b, hb⟩ := sfx_dropWhile isJsWs (l.dropWhile isJsWs).reverse
  refine ⟨a, b.reverse, ?_⟩
  have h2 : l.dropWhile isJsWs =
      ((l.dropWhile isJsWs).reverse.dropWhile isJsWs).reverse ++ b.reverse := by
    have h3 := congrArg List.reverse hb
    rw [List.reverse_reverse, List.reverse_append] at h3
    exact h3
  exact ha.trans (congrArg (fun z => a ++ z) h2)

theorem isSub_stripFenceFront (l : List Char) : isSub (stripFenceFront l) l := by
  unfold stripFenceFront
  by_cases h : l.take 3 = [backtick, backtick, backtick]
  · rw [if_pos h]
    show isSub ((if ((l.drop 3).take 4).map Char.toLower = ['j', 's', 'o', 'n']
      then (l.drop 3).drop 4 else l.drop 3).dropWhile isJsWs) l
    by_cases h2 : ((l.drop 3).take 4).map Char.toLower = ['j', 's', 'o', 'n']
    · rw [if_pos h2]
      exact isSub_of_sfx2 (sfx_trans (sfx_dropWhile _ _)
        (sfx_trans (sfx_drop _ 4) (sfx_drop _ 3)))
    · rw [if_neg h2]
      exact isSub_of_sfx2 (sfx_trans (sfx_dropWhile _ _) (sfx_drop _ 3))
  · rw [if_neg h]
    exact isSub_refl l

theorem isSub_stripFenceBack (l : List Char) : isSub (stripFenceBack l) l := by
  unfold stripFenceBack
  show isSub (if (l.reverse.dropWhile isJsWs).take 3 = [backtick, backtick, backtick]
    then (((l.reverse.dropWhile isJsWs).drop 3).dropWhile isJsWs).reverse else l) l
  by_cases h : (l.reverse.dropWhile isJsWs).take 3 = [backtick, backtick, backtick]
  · rw [if_pos h]
    have hs : sfx (((l.reverse.dropWhile isJsWs).drop 3).dropWhile isJsWs)
        l.reverse :=
      sfx_trans (sfx_dropWhile _ _) (sfx_trans (sfx_drop _ 3) (sfx_dropWhile _ _))
    obtain ⟨a, ha⟩ := hs
    refine ⟨[], a.reverse, ?_⟩
    have h3 := congrArg List.reverse ha
    rw [List.reverse_reverse, List.reverse_append] at h3
    rw [List.nil_append]
    exact h3
  · rw [if_neg h]
    exact isSub_refl l

theorem isSub_cleanContent (l : List Char) : isSub (cleanContent l) l := by
  unfold cleanContent
  exact isSub_trans (isSub_jsTrim _)
    (isSub_trans (isSub_stripFenceBack _)
      (isSub_trans (isSub_stripFenceFront _) (isSub_jsTrim l)))

theorem isPrefixOf_append_self : ∀ (x b : List Char),
    List.isPrefixOf x (x ++ b) = true := by
  intro x
  induction x with
  | nil => intro b; simp [List.isPrefixOf]
  | cons c xs ih =>
    intro b
    rw [List.cons_append]
    simp [List.isPrefixOf, ih b]

theorem exists_of_isPrefixOf : ∀ (pat l : List Char),
    List.isPrefixOf pat l = true → ∃ b, l = pat ++ b := by
  intro pat
  induction pat with
  | nil => intro l _; exact ⟨l, rfl⟩
  | cons c xs ih =>
    intro l h
    cases l with
    | nil => exact absurd h (by simp [List.isPrefixOf])
    | cons d t =>
      simp only [List.isPrefixOf, Bool.and_eq_true, beq_iff_eq] at h
      obtain ⟨b, hb⟩ := ih t h.2
      exact ⟨b, by rw [h.1, hb, List.cons_append]⟩

theorem idxOfSubstr_isSome_of_isSub {pat l : List Char} (h : isSub pat l) :
    (idxOfSubstr l pat).isSome = true := by
  obtain ⟨a, b, rfl⟩ := h
  induction a with
  | nil =>
    rw [List.nil_append]
    cases hp : pat with
    | nil =>
      cases b with
      | nil => rfl
      | cons c t =>
        show (if List.isPrefixOf [] (c :: t) then some 0
          else (idxOfSubstr t []).map (· + 1)).isSome = true
        rw [if_pos (by simp [List.isPrefixOf])]
        rfl
    | cons c t =>
      show (if List.isPrefixOf (c :: t) ((c :: t) ++ b) then some 0
        else (idxOfSubstr (t ++ b) (c :: t)).map (· + 1)).isSome = true
      rw [if_pos (isPrefixOf_append_self (c :: t) b)]
      rfl
  | cons c a ih =>
    rw [List.cons_append]
    show (if List.isPrefixOf pat (c :: (a ++ (pat ++ b))) then some 0
      else (idxOfSubstr (a ++ (pat ++ b)) pat).map (· + 1)).isSome = true
    by_cases hp : List.isPrefixOf pat (c :: (a ++ (pat ++ b))) = true
    · rw [if_pos hp]
      rfl
    · rw [if_neg hp]
      cases hx : idxOfSubstr (a ++ (pat ++ b)) pat with
      | none => rw [hx] at ih; exact absurd ih (by simp)
      | some v => rfl

theorem isSub_of_idxOfSubstr_isSome : ∀ (l pat : List Char),
    (idxOfSubstr l pat).isSome = true → isSub pat l := by
  intro l
  induction l with
  | nil =>
    intro pat h
    by_cases hp : pat.isEmpty = true
    · have hpe : pat = [] := by
        cases pat
        · rfl
        · exact absurd hp (by simp)
      subst hpe
      exact isSub_refl []
    · rw [show idxOfSubstr [] pat = (if pat.isEmpty then some 0 else none)
        from rfl, if_neg (by simpa using hp)] at h
      exact absurd h (by simp)
  | cons c t ih =>
    intro pat h
    rw [show idxOfSubstr (c :: t) pat =
      (if List.isPrefixOf pat (c :: t) then some 0
       else (idxOfSubstr t pat).map (· + 1)) from rfl] at h
    by_cases hp : List.isPrefixOf pat (c :: t) = true
    · obtain ⟨b, hb⟩ := exists_of_isPrefixOf pat (c :: t) hp
      exact ⟨[], b, by rw [hb, List.nil_append]⟩
    · rw [if_neg hp] at h
      have h2 : (idxOfSubstr t pat).isSome = true := by
        cases hx : idxOfSubstr t pat with
        | none => rw [hx] at h; exact absurd h (by simp)
        | some v => rfl
      obtain ⟨a, b, hb⟩ := ih pat h2
      exact ⟨c :: a, b, by rw [hb, List.cons_append]⟩

theorem jsonParseChars_strVals {l : List Char} {v : Json}
    (hBS : noBS l) (h : jsonParseChars l = some v) :
    ∀ s ∈ Json.strVals v, isSub s.data l := by
  unfold jsonParseChars at h
  cases hp : parseVal (l.length + 1) l with
  | none => rw [hp] at h; exact absurd h (by simp)
  | some pr =>
    obtain ⟨j, rest⟩ := pr
    rw [hp] at h
    have h2 : (if (skipWs rest).isEmpty then some j else none) = some v := h
    by_cases hws : (skipWs rest).isEmpty = true
    · rw [if_pos hws] at h2
      injection h2 with h2
      subst h2
      exact ((parse_noBS_mut (l.length + 1)).1 l j rest hp hBS).2
    · rw [if_neg hws] at h2
      exact absurd h2 (by simp)

theorem firstTruthyField_origin (j : Json) : ∀ (keys : List String) (w : Json),
    firstTruthyField j keys = some w →
    jsTruthy w = true ∧ ∃ k, j.getField k = some w := by
  intro keys
  induction keys with
  | nil => intro w h; exact absurd h (by simp [firstTruthyField])
  | cons k ks ih =>
    intro w h
    rw [show firstTruthyField j (k :: ks) = (match j.getField k with
      | some u => if jsTruthy u then some u else firstTruthyField j ks
      | none => firstTruthyField j ks) from rfl] at h
    cases hg : j.getField k with
    | none => rw [hg] at h; exact ih w h
    | some u =>
      rw [hg] at h
      have h2 : (if jsTruthy u = true then some u else firstTruthyField j ks)
          = some w := h
      by_cases ht : jsTruthy u = true
      · rw [if_pos ht] at h2
        injection h2 with h2
        subst h2
        exact ⟨ht, k, hg⟩
      · rw [if_neg ht] at h2
        exact ih w h2

theorem strValsFields_mem : ∀ (fs : List (String × Json)) (p : String × Json),
    p ∈ fs → ∀ s ∈ Json.strVals p.2, s ∈ Json.strValsFields fs := by
  intro fs
  induction fs with
  | nil => intro p hp; exact absurd hp (List.not_mem_nil p)
  | cons q qs ih =>
    intro p hp s hs
    obtain ⟨k2, v2⟩ := q
    rw [show Json.strValsFields ((k2, v2) :: qs) =
      Json.strVals v2 ++ Json.strValsFields qs from rfl]
    rcases List.mem_cons.mp hp with h | h
    · subst h
      exact List.mem_append_left _ hs
    · exact List.mem_append_right _ (ih p h s hs)

theorem getField_strVals {v w : Json} {k : String}
    (h : Json.getField v k = some w) :
    ∀ s ∈ Json.strVals w, s ∈ Json.strVals v := by
  cases v with
  | obj fs =>
    rw [show Json.getField (Json.obj fs) k =
      ((fs.reverse.find? (fun p => p.1 == k)).map (·.2)) from rfl,
      Option.map_eq_some'] at h
    obtain ⟨p, hfind, hpe⟩ := h
    subst hpe
    have hpmem : p ∈ fs := by
      have := List.mem_of_find?_eq_some hfind
      rwa [List.mem_reverse] at this
    intro s hs
    exact strValsFields_mem fs p hpmem s hs
  | null => exact absurd h (by simp [Json.getField])
  | bool b => exact absurd h (by simp [Json.getField])
  | num n => exact absurd h (by simp [Json.getField])
  | str s2 => exact absurd h (by simp [Json.getField])
  | arr xs => exact absurd h (by simp [Json.getField])

theorem extractFromJson_name {v : Json} {known : List String} {tc : ToolCall}
    (h : extractFromJson v known = some tc) :
    tc.name ∈ known ∧ tc.name ≠ "" ∧ tc.name ∈ Json.strVals v := by
  unfold extractFromJson at h
  split at h
  · rename_i toolName heq
    obtain ⟨ht, k, hg⟩ := firstTruthyField_origin v _ _ heq
    have hne : toolName ≠ "" := by
      simp [jsTruthy] at ht
      exact ht
    have hmemv : toolName ∈ Json.strVals v := by
      apply getField_strVals hg
      rw [show Json.strVals (Json.str toolName) = [toolName] from rfl]
      exact List.mem_singleton.mpr rfl
    by_cases hm : toolName ∈ known
    · rw [if_pos hm] at h
      split at h
      · rw [Option.map_eq_some'] at h
        obtain ⟨a, ha, hae⟩ := h
        subst hae
        exact ⟨hm, hne, hmemv⟩
      · injection h with h
        subst h
        exact ⟨hm, hne, hmemv⟩
    · rw [if_neg hm] at h
      exact absurd h (by simp)
  · exact absurd h (by simp)

theorem ebjGo_mem_slice (text : List Char) : ∀ (l : List Char) (i : Nat)
    (d : Int) (st : Option Nat) (cand : List Char), cand ∈ ebjGo text l i d st →
    ∃ s n, cand = (text.drop s).take n := by
  intro l
  induction l with
  | nil => intro i d st cand hc; simp [ebjGo] at hc
  | cons c rest ih =>
    intro i d st cand hc
    rw [ebjGo_cons] at hc
    by_cases h1 : c = '{'
    · rw [if_pos h1] at hc
      exact ih _ _ _ cand hc
    · rw [if_neg h1] at hc
      by_cases h2 : c = '}'
      · rw [if_pos h2] at hc
        by_cases h3 : d - 1 = 0
        · rw [if_pos h3] at hc
          cases st with
          | some s =>
            have hc2 : cand ∈ ((text.drop s).take (i + 1 - s)) ::
                ebjGo text rest (i + 1) (d - 1) none := hc
            rcases List.mem_cons.mp hc2 with h | h
            · exact ⟨s, i + 1 - s, h⟩
            · exact ih _ _ _ cand h
          | none => exact ih _ _ _ cand hc
        · rw [if_neg h3] at hc
          exact ih _ _ _ cand hc
      · rw [if_neg h2] at hc
        exact ih _ _ _ cand hc

theorem firstExtract_none (known : List String) :
    ∀ (cands : List (List Char)),
    (∀ cand ∈ cands, ∀ v, jsonParseChars cand = some v →
      extractFromJson v known = none) →
    firstExtract cands known = none := by
  intro cands
  induction cands with
  | nil => intro _; rfl
  | cons cand rest ih =>
    intro h
    cases hp : jsonParseChars cand with
    | none =>
      show (match jsonParseChars cand with
        | some parsed =>
          (match extractFromJson parsed known with
           | some tc => some tc
           | none => firstExtract rest known)
        | none => firstExtract rest known) = none
      rw [hp]
      exact ih (fun c hc => h c (List.mem_cons_of_mem _ hc))
    | some parsed =>
      show (match jsonParseChars cand with
        | some parsed2 =>
          (match extractFromJson parsed2 known with
           | some tc => some tc
           | none => firstExtract rest known)
        | none => firstExtract rest known) = none
      rw [hp]
      show (match extractFromJson parsed known with
        | some tc => some tc
        | none => firstExtract rest known) = none
      rw [h cand (List.mem_cons_self _ _) parsed hp]
      exact ih (fun c hc => h c (List.mem_cons_of_mem _ hc))

theorem strat3_none (cleaned : List Char) : ∀ (known : List String),
    (∀ n ∈ known, (idxOfSubstr cleaned n.data).isSome = false) →
    strat3 cleaned known = none := by
  intro known
  induction known with
  | nil => intro _; rfl
  | cons n ns ih =>
    intro h
    cases hidx : idxOfSubstr cleaned n.data with
    | some idx =>
      have h2 := h n (List.mem_cons_self n ns)
      rw [hidx] at h2
      exact absurd h2 (by simp)
    | none =>
      unfold strat3
      rw [hidx]
      exact ih (fun m hm => h m (List.mem_cons_of_mem n hm))

theorem parseToolCall_none (text : String) (known : List String)
    (hBS : noBS text.data)
    (hni : ∀ n ∈ known, jsIncludes text.data n.data = false) :
    parseToolCallFromContent text known = none := by
  by_cases hempty : text = "" ∨ known = []
  · unfold parseToolCallFromContent
    rw [if_pos hempty]
  · push_neg at hempty
    rw [parseToolCallFromContent_eq text known hempty.1 hempty.2]
    have hsubc : isSub (cleanContent text.data) text.data := isSub_cleanContent _
    have hcore : ∀ (cand : List Char), isSub cand text.data →
        ∀ v, jsonParseChars cand = some v → extractFromJson v known = none := by
      intro cand hsub v hv
      cases hex : extractFromJson v known with
      | none => rfl
      | some tc =>
        obtain ⟨hmem, hne, hstr⟩ := extractFromJson_name hex
        have hBScand : noBS cand := by
          intro c hc
          obtain ⟨a, b, hab⟩ := hsub
          exact hBS c (by
            rw [hab]
            exact List.mem_append_right a (List.mem_append_left b hc))
        have hsubname := jsonParseChars_strVals hBScand hv tc.name hstr
        have hoccurs : (idxOfSubstr text.data tc.name.data).isSome = true :=
          idxOfSubstr_isSome_of_isSub (isSub_trans hsubname hsub)
        have h3 := hni tc.name hmem
        rw [show jsIncludes text.data tc.name.data =
          (idxOfSubstr text.data tc.name.data).isSome from rfl, hoccurs] at h3
        exact absurd h3 (by simp)
    have hs1 : strat1 (cleanContent text.data) known = none := by
      unfold strat1
      cases hp : jsonParseChars (cleanContent text.data) with
      | none => rfl
      | some v => exact hcore (cleanContent text.data) hsubc v hp
    have hs2 : strat2 (cleanContent text.data) known = none := by
      unfold strat2
      apply firstExtract_none
      intro cand hcand v hv
      unfold extractBalancedJsonObjects at hcand
      obtain ⟨s, n, hc⟩ := ebjGo_mem_slice (cleanContent text.data) _ _ _ _ cand hcand
      exact hcore cand (by
        rw [hc]
        exact isSub_trans (isSub_drop_take _ s n) hsubc) v hv
    have hs3 : strat3 (cleanContent text.data) known = none := by
      apply strat3_none
      intro n hn
      cases hidx : idxOfSubstr (cleanContent text.data) n.data with
      | none => rfl
      | some idx =>
        have hocc : isSub n.data (cleanContent text.data) :=
          isSub_of_idxOfSubstr_isSome _ _ (by rw [hidx]; rfl)
        have h2 := hni n hn
        rw [show jsIncludes text.data n.data =
          (idxOfSubstr text.data n.data).isSome from rfl,
          idxOfSubstr_isSome_of_isSub (isSub_trans hocc hsubc)] at h2
        exact absurd h2 (by simp)
    rw [hs1, hs2]
    exact hs3

theorem skipWs_eq_self {l : List Char}
    (h : ∀ c, l.head? = some c → isJsonWs c = false) : skipWs l = l := by
  unfold skipWs
  cases l with
  | nil => rfl
  | cons a t =>
    rw [List.dropWhile_cons, h a rfl]
    simp

theorem parseVal_obj_head {f : Nat} {l r : List Char} {fs : List (String × Json)}
    (h : parseVal (f + 1) l = some (Json.obj fs, r)) :
    (skipWs l).head? = some '{' := by
  rw [parseVal] at h
  split at h
  · rename_i r2 heq
    injection h with h
    rw [Prod.mk.injEq] at h
    exact absurd h.1 (by simp)
  · rename_i r2 heq
    injection h with h
    rw [Prod.mk.injEq] at h
    exact absurd h.1 (by simp)
  · rename_i r2 heq
    injection h with h
    rw [Prod.mk.injEq] at h
    exact absurd h.1 (by simp)
  · rename_i r2 heq
    rw [Option.map_eq_some'] at h
    obtain ⟨p, _, hpe⟩ := h
    rw [Prod.mk.injEq] at hpe
    exact absurd hpe.1 (by simp)
  · rename_i r2 heq
    rw [heq]
    rfl
  · rename_i r2 heq
    split at h
    · injection h with h
      rw [Prod.mk.injEq] at h
      exact absurd h.1 (by simp)
    · rw [Option.map_eq_some'] at h
      obtain ⟨p, _, hpe⟩ := h
      rw [Prod.mk.injEq] at hpe
      exact absurd hpe.1 (by simp)
  · rw [Option.map_eq_some'] at h
    obtain ⟨p, _, hpe⟩ := h
    rw [Prod.mk.injEq] at hpe
    exact absurd hpe.1 (by simp)

theorem extractFromJson_nonobj {v : Json} (h : ∀ gs, v ≠ Json.obj gs)
    (known : List String) : extractFromJson v known = none := by
  have hg : ∀ k, v.getField k = none := by
    intro k
    cases v with
    | obj fs => exact absurd rfl (h fs)
    | null => rfl
    | bool b => rfl
    | num n => rfl
    | str s => rfl
    | arr xs => rfl
  have hft : ∀ keys, firstTruthyField v keys = none := by
    intro keys
    induction keys with
    | nil => rfl
    | cons k ks ih =>
      rw [show firstTruthyField v (k :: ks) = (match v.getField k with
        | some u => if jsTruthy u then some u else firstTruthyField v ks
        | none => firstTruthyField v ks) from rfl, hg k]
      exact ih
  unfold extractFromJson
  rw [hft]

theorem parseVal_ser_obj (f : Nat) (fs : List (String × Json)) (rest : List Char)
    (hf : (serChars (Json.obj fs)).length < f) :
    parseVal f (serChars (Json.obj fs) ++ rest) = some (Json.obj fs, rest) := by
  cases f with
  | zero => exact absurd hf (by omega)
  | succ f =>
    cases fs with
    | nil => rfl
    | cons p fs2 =>
      obtain ⟨k, v⟩ := p
      obtain ⟨t, ht, ht0, ht1⟩ := serMembers_cons_decomp k v fs2
      have hx : serChars (.obj ((k, v) :: fs2)) ++ rest =
          '{' :: (serMembers ((k, v) :: fs2) ++ '}' :: rest) := by
        simp [serChars]
      rw [hx, parseVal_succ_lbrace]
      have hcons : serMembers ((k, v) :: fs2) ++ '}' :: rest =
          '"' :: (serStrBody k.data ++ '"' ::
            (':' :: (serChars v ++ t ++ '}' :: rest))) := by
        rw [ht]
        simp [serStr]
      rw [hcons, skipWs_cons _ (by decide)]
      split
      · rename_i heq
        injection heq with ha _
        exact absurd ha (by decide)
      · rw [← hcons]
        have hm := (parse_ser_mut f).2.1 ((k, v) :: fs2) rest (by simp) (by
          have h2 : (serChars (.obj ((k, v) :: fs2))).length =
              (serMembers ((k, v) :: fs2)).length + 2 := by
            simp [serChars]
          omega)
        rw [hm]
        rfl

theorem jsonParseChars_ser_obj_rest (fs : List (String × Json))
    (postD : List Char) :
    jsonParseChars (serChars (Json.obj fs) ++ postD) =
      (if (skipWs postD).isEmpty then some (Json.obj fs) else none) := by
  unfold jsonParseChars
  rw [parseVal_ser_obj _ fs postD (by
    rw [List.length_append]
    omega)]

theorem isJsonWs_false_of_isJsWs_false {c : Char} (h : isJsWs c = false) :
    isJsonWs c = false := by
  unfold isJsWs at h
  unfold isJsonWs
  simp only [Bool.or_eq_false_iff, decide_eq_false_iff_not] at h ⊢
  tauto

theorem parseToolCall_wrapped (pre post : List Char) (fs : List (String × Json))
    (known : List String) (tc : ToolCall)
    (hpre : ∀ c ∈ pre, c ≠ '{' ∧ c ≠ '}' ∧ c ≠ backtick)
    (hpost : ∀ c ∈ post, c ≠ '{' ∧ c ≠ '}' ∧ c ≠ backtick)
    (hbf : Json.strsBF (Json.obj fs) = true)
    (hex : extractFromJson (Json.obj fs) known = some tc) :
    parseToolCallFromContent (String.mk (pre ++ (serChars (Json.obj fs) ++ post)))
      known = some tc := by
  have hser : serChars (Json.obj fs) = '{' :: (serMembers fs ++ ['}']) := rfl
  have hkne : known ≠ [] := by
    obtain ⟨hmem, _, _⟩ := extractFromJson_name hex
    exact List.ne_nil_of_mem hmem
  have hcne : String.mk (pre ++ (serChars (Json.obj fs) ++ post)) ≠ "" := by
    intro h
    have h2 : pre ++ (serChars (Json.obj fs) ++ post) = [] := congrArg String.data h
    rw [List.append_eq_nil] at h2
    rw [List.append_eq_nil] at h2
    have := serChars_length_pos (Json.obj fs)
    rw [h2.2.1] at this
    simp at this
  rw [parseToolCallFromContent_eq _ known hcne hkne]
  have hclean : cleanContent (String.mk
      (pre ++ (serChars (Json.obj fs) ++ post))).data =
      (pre.dropWhile isJsWs) ++ (('{' :: (serMembers fs ++ ['}'])) ++
        ((post.reverse.dropWhile isJsWs).reverse)) := by
    show cleanContent (pre ++ (serChars (Json.obj fs) ++ post)) = _
    rw [hser]
    exact cleanContent_decomp pre (serMembers fs) post
      (fun c hc => (hpre c hc).2.2) (fun c hc => (hpost c hc).2.2)
  rw [hclean]
  have hbal := serMembers_balance fs (fun p _ h => serChars_balance p.2 h) hbf
  have hpostD : ∀ c ∈ (post.reverse.dropWhile isJsWs).reverse,
      c ≠ '{' ∧ c ≠ '}' ∧ c ≠ backtick := by
    intro c hc
    rw [List.mem_reverse] at hc
    have h2 := mem_dropWhile hc
    rw [List.mem_reverse] at h2
    exact hpost c h2
  have hpreDmem : ∀ c ∈ pre.dropWhile isJsWs, c ≠ '{' ∧ c ≠ '}' ∧ c ≠ backtick :=
    fun c hc => hpre c (mem_dropWhile hc)
  have hs2 : strat2 ((pre.dropWhile isJsWs) ++ (('{' :: (serMembers fs ++ ['}'])) ++
      ((post.reverse.dropWhile isJsWs).reverse))) known = some tc := by
    unfold strat2
    rw [extractBalancedJsonObjects_decomp (pre.dropWhile isJsWs) (serMembers fs)
      ((post.reverse.dropWhile isJsWs).reverse)
      (fun c hc => braceDelta_eq_zero (hpreDmem c hc).1 (hpreDmem c hc).2.1)
      (fun c hc => braceDelta_eq_zero (hpostD c hc).1 (hpostD c hc).2.1)
      hbal.1 hbal.2]
    show (match jsonParseChars ('{' :: (serMembers fs ++ ['}'])) with
      | some parsed =>
        (match extractFromJson parsed known with
         | some tc2 => some tc2
         | none => firstExtract [] known)
      | none => firstExtract [] known) = some tc
    have hparse : jsonParseChars ('{' :: (serMembers fs ++ ['}'])) =
        some (Json.obj fs) := jsonParseChars_ser (Json.obj fs)
    rw [hparse]
    show (match extractFromJson (Json.obj fs) known with
      | some tc2 => some tc2
      | none => firstExtract [] known) = some tc
    rw [hex]
  by_cases hpd : pre.dropWhile isJsWs = []
  · rw [hpd, List.nil_append]
    rw [hpd, List.nil_append] at hs2
    by_cases hws : (skipWs ((post.reverse.dropWhile isJsWs).reverse)).isEmpty = true
    · have hs1 : strat1 (('{' :: (serMembers fs ++ ['}'])) ++
          ((post.reverse.dropWhile isJsWs).reverse)) known = some tc := by
        unfold strat1
        have hp2 : jsonParseChars (('{' :: (serMembers fs ++ ['}'])) ++
            ((post.reverse.dropWhile isJsWs).reverse)) = some (Json.obj fs) := by
          have h3 := jsonParseChars_ser_obj_rest fs
            ((post.reverse.dropWhile isJsWs).reverse)
          rw [if_pos hws] at h3
          exact h3
        rw [hp2]
        show extractFromJson (Json.obj fs) known = some tc
        exact hex
      rw [hs1]
    · have hs1 : strat1 (('{' :: (serMembers fs ++ ['}'])) ++
          ((post.reverse.dropWhile isJsWs).reverse)) known = none := by
        unfold strat1
        have hp2 : jsonParseChars (('{' :: (serMembers fs ++ ['}'])) ++
            ((post.reverse.dropWhile isJsWs).reverse)) = none := by
          have h3 := jsonParseChars_ser_obj_rest fs
            ((post.reverse.dropWhile isJsWs).reverse)
          rw [if_neg hws] at h3
          exact h3
        rw [hp2]
      rw [hs1]
      show (match strat2 (('{' :: (serMembers fs ++ ['}'])) ++
          ((post.reverse.dropWhile isJsWs).reverse)) known with
        | some tc2 => some tc2
        | none => strat3 (('{' :: (serMembers fs ++ ['}'])) ++
            ((post.reverse.dropWhile isJsWs).reverse)) known) = some tc
      rw [hs2]
  · obtain ⟨a, t, hat⟩ := List.exists_cons_of_ne_nil hpd
    have hs1 : strat1 ((pre.dropWhile isJsWs) ++ (('{' :: (serMembers fs ++ ['}'])) ++
        ((post.reverse.dropWhile isJsWs).reverse))) known = none := by
      unfold strat1
      cases hp : jsonParseChars ((pre.dropWhile isJsWs) ++
          (('{' :: (serMembers fs ++ ['}'])) ++
            ((post.reverse.dropWhile isJsWs).reverse))) with
      | none => rfl
      | some v =>
        have hne2 : ∀ gs, v ≠ Json.obj gs := by
          intro gs hv
          subst hv
          unfold jsonParseChars at hp
          cases hpv : parseVal (((pre.dropWhile isJsWs) ++
              (('{' :: (serMembers fs ++ ['}'])) ++
                ((post.reverse.dropWhile isJsWs).reverse))).length + 1)
              ((pre.dropWhile isJsWs) ++ (('{' :: (serMembers fs ++ ['}'])) ++
                ((post.reverse.dropWhile isJsWs).reverse))) with
          | none => rw [hpv] at hp; exact absurd hp (by simp)
          | some pr =>
            obtain ⟨j, rest⟩ := pr
            rw [hpv] at hp
            have hp2 : (if (skipWs rest).isEmpty then some j else none)
                = some (Json.obj gs) := hp
            by_cases hws2 : (skipWs rest).isEmpty = true
            · rw [if_pos hws2] at hp2
              injection hp2 with hp2
              subst hp2
              have hhd := parseVal_obj_head hpv
              rw [skipWs_eq_self (fun c hc => by
                rw [hat] at hc
                have hc2 : some a = some c := hc
                injection hc2 with hc2
                subst hc2
                exact isJsonWs_false_of_isJsWs_false
                  (head?_dropWhile isJsWs pre a (by rw [hat]; rfl)))] at hhd
              rw [hat] at hhd
              have hhd2 : some a = some '{' := hhd
              injection hhd2 with hhd2
              exact absurd hhd2 (hpre a (mem_dropWhile (by
                rw [hat]
                exact List.mem_cons_self a t))).1
            · rw [if_neg hws2] at hp2
              exact absurd hp2 (by simp)
        rw [show (match some v with
          | some parsed => extractFromJson parsed known
          | none => none) = extractFromJson v known from rfl]
        exact extractFromJson_nonobj hne2 known
    rw [hs1]
    show (match strat2 ((pre.dropWhile isJsWs) ++
        (('{' :: (serMembers fs ++ ['}'])) ++
          ((post.reverse.dropWhile isJsWs).reverse))) known with
      | some tc2 => some tc2
      | none => strat3 ((pre.dropWhile isJsWs) ++
          (('{' :: (serMembers fs ++ ['}'])) ++
            ((post.reverse.dropWhile isJsWs).reverse))) known) = some tc
    rw [hs2]

/-- C8 counterexample: prose containing a brace before a well-formed
embedded tool-call object derails the balanced-brace scanner, so the
extractor falls back to the name-substring strategy and returns EMPTY
arguments instead of the embedded call's arguments; and a text
containing only the JSON-escaped spelling of a known name (so the name
itself occurs nowhere in the text) still yields a call rather than
"no call". -/
theorem extractor_robustness_cx :
    parseToolCallFromContent
      "\x7b oops \x7b\"tool\":\"t\",\"args\":\x7b\"a\":1\x7d\x7d done" ["t"]
      = some ⟨"t", Json.obj []⟩ ∧
    (Json.obj [] : Json) ≠ Json.obj [("a", Json.num 1)] ∧
    parseToolCallFromContent "\x7b\"tool\":\"a\\\"b\"\x7d" ["a\"b"]
      = some ⟨"a\"b", Json.obj []⟩ ∧
    jsIncludes "\x7b\"tool\":\"a\\\"b\"\x7d".data "a\"b".data = false := by
  refine ⟨rfl, by simp, rfl, by decide⟩

/-- C8 (amended): the extractor is robust for prose-wrapped objects
only when the surrounding prose is free of braces and backticks and the
object's string literals are brace-free: then the embedded call is
returned exactly.  Absence of every known tool name guarantees "no
call" only on backslash-free text (escaped spellings can otherwise
synthesize a name that never occurs verbatim). -/
theorem extractor_robustness :
    (∀ (pre post : List Char) (fs : List (String × Json)) (known : List String)
      (tc : ToolCall),
      (∀ c ∈ pre, c ≠ '{' ∧ c ≠ '}' ∧ c ≠ backtick) →
      (∀ c ∈ post, c ≠ '{' ∧ c ≠ '}' ∧ c ≠ backtick) →
      Json.strsBF (Json.obj fs) = true →
      extractFromJson (Json.obj fs) known = some tc →
      parseToolCallFromContent
        (String.mk (pre ++ (serChars (Json.obj fs) ++ post))) known = some tc) ∧
    (∀ (text : String) (known : List String),
      (∀ c ∈ text.data, c ≠ '\\') →
      (∀ n ∈ known, jsIncludes text.data n.data = false) →
      parseToolCallFromContent text known = none) :=
  ⟨parseToolCall_wrapped, parseToolCall_none⟩

/-- C8 witness: a serialized `count_rooms` call survives brace-free
prose on both sides, and a chatty text naming no known tool yields no
call. -/
theorem extractor_robustness_witness :
    parseToolCallFromContent
      (String.mk ("Here is the call: ".data ++
        (serChars (Json.obj [("tool", Json.str "count_rooms"),
          ("args", Json.obj [("houseId", Json.num 1)])]) ++
          " hope it helps".data)))
      ["count_rooms"]
      = some ⟨"count_rooms", Json.obj [("houseId", Json.num 1)]⟩ ∧
    parseToolCallFromContent "just chatting about rooms" ["create_house"]
      = none := by
  constructor
  · exact extractor_robustness.1 "Here is the call: ".data " hope it helps".data
      [("tool", Json.str "count_rooms"), ("args", Json.obj [("houseId", Json.num 1)])]
      ["count_rooms"] ⟨"count_rooms", Json.obj [("houseId", Json.num 1)]⟩
      (by decide) (by decide) (by decide) rfl
  · exact extractor_robustness.2 "just chatting about rooms" ["create_house"]
      (by decide) (by decide)

end RentalAgent
